import Mathlib

/-!
Verification development for the dataflow-graph core of
`node-based-image-processor` (`src/NodeEditor.cpp`).

The embedding models:
* `cv::Mat` pin buffers as `Buf := List Int` (`[]` is the empty mat);
* `Pin`, `Node`, `Connection`, `NodeEditor` as records mirroring the C++
  data model (the node's virtual `process()` is carried as a pure
  function `procFn` from input-pin buffers to output-pin buffers,
  following the Node interface contract);
* the recursive evaluator `processNode`/`processGraph` with an explicit
  fuel parameter standing for the C++ call stack (fuel exhaustion and
  undefined-behaviour paths both map to `none`), instrumented with an
  event trace recording every buffer copy and every `process()` call;
* the structural operations `addNode`, `connect` (`handleConnections`),
  `deleteConnection` and node removal (the delete gesture in `draw()`).

A separate small heap model (`MatStore`) captures the reference
semantics of `cv::Mat` handles and `clone()` for the deep-copy claim.
-/

/-- Pixel buffer value: models a `cv::Mat` by value; `[]` is the empty mat. -/
abbrev Buf := List Int

/-- Pin: typed attachment point on a node (`Pin` in the C++ data model). -/
structure Pin where
  id : Nat
  name : String
  data : Buf
  connected : Bool
deriving Repr, DecidableEq

/-- Node: `BaseNode` with its pins; the virtual `process()` is carried as the
pure function `procFn` from input-pin buffers to output-pin buffers, per the
Node interface contract (reads input pins, writes output pins). -/
structure Node where
  id : Nat
  name : String
  inputs : List Pin
  outputs : List Pin
  dirty : Bool
  procFn : List Buf → List Buf

/-- Connection: directed edge, field order as in the aggregate
`{inputNode->id, outputNode->id, endPin, startPin}` pushed by
`handleConnections`. -/
structure Connection where
  inputNode : Nat
  outputNode : Nat
  inputPin : Nat
  outputPin : Nat
deriving Repr, DecidableEq

/-- The editor state: `nodes`, `connections`, the monotonic ID counter
`currentId` and the selection, as owned by `NodeEditor`. -/
structure NodeEditor where
  nodes : List Node
  connections : List Connection
  currentId : Nat
  selectedNode : Option Nat

/-- Evaluation-trace events: `copyEv src oi dst ii b` records the deep copy of
buffer `b` from output pin index `oi` of node `src` into input pin index `ii`
of node `dst`; `procEv n ins` records the invocation of node `n`'s
`process()` with input-pin buffers `ins`. -/
inductive Ev where
  | copyEv (src : Nat) (oi : Nat) (dst : Nat) (ii : Nat) (b : Buf)
  | procEv (n : Nat) (ins : List Buf)
deriving Repr, DecidableEq

/-- `NodeEditor::findNodeById`: first node whose `id` matches. -/
def findNodeById (g : NodeEditor) (nodeId : Nat) : Option Node :=
  g.nodes.find? (fun n => n.id == nodeId)

/-- `NodeEditor::findPinIndex`: index of the first pin with the given id
(`none` models the C++ return value `-1`). -/
def findPinIndex : List Pin → Nat → Option Nat
  | [], _ => none
  | p :: ps, pinId =>
    if p.id == pinId then some 0 else (findPinIndex ps pinId).map (· + 1)

/-- `NodeEditor::findNodeByPin`: first node owning a pin with the given id,
searching `inputs` when `isInput` and `outputs` otherwise. -/
def findNodeByPin (g : NodeEditor) (pinId : Nat) (isInput : Bool) : Option Node :=
  g.nodes.find? (fun n =>
    (if isInput then n.inputs else n.outputs).any (fun p => p.id == pinId))

/-- `NodeEditor::isConnectionValid`: both endpoint nodes exist. -/
def isConnectionValid (g : NodeEditor) (c : Connection) : Bool :=
  (findNodeById g c.inputNode).isSome && (findNodeById g c.outputNode).isSome

/-- The connection-pruning step at the top of `processGraph` (erase/remove_if
of connections failing `isConnectionValid`). -/
def pruneConnections (g : NodeEditor) : NodeEditor :=
  { g with connections := g.connections.filter (fun c => isConnectionValid g c) }

/-- Helper: update the first node in the list with the given id (mirrors a
mutation through the `BaseNode*` returned by `findNodeById`). -/
def updateFirstNode : List Node → Nat → (Node → Node) → List Node
  | [], _, _ => []
  | n :: ns, nid, f => if n.id == nid then f n :: ns else n :: updateFirstNode ns nid f

/-- Update the first node with the given id inside the editor. -/
def updateNodeFirst (g : NodeEditor) (nid : Nat) (f : Node → Node) : NodeEditor :=
  { g with nodes := updateFirstNode g.nodes nid f }

/-- Helper: overwrite the buffer of the pin at a given index
(`node->inputs[inputPinIdx].data = …`). -/
def setPinData : List Pin → Nat → Buf → List Pin
  | [], _, _ => []
  | p :: ps, 0, b => { p with data := b } :: ps
  | p :: ps, j + 1, b => p :: setPinData ps j b

/-- Helper: buffer of the pin at a given index (empty if out of range; the
C++ only indexes with indices returned by `findPinIndex`). -/
def pinDataAt (ps : List Pin) (i : Nat) : Buf :=
  match ps.get? i with
  | some p => p.data
  | none => []

/-- Helper: positional write of the buffers produced by `process()` onto the
output pins; outputs beyond the produced list keep their previous buffer. -/
def setOutData : List Pin → List Buf → List Pin
  | ps, [] => ps
  | [], _ :: _ => []
  | p :: ps, b :: bs => { p with data := b } :: setOutData ps bs

/-- Overwrite the output-pin buffers of the first node with the given id. -/
def setNodeOutputs (g : NodeEditor) (nid : Nat) (bs : List Buf) : NodeEditor :=
  updateNodeFirst g nid (fun n => { n with outputs := setOutData n.outputs bs })

/-- One iteration of the dependency loop body of `processNode` after the
recursive call: re-resolve both pins and, when the upstream output buffer is
non-empty, deep-copy it into the downstream input pin (lines 226–236). -/
def copyConn (g : NodeEditor) (c : Connection) (nid : Nat) (tr : List Ev) :
    NodeEditor × List Ev :=
  match findNodeById g c.outputNode, findNodeById g nid with
  | some u, some n =>
    match findPinIndex u.outputs c.outputPin, findPinIndex n.inputs c.inputPin with
    | some oi, some ii =>
      let src := pinDataAt u.outputs oi
      if src = [] then (g, tr)
      else
        (updateNodeFirst g nid (fun m => { m with inputs := setPinData m.inputs ii src }),
         tr ++ [Ev.copyEv c.outputNode oi nid ii src])
    | _, _ => (g, tr)
  | _, _ => (g, tr)

/-- Result of an evaluator step: editor state, processed set, event trace. -/
abbrev EvalOut := NodeEditor × List Nat × List Ev

/-- The dependency loop of `processNode` (`for (const auto& conn : connections)`):
for every connection naming `nid` as `inputNode`, recursively process the
upstream node (when it exists) and then run the copy step. `recur` is the
recursive call at one less stack depth. -/
def processDepsAux (recur : NodeEditor → Nat → List Nat → List Ev → Option EvalOut) :
    List Connection → NodeEditor → Nat → List Nat → List Ev → Option EvalOut
  | [], g, _, pr, tr => some (g, pr, tr)
  | c :: rest, g, nid, pr, tr =>
    if c.inputNode == nid then
      match findNodeById g c.outputNode with
      | none => processDepsAux recur rest g nid pr tr
      | some _ =>
        match recur g c.outputNode pr tr with
        | none => none
        | some (g₁, pr₁, tr₁) =>
          let p := copyConn g₁ c nid tr₁
          processDepsAux recur rest p.1 nid pr₁ p.2
    else processDepsAux recur rest g nid pr tr

/-- `NodeEditor::processNode`: skip if already processed; otherwise satisfy
the upstream dependencies, invoke the node's `process()` and mark it
processed. The fuel parameter bounds the recursion depth (the C++ call
stack); `none` means the fuel ran out (unbounded recursion in C++) or an
impossible dangling lookup. -/
def processNode : Nat → NodeEditor → Nat → List Nat → List Ev → Option EvalOut
  | 0, _, _, _, _ => none
  | fuel + 1, g, nid, pr, tr =>
    if nid ∈ pr then some (g, pr, tr)
    else
      match processDepsAux (processNode fuel) g.connections g nid pr tr with
      | none => none
      | some (g₁, pr₁, tr₁) =>
        match findNodeById g₁ nid with
        | none => none
        | some n =>
          some (setNodeOutputs g₁ nid (n.procFn (n.inputs.map (·.data))),
                nid :: pr₁,
                tr₁ ++ [Ev.procEv nid (n.inputs.map (·.data))])

/-- The outer loop of `processGraph` (`for (auto& node : nodes)`), iterating
the node list in insertion order. -/
def processSeq (fuel : Nat) : List Nat → NodeEditor → List Nat → List Ev → Option EvalOut
  | [], g, pr, tr => some (g, pr, tr)
  | nid :: rest, g, pr, tr =>
    match processNode fuel g nid pr tr with
    | none => none
    | some (g', pr', tr') => processSeq fuel rest g' pr' tr'

/-- `NodeEditor::processGraph`: prune invalid connections, then process every
node with an initially empty processed set. -/
def processGraphFull (fuel : Nat) (g : NodeEditor) : Option EvalOut :=
  let g₀ := pruneConnections g
  processSeq fuel (g₀.nodes.map (·.id)) g₀ [] []

/-- Evaluation pass, keeping only the editor state. -/
def processGraphSt (fuel : Nat) (g : NodeEditor) : Option NodeEditor :=
  (processGraphFull fuel g).map (·.1)

/-- Clearing of one input pin in `deleteConnection` (release the buffer and
reset the `connected` flag when the id matches). -/
def clearInputPin (pid : Nat) (p : Pin) : Pin :=
  if p.id == pid then { p with data := [], connected := false } else p

/-- Clearing of one output pin's `connected` flag in `deleteConnection`. -/
def clearOutputPin (pid : Nat) (p : Pin) : Pin :=
  if p.id == pid then { p with connected := false } else p

/-- The first half of the pin-clearing stage of `deleteConnection`: release
the buffer and `connected` flag of the matching input pins of the
connection's input node (skipped when the node lookup fails). -/
def clearInStage (g : NodeEditor) (c : Connection) : NodeEditor :=
  match findNodeById g c.inputNode with
  | some _ =>
    updateNodeFirst g c.inputNode
      (fun n => { n with inputs := n.inputs.map (clearInputPin c.inputPin) })
  | none => g

/-- The second half of the clearing stage: reset the `connected` flag of the
matching output pins of the connection's output node (skipped when the node
lookup fails). -/
def clearOutStage (g : NodeEditor) (c : Connection) : NodeEditor :=
  match findNodeById g c.outputNode with
  | some _ =>
    updateNodeFirst g c.outputNode
      (fun n => { n with outputs := n.outputs.map (clearOutputPin c.outputPin) })
  | none => g

/-- Both halves of the pin-clearing stage of `deleteConnection`. -/
def clearConnPins (g : NodeEditor) (c : Connection) : NodeEditor :=
  clearOutStage (clearInStage g c) c

/-- `NodeEditor::deleteConnection`: bounds-checked by the signed index; clears
the endpoint pins, erases the connection and runs a full evaluation pass.
Out-of-range indices return before doing anything. -/
def deleteConnection (fuel : Nat) (g : NodeEditor) (connectionIndex : Int) :
    Option NodeEditor :=
  if connectionIndex < 0 ∨ (g.connections.length : Int) ≤ connectionIndex then some g
  else
    match g.connections.get? connectionIndex.toNat with
    | none => some g
    | some c =>
      let g₂ := clearConnPins g c
      processGraphSt fuel
        { g₂ with connections := g₂.connections.eraseIdx connectionIndex.toNat }

/-- Mark the first node with the given id dirty (`node->dirty = true`). -/
def markDirty (g : NodeEditor) (nid : Nat) : NodeEditor :=
  updateNodeFirst g nid (fun n => { n with dirty := true })

/-- The link-created branch of `NodeEditor::handleConnections`: resolve the
owning nodes of both pins; when both resolve, append the connection and mark
both endpoint nodes dirty; otherwise do nothing. -/
def connect (g : NodeEditor) (startPin endPin : Nat) : NodeEditor :=
  match findNodeByPin g startPin false, findNodeByPin g endPin true with
  | some outN, some inN =>
    markDirty (markDirty
      { g with connections := g.connections ++ [⟨inN.id, outN.id, endPin, startPin⟩] }
      outN.id) inN.id
  | _, _ => g

/-- Helper: erase the first node with the given id (find_if + erase). -/
def eraseFirstNode : List Node → Nat → List Node
  | [], _ => []
  | n :: ns, nid => if n.id == nid then ns else n :: eraseFirstNode ns nid

/-- The node-delete gesture in `NodeEditor::draw`: erase every connection
referencing the node, then erase the node and (only when it existed) run a
full evaluation pass. -/
def removeNode (fuel : Nat) (g : NodeEditor) (nid : Nat) : Option NodeEditor :=
  let g₁ := { g with connections :=
    g.connections.filter (fun c => !(c.inputNode == nid || c.outputNode == nid)) }
  if g₁.nodes.any (fun n => n.id == nid) then
    processGraphSt fuel { g₁ with nodes := eraseFirstNode g₁.nodes nid }
  else some g₁

/-- The node kinds of the factory switch in `NodeEditor::createNode`.
Modelled from the spec: the `NodeType` enumeration is declared in a header
outside `src/`; the extra constructor `UnknownKind` stands for any value
outside the declared enumerators, which the `default:` branch of the switch
rejects. -/
inductive NodeType where
  | ImageInput | Output | BrightnessContrast | ColorChannelSplitter | Blur
  | Threshold | EdgeDetection | Blend | Noise | Convolution | UnknownKind
deriving Repr, DecidableEq

/-- Helper: a default pin awaiting its id from `addNode`. -/
def mkPin (nm : String) : Pin := ⟨0, nm, [], false⟩

/-- Prototype node for one kind. Modelled from the spec: the concrete node
variants (`ImageInputNode` … `ConvolutionNode`) live outside `src/`; each
declares a fixed variant-specific set of input and output pins at
construction time, and its processing algorithm is an external collaborator
(carried here as an unconstrained placeholder `procFn`). -/
def protoNode (nm : String) (ins outs : List String) : Node :=
  ⟨0, nm, ins.map mkPin, outs.map mkPin, false, fun _ => []⟩

/-- `NodeEditor::createNode`: factory switch over the node kinds; the
`default:` branch yields no node. -/
def createNode : NodeType → Option Node
  | .ImageInput => some (protoNode "Image Input" [] ["Image"])
  | .Output => some (protoNode "Output" ["Image"] [])
  | .BrightnessContrast => some (protoNode "Brightness/Contrast" ["Image"] ["Image"])
  | .ColorChannelSplitter => some (protoNode "Channel Splitter" ["Image"] ["R", "G", "B"])
  | .Blur => some (protoNode "Blur" ["Image"] ["Image"])
  | .Threshold => some (protoNode "Threshold" ["Image"] ["Image"])
  | .EdgeDetection => some (protoNode "Edge Detection" ["Image"] ["Image"])
  | .Blend => some (protoNode "Blend" ["Image A", "Image B"] ["Image"])
  | .Noise => some (protoNode "Noise" [] ["Image"])
  | .Convolution => some (protoNode "Convolution" ["Image"] ["Image"])
  | .UnknownKind => none

/-- Helper: assign sequential fresh ids to a pin list starting at `c`,
returning the relabelled pins and the next counter value. -/
def assignIds : List Pin → Nat → List Pin × Nat
  | [], c => ([], c)
  | p :: ps, c =>
    let r := assignIds ps (c + 1)
    ({ p with id := c } :: r.1, r.2)

/-- `NodeEditor::addNode` given the factory result: when a node was created,
assign the node id, then the input-pin ids in declaration order, then the
output-pin ids, all from `currentId`, and append the node. -/
def addNodeWith (g : NodeEditor) : Option Node → NodeEditor
  | none => g
  | some node =>
    let nid := g.currentId
    let ins := assignIds node.inputs (nid + 1)
    let outs := assignIds node.outputs ins.2
    { g with
        nodes := g.nodes ++ [{ node with id := nid, inputs := ins.1, outputs := outs.1 }],
        currentId := outs.2 }

/-- `NodeEditor::addNode<T>`: build via the factory and insert. -/
def addNode (g : NodeEditor) (t : NodeType) : NodeEditor :=
  addNodeWith g (createNode t)

/-- `NodeEditor::clear`: reset to the initial empty state. -/
def clearEditor (_ : NodeEditor) : NodeEditor := ⟨[], [], 0, none⟩

/-- The empty editor (initial state). -/
def emptyEditor : NodeEditor := ⟨[], [], 0, none⟩

/-- External structural events driving the core (§6 of the spec): add a node
of a kind, delete a node, create a link, delete a link by index. -/
inductive Op where
  | add (t : NodeType)
  | remove (nid : Nat)
  | link (startPin endPin : Nat)
  | unlink (i : Int)

/-- Apply one structural operation (with the evaluation passes it triggers). -/
def applyOp (fuel : Nat) (g : NodeEditor) : Op → Option NodeEditor
  | .add t => some (addNode g t)
  | .remove nid => removeNode fuel g nid
  | .link s e => some (connect g s e)
  | .unlink i => deleteConnection fuel g i

/-- Apply a sequence of structural operations from a starting state. -/
def runOps (fuel : Nat) : NodeEditor → List Op → Option NodeEditor
  | g, [] => some g
  | g, op :: rest =>
    match applyOp fuel g op with
    | none => none
    | some g' => runOps fuel g' rest

/-! ### Reference-level model of `cv::Mat` handles for the deep-copy step

A `MatStore` is the heap of pixel buffers; a mat handle is an address into
it. Plain `cv::Mat` assignment shares the address; `clone()` allocates a
fresh cell holding a copy of the contents. -/

/-- Heap of mat payloads; a handle is an index into `cells`. -/
structure MatStore where
  cells : List Buf
deriving Repr, DecidableEq

/-- Contents behind a handle (empty for an invalid handle). -/
def readCell (s : MatStore) (r : Nat) : Buf :=
  match s.cells.get? r with
  | some b => b
  | none => []

/-- In-place mutation of the buffer behind a handle. -/
def writeCell (s : MatStore) (r : Nat) (b : Buf) : MatStore :=
  ⟨s.cells.set r b⟩

/-- `cv::Mat::clone`: allocate a fresh cell with a copy of the contents and
return its handle. -/
def cloneMat (s : MatStore) (src : Nat) : MatStore × Nat :=
  (⟨s.cells ++ [readCell s src]⟩, s.cells.length)

/-- The buffer handoff of `processNode` (lines 231–235) at the handle level:
when the upstream output buffer is non-empty the downstream input pin is
assigned a clone of it; otherwise nothing happens and the downstream pin
keeps its previous handle. Returns the new store and the downstream pin's
handle. -/
def bufferHandoff (s : MatStore) (srcRef dstRef : Nat) : MatStore × Nat :=
  if readCell s srcRef = [] then (s, dstRef)
  else cloneMat s srcRef

/-! ### Derived notions used in the statements -/

/-- Node ids in list order. -/
def nodeIds (g : NodeEditor) : List Nat := g.nodes.map (·.id)

/-- Every id in the graph, node ids and pin ids alike, in traversal order. -/
def allIds (g : NodeEditor) : List Nat :=
  g.nodes.flatMap (fun n => n.id :: (n.inputs.map (·.id) ++ n.outputs.map (·.id)))

/-- Whether an event is the `process()` invocation of node `x`. -/
def isProcOf (x : Nat) (e : Ev) : Bool :=
  match e with
  | .procEv n _ => n == x
  | _ => false

/-- Ids of the `process()` invocations in a trace, in order. -/
def procIds (tr : List Ev) : List Nat :=
  tr.filterMap (fun e => match e with | .procEv n _ => some n | _ => none)

/-- Number of `process()` invocations of node `x` in a trace. -/
def procCount (tr : List Ev) (x : Nat) : Nat := (tr.filter (isProcOf x)).length

/-- Position of the (first) `process()` invocation of node `x` in a trace. -/
def procPos (tr : List Ev) (x : Nat) : Nat := tr.findIdx (isProcOf x)

/-- Structural data of a pin (everything but the buffer). -/
def pinShape (p : Pin) : Nat × String × Bool := (p.id, p.name, p.connected)

/-- Structural data of a node: everything except the pin buffers. -/
def nodeShape (n : Node) :
    Nat × String × Bool × List (Nat × String × Bool) × List (Nat × String × Bool) ×
      (List Buf → List Buf) :=
  (n.id, n.name, n.dirty, n.inputs.map pinShape, n.outputs.map pinShape, n.procFn)

/-- Buffer contents of a node: input-pin buffers and output-pin buffers. -/
def nodeData (n : Node) : List Buf × List Buf :=
  (n.inputs.map (·.data), n.outputs.map (·.data))

/-- Positional overwrite of old buffers by newly produced ones (the effect of
`setOutData` on the buffer lists). -/
def mergeBufs : List Buf → List Buf → List Buf
  | olds, [] => olds
  | [], _ :: _ => []
  | _ :: os, b :: bs => b :: mergeBufs os bs

/-- The successive buffers that the dependency loop of `processNode` copies
into input pin index `ii` of node `uid`, when the loop runs over the
connection list `L` in the fixed state `g`. -/
def feedVals (g : NodeEditor) (uid : Nat) (ii : Nat) (L : List Connection) : List Buf :=
  L.filterMap (fun c =>
    if c.inputNode == uid then
      match findNodeById g c.outputNode, findNodeById g uid with
      | some u, some n =>
        match findPinIndex u.outputs c.outputPin, findPinIndex n.inputs c.inputPin with
        | some oi, some j =>
          if j = ii ∧ pinDataAt u.outputs oi ≠ [] then some (pinDataAt u.outputs oi)
          else none
        | _, _ => none
      | _, _ => none
    else none)

/-- A state whose input pins already hold the value the dependency loop would
copy last into them (the post-pass condition on input pins). -/
def settled (g : NodeEditor) : Prop :=
  ∀ n ∈ g.nodes, ∀ ii b,
    (feedVals g n.id ii g.connections).getLast? = some b → pinDataAt n.inputs ii = b

/-- A state whose output pins already hold what one more `process()` call
would write (the post-pass condition on output pins). -/
def outConsistent (g : NodeEditor) : Prop :=
  ∀ n ∈ g.nodes,
    mergeBufs (n.outputs.map (·.data)) (n.procFn (n.inputs.map (·.data))) =
      n.outputs.map (·.data)

/-- Structural well-formedness maintained by the editor operations: all ids
are pairwise distinct and below the counter, connections reference ids below
the counter, and connection pin ids belong to the claimed endpoint nodes. -/
def connPinsOk (g : NodeEditor) : Prop :=
  ∀ c ∈ g.connections,
    (∀ n, findNodeById g c.inputNode = some n → c.inputPin ∈ n.inputs.map (·.id)) ∧
    (∀ n, findNodeById g c.outputNode = some n → c.outputPin ∈ n.outputs.map (·.id))

/-- Graph-wide invariant established from the empty editor. -/
def graphInv (g : NodeEditor) : Prop :=
  (allIds g).Nodup ∧ (∀ x ∈ allIds g, x < g.currentId) ∧
  (∀ c ∈ g.connections, c.inputNode < g.currentId ∧ c.outputNode < g.currentId) ∧
  connPinsOk g

/-! ### Concrete example graphs -/

/-- Source node producing the constant buffer `[5]` on its single output. -/
def exSrc : Node := ⟨0, "A", [], [⟨1, "out", [], false⟩], false, fun _ => [[5]]⟩

/-- Sink node with a single input pin. -/
def exSink : Node := ⟨2, "C", [⟨3, "in", [], false⟩], [], false, fun _ => []⟩

/-- Graph with a duplicated connection from the source's output pin into the
sink's input pin (fan-in to one pin is not rejected by `connect`). -/
def exG6 : NodeEditor := ⟨[exSrc, exSink], [⟨2, 0, 3, 1⟩, ⟨2, 0, 3, 1⟩], 4, none⟩

/-- Fan-out example: one output pin (flagged connected) feeding two sinks. -/
def exG10 : NodeEditor :=
  ⟨[⟨0, "A", [], [⟨1, "out", [], true⟩], false, fun _ => []⟩,
    ⟨2, "B", [⟨3, "in", [], true⟩], [], false, fun _ => []⟩,
    ⟨4, "C", [⟨5, "in", [], true⟩], [], false, fun _ => []⟩],
   [⟨2, 0, 3, 1⟩, ⟨4, 0, 5, 1⟩], 6, none⟩

/-- Two-node dependency cycle: each node's input is fed by the other. -/
def exGCyc : NodeEditor :=
  ⟨[⟨0, "A", [⟨2, "in", [], false⟩], [⟨1, "out", [], false⟩], false, fun _ => []⟩,
    ⟨3, "B", [⟨5, "in", [], false⟩], [⟨4, "out", [], false⟩], false, fun _ => []⟩],
   [⟨0, 3, 2, 4⟩, ⟨3, 0, 5, 1⟩], 6, none⟩

/-- Chain A→B→C: A outputs `[5]`, B doubles, C negates. -/
def exChain : NodeEditor :=
  ⟨[exSrc,
    ⟨2, "B", [⟨3, "in", [], false⟩], [⟨4, "out", [], false⟩], false,
      fun ins => [(ins.headD []).map (· * 2)]⟩,
    ⟨5, "C", [⟨6, "in", [], false⟩], [⟨7, "out", [], false⟩], false,
      fun ins => [(ins.headD []).map (fun x => -x)]⟩],
   [⟨2, 0, 3, 1⟩, ⟨5, 2, 6, 4⟩], 8, none⟩

/-- The buffers held by the input pins of node `nid` whose pin id is `pid`
(in pin order); used to track what a pass may write into a given pin. -/
def inputPinsById (g : NodeEditor) (nid pid : Nat) : List Buf :=
  match findNodeById g nid with
  | none => []
  | some n => (n.inputs.filter (fun p => p.id == pid)).map (fun p => p.data)

/-- Two editor states with identical structure: same nodes in the same order
up to pin buffers, same connections, same counter and selection. This is the
frame an evaluation pass must preserve. -/
def shapeEq (g g' : NodeEditor) : Prop :=
  g.nodes.map nodeShape = g'.nodes.map nodeShape ∧
  g.connections = g'.connections ∧
  g.currentId = g'.currentId ∧
  g.selectedNode = g'.selectedNode

/-- The node actually appended by a successful `addNodeWith`: the template
with its node id and pin ids freshly assigned from the counter. -/
def freshNode (g : NodeEditor) (node : Node) : Node :=
  { node with
      id := g.currentId,
      inputs := (assignIds node.inputs (g.currentId + 1)).1,
      outputs := (assignIds node.outputs (assignIds node.inputs (g.currentId + 1)).2).1 }

/-- Identifier signature of a node: its id and its pin-id lists. Editor
operations that merely touch buffers or flags keep this signature. -/
def idSig (n : Node) : Nat × List Nat × List Nat :=
  (n.id, n.inputs.map (fun p => p.id), n.outputs.map (fun p => p.id))

/-- What `disconnect` guarantees (amended claim C6): an out-of-range index is
a complete no-op; an in-range index removes exactly the indexed connection
(the triggered pass additionally prunes invalid ones), leaves both endpoint
pins' `connected` flags false, and leaves the former input pin's buffer empty
provided no remaining connection feeds that same input pin — the triggered
evaluation pass repopulates the pin otherwise. -/
def disconnectSpec (g : NodeEditor) (i : Int) (g' : NodeEditor) : Prop :=
  ((i < 0 ∨ (g.connections.length : Int) ≤ i) → g' = g) ∧
  (¬(i < 0 ∨ (g.connections.length : Int) ≤ i) →
    ∀ c, g.connections.get? i.toNat = some c →
      g'.connections =
        (g.connections.eraseIdx i.toNat).filter (fun c' => isConnectionValid g c') ∧
      (∀ n', findNodeById g' c.inputNode = some n' →
        ∀ p ∈ n'.inputs, p.id = c.inputPin → p.connected = false) ∧
      (∀ u', findNodeById g' c.outputNode = some u' →
        ∀ p ∈ u'.outputs, p.id = c.outputPin → p.connected = false) ∧
      ((∀ c' ∈ g.connections.eraseIdx i.toNat,
          ¬(c'.inputNode = c.inputNode ∧ c'.inputPin = c.inputPin)) →
        ∀ n', findNodeById g' c.inputNode = some n' →
          ∀ p ∈ n'.inputs, p.id = c.inputPin → p.data = []))

/-- Operation script for a minimal two-node pipeline: add an image source,
add an output sink, then link the source's output pin (id 1) to the sink's
input pin (id 3). -/
def c3ops : List Op := [Op.add NodeType.ImageInput, Op.add NodeType.Output, Op.link 1 3]

/-- The editor state produced by running exactly that script. -/
def c3g : NodeEditor :=
  { nodes :=
      [⟨0, "Image Input", [], [⟨1, "Image", [], false⟩], true, fun _ => []⟩,
       ⟨2, "Output", [⟨3, "Image", [], false⟩], [], true, fun _ => []⟩],
    connections := [⟨2, 0, 3, 1⟩],
    currentId := 4,
    selectedNode := none }

/-- Per-node settledness at state `g`: the node already holds, in each input
pin, the value the dependency loop over `g.connections` would copy last. -/
def settledAt (g : NodeEditor) (x : Nat) (n : Node) : Prop :=
  ∀ ii b, (feedVals g x ii g.connections).getLast? = some b → pinDataAt n.inputs ii = b

/-- Per-node output consistency: one more `process()` call would rewrite the
node's output buffers unchanged. -/
def outConsAt (n : Node) : Prop :=
  mergeBufs (n.outputs.map (fun p => p.data)) (n.procFn (n.inputs.map (fun p => p.data))) =
    n.outputs.map (fun p => p.data)

/-- Every node reachable by id lookup is settled. -/
def settledById (g : NodeEditor) : Prop :=
  ∀ x ∈ nodeIds g, ∀ n, findNodeById g x = some n → settledAt g x n

/-- Every node reachable by id lookup is output-consistent. -/
def outConsistentById (g : NodeEditor) : Prop :=
  ∀ x ∈ nodeIds g, ∀ n, findNodeById g x = some n → outConsAt n

/-- The processed set is closed under resolvable upstream producers: whenever
a processed node is fed by a connection whose upstream node exists, that
upstream node has been processed too. -/
def upClosed (g : NodeEditor) (pr : List Nat) : Prop :=
  ∀ y ∈ pr, ∀ c ∈ g.connections, c.inputNode = y →
    (findNodeById g c.outputNode).isSome = true → c.outputNode ∈ pr

/-- State invariant of a running evaluation pass: processed ids exist, the
processed set is upstream-closed, and every processed node is already settled
and output-consistent. -/
def passInv (g : NodeEditor) (pr : List Nat) : Prop :=
  (∀ y ∈ pr, y ∈ nodeIds g) ∧
  upClosed g pr ∧
  (∀ y ∈ pr, ∀ n, findNodeById g y = some n → settledAt g y n ∧ outConsAt n)

/-- Trace invariant of a running evaluation pass: the processed list is the
reversed list of `process()` events, without repetition; every `process()`
event snapshot equals the processed node's current input buffers; and every
non-empty resolvable feed of a processed node is witnessed in the trace by an
upstream `process()` event strictly before a copy event carrying the fed
value. -/
def traceInv (g : NodeEditor) (pr : List Nat) (tr : List Ev) : Prop :=
  pr = (procIds tr).reverse ∧
  pr.Nodup ∧
  (∀ k x ins, tr.get? k = some (Ev.procEv x ins) →
    x ∈ pr ∧ ∀ n, findNodeById g x = some n → ins = n.inputs.map (fun p => p.data)) ∧
  (∀ y ∈ pr, ∀ c ∈ g.connections, c.inputNode = y →
    ∀ u, findNodeById g c.outputNode = some u →
    ∀ n, findNodeById g y = some n →
    ∀ oi, findPinIndex u.outputs c.outputPin = some oi →
    ∀ ii, findPinIndex n.inputs c.inputPin = some ii →
    pinDataAt u.outputs oi ≠ [] →
    ∃ a b k insU insN, a < b ∧ b < k ∧
      tr.get? a = some (Ev.procEv c.outputNode insU) ∧
      tr.get? b = some (Ev.copyEv c.outputNode oi y ii (pinDataAt u.outputs oi)) ∧
      tr.get? k = some (Ev.procEv y insN))

/-- One node of a replayed state against the corresponding node of the
reference state: same structure, same output buffers, and full equality once
the node's rank is at or below the bound `R`. -/
def nodeAgreeBelow (rank : Nat → Nat) (R : Nat) (n m : Node) : Prop :=
  nodeShape m = nodeShape n ∧ m.outputs = n.outputs ∧ (rank n.id ≤ R → m = n)

/-- Replay state `h` against reference state `g`: identical frame, identical
output buffers everywhere, full node equality at ranks at or below `R` (the
input pins of higher-rank nodes may lag behind mid-replay). -/
def agreeBelow (rank : Nat → Nat) (R : Nat) (g h : NodeEditor) : Prop :=
  h.connections = g.connections ∧ h.currentId = g.currentId ∧
  h.selectedNode = g.selectedNode ∧
  List.Forall₂ (nodeAgreeBelow rank R) g.nodes h.nodes

/-- Overwrite the input-pin list of the first node with the given id. -/
def setNodeInputs (g : NodeEditor) (nid : Nat) (ps : List Pin) : NodeEditor :=
  updateNodeFirst g nid (fun n => { n with inputs := ps })

/-- The state of `exChain` after one full evaluation pass. -/
def exChainDone : NodeEditor :=
  ⟨[⟨0, "A", [], [⟨1, "out", [5], false⟩], false, fun _ => [[5]]⟩,
    ⟨2, "B", [⟨3, "in", [5], false⟩], [⟨4, "out", [10], false⟩], false,
      fun ins => [(ins.headD []).map (· * 2)]⟩,
    ⟨5, "C", [⟨6, "in", [10], false⟩], [⟨7, "out", [-10], false⟩], false,
      fun ins => [(ins.headD []).map (fun x => -x)]⟩],
   [⟨2, 0, 3, 1⟩, ⟨5, 2, 6, 4⟩], 8, none⟩

/-- The event trace of one full evaluation pass over `exChain`. -/
def trChain : List Ev :=
  [Ev.procEv 0 [], Ev.copyEv 0 0 2 0 [5], Ev.procEv 2 [[5]],
   Ev.copyEv 2 0 5 0 [10], Ev.procEv 5 [[10]]]

/-! ### Theorems -/

/-- Claim C7: requesting a node of a kind the factory does not recognize
creates no node — the factory returns absence, `addNode` inserts nothing, and
the ID counter is not altered (the whole editor state is unchanged). -/
theorem c7_unknown_kind_creates_nothing :
    createNode NodeType.UnknownKind = none ∧
    ∀ g : NodeEditor, addNode g NodeType.UnknownKind = g :=
  ⟨rfl, fun _ => rfl⟩

/-- Witness for C7 at the empty editor. -/
theorem c7_unknown_kind_creates_nothing_witness :
    addNode emptyEditor NodeType.UnknownKind = emptyEditor :=
  c7_unknown_kind_creates_nothing.2 emptyEditor

/-- Claim C10: in a graph where two connections share the output pin of node
`A` (flag set), disconnecting the first by index clears that shared output
pin's `connected` flag even though the second connection remains — the flag
does not track remaining fan-out. -/
theorem c10_fanout_flag_not_tracked :
    (deleteConnection 5 exG10 0).map
        (fun g => (g.connections, g.nodes.map (fun n => n.outputs.map (fun p => p.connected)))) =
      some ([⟨4, 0, 5, 1⟩], [[false], [], []]) := by
  decide

/-- Counterexample to claim C6 as stated: in `exG6` the connection at index 0
is in range, yet after `disconnect 0` the former input pin's buffer is `[5]`,
not empty — the evaluation pass triggered by `deleteConnection` refills the
pin from the remaining duplicate connection. -/
theorem c6_counterexample :
    ¬ ((0 : Int) < 0 ∨ (exG6.connections.length : Int) ≤ 0) ∧
    (deleteConnection 5 exG6 0).map
        (fun g => g.nodes.map (fun n => n.inputs.map (fun p => p.data))) =
      some [[], [[5]]] ∧
    ([[5]] : List Buf) ≠ [[]] := by
  refine ⟨by decide, by decide, by decide⟩

/-- Claim C5: the buffer handoff of the dependency loop — when the upstream
output buffer is non-empty, the downstream input pin receives a freshly
allocated deep copy (distinct handle, same contents), so mutating the
downstream buffer never changes the upstream buffer; when it is empty,
nothing happens and the downstream pin keeps its previous handle. -/
theorem c5_deep_copy_handoff (s : MatStore) (srcRef dstRef : Nat)
    (h : srcRef < s.cells.length) :
    (readCell s srcRef ≠ [] →
      (bufferHandoff s srcRef dstRef).2 ≠ srcRef ∧
      readCell (bufferHandoff s srcRef dstRef).1 (bufferHandoff s srcRef dstRef).2 =
        readCell s srcRef ∧
      (∀ b : Buf,
        readCell (writeCell (bufferHandoff s srcRef dstRef).1
            (bufferHandoff s srcRef dstRef).2 b) srcRef =
          readCell s srcRef)) ∧
    (readCell s srcRef = [] → bufferHandoff s srcRef dstRef = (s, dstRef)) := by
  by_cases he : readCell s srcRef = []
  · refine ⟨fun hne => absurd he hne, fun _ => ?_⟩
    simp [bufferHandoff, he]
  · refine ⟨fun _ => ?_, fun hemp => absurd hemp he⟩
    have hb : bufferHandoff s srcRef dstRef =
        (⟨s.cells ++ [readCell s srcRef]⟩, s.cells.length) := by
      simp [bufferHandoff, he, cloneMat]
    rw [hb]
    refine ⟨by omega, ?_, ?_⟩
    · show readCell ⟨s.cells ++ [readCell s srcRef]⟩ s.cells.length = readCell s srcRef
      simp [readCell, List.getElem?_concat_length]
    · intro b
      show readCell (writeCell ⟨s.cells ++ [readCell s srcRef]⟩ s.cells.length b) srcRef =
        readCell s srcRef
      have key : ∀ x : Buf,
          readCell (writeCell ⟨s.cells ++ [x]⟩ s.cells.length b) srcRef =
            readCell s srcRef := by
        intro x
        have h1 : ((s.cells ++ [x]).set s.cells.length b)[srcRef]? =
            (s.cells ++ [x])[srcRef]? := List.getElem?_set_ne (by omega)
        have h2 : (s.cells ++ [x])[srcRef]? = s.cells[srcRef]? :=
          List.getElem?_append_left h
        simp only [readCell, writeCell, List.get?_eq_getElem?, h1, h2]
      exact key (readCell s srcRef)

/-- Witness for C5 at a concrete two-cell store. -/
theorem c5_deep_copy_handoff_witness :
    0 < (MatStore.mk [[7], []]).cells.length ∧
    ((readCell ⟨[[7], []]⟩ 0 ≠ [] →
      (bufferHandoff ⟨[[7], []]⟩ 0 1).2 ≠ 0 ∧
      readCell (bufferHandoff ⟨[[7], []]⟩ 0 1).1 (bufferHandoff ⟨[[7], []]⟩ 0 1).2 =
        readCell ⟨[[7], []]⟩ 0 ∧
      (∀ b : Buf,
        readCell (writeCell (bufferHandoff ⟨[[7], []]⟩ 0 1).1
            (bufferHandoff ⟨[[7], []]⟩ 0 1).2 b) 0 =
          readCell ⟨[[7], []]⟩ 0)) ∧
    (readCell ⟨[[7], []]⟩ 0 = [] → bufferHandoff ⟨[[7], []]⟩ 0 1 = (⟨[[7], []]⟩, 1))) :=
  ⟨by decide, c5_deep_copy_handoff ⟨[[7], []]⟩ 0 1 (by decide)⟩

/-- Ids produced by `assignIds`: consecutive from the start counter, and the
returned counter advances by the number of pins. -/
theorem assignIds_spec (ps : List Pin) (c : Nat) :
    (assignIds ps c).1.map (fun p => p.id) = List.range' c ps.length ∧
    (assignIds ps c).2 = c + ps.length := by
  induction ps generalizing c with
  | nil => simp [assignIds]
  | cons p ps ih =>
    have h := ih (c + 1)
    refine ⟨?_, ?_⟩
    · simp only [assignIds, List.map_cons, h.1, List.length_cons]
      rw [List.range'_succ]
    · simp only [assignIds, h.2, List.length_cons]
      omega

/-- Shape of a successful `addNodeWith`: the new node is appended, carries the
old counter as its id, then consecutive input-pin ids, then consecutive
output-pin ids, and the counter advances past all of them. -/
theorem addNodeWith_some_spec (g : NodeEditor) (node : Node) :
    ∃ newNode : Node,
      addNodeWith g (some node) =
        { g with nodes := g.nodes ++ [newNode],
                 currentId := g.currentId + 1 + node.inputs.length + node.outputs.length } ∧
      newNode.id = g.currentId ∧
      newNode.inputs.map (fun p => p.id) = List.range' (g.currentId + 1) node.inputs.length ∧
      newNode.outputs.map (fun p => p.id) =
        List.range' (g.currentId + 1 + node.inputs.length) node.outputs.length := by
  have hin := assignIds_spec node.inputs (g.currentId + 1)
  have hout := assignIds_spec node.outputs (assignIds node.inputs (g.currentId + 1)).2
  refine ⟨freshNode g node, ?_, rfl, hin.1, ?_⟩
  · show addNodeWith g (some node) = _
    simp only [addNodeWith, freshNode]
    congr 1
    rw [hout.2, hin.2]
  · show (assignIds node.outputs (assignIds node.inputs (g.currentId + 1)).2).1.map
        (fun p => p.id) = _
    rw [hout.1, hin.2]

/-- The id multiset after a successful `addNodeWith`: the old ids followed by
the freshly assigned consecutive block. -/
theorem allIds_addNodeWith (g : NodeEditor) (node : Node) :
    allIds (addNodeWith g (some node)) =
      allIds g ++ List.range' g.currentId (1 + node.inputs.length + node.outputs.length) := by
  obtain ⟨nn, heq, hid, hins, houts⟩ := addNodeWith_some_spec g node
  rw [heq]
  show (g.nodes ++ [nn]).flatMap _ = _
  rw [List.flatMap_append]
  congr 1
  simp only [List.flatMap_cons, List.flatMap_nil, List.append_nil, hid, hins, houts]
  have h1 : List.range' (g.currentId + 1) node.inputs.length ++
      List.range' (g.currentId + 1 + node.inputs.length) node.outputs.length =
      List.range' (g.currentId + 1) (node.outputs.length + node.inputs.length) := by
    have := List.range'_append (g.currentId + 1) node.inputs.length node.outputs.length 1
    simp only [Nat.one_mul] at this
    exact this
  rw [h1]
  have h2 : List.range' g.currentId ((node.outputs.length + node.inputs.length) + 1) =
      g.currentId :: List.range' (g.currentId + 1) (node.outputs.length + node.inputs.length) :=
    List.range'_succ g.currentId _ 1
  have h3 : 1 + node.inputs.length + node.outputs.length =
      (node.outputs.length + node.inputs.length) + 1 := by omega
  rw [h3, h2]

/-- Looking up an id older than the counter is unaffected by `addNodeWith`. -/
theorem findNodeById_addNodeWith_old (g : NodeEditor) (node : Node) (x : Nat)
    (hx : x < g.currentId) :
    findNodeById (addNodeWith g (some node)) x = findNodeById g x := by
  obtain ⟨nn, heq, hid, hins, houts⟩ := addNodeWith_some_spec g node
  rw [heq]
  show (g.nodes ++ [nn]).find? (fun n => n.id == x) = g.nodes.find? (fun n => n.id == x)
  rw [List.find?_append]
  have hnx : (nn.id == x) = false := by
    rw [beq_eq_false_iff_ne, hid]
    omega
  simp [List.find?, hnx]

/-- `addNode` preserves the graph-wide id/connection invariant. -/
theorem graphInv_addNode (g : NodeEditor) (t : NodeType) (hg : graphInv g) :
    graphInv (addNode g t) := by
  obtain ⟨hnd, hbound, hconn, hpins⟩ := hg
  unfold addNode
  cases hc : createNode t with
  | none => exact ⟨hnd, hbound, hconn, hpins⟩
  | some node =>
    obtain ⟨nn, heq, hid, hins, houts⟩ := addNodeWith_some_spec g node
    have hall := allIds_addNodeWith g node
    have hcur : (addNodeWith g (some node)).currentId =
        g.currentId + 1 + node.inputs.length + node.outputs.length := by rw [heq]
    have hconn' : (addNodeWith g (some node)).connections = g.connections := by rw [heq]
    refine ⟨?_, ?_, ?_, ?_⟩
    · rw [hall]
      refine List.Nodup.append hnd (List.nodup_range' _ _) ?_
      rw [List.disjoint_left]
      intro a ha hr
      have h1 := hbound a ha
      have h2 := (List.mem_range'_1.mp hr).1
      omega
    · intro x hx
      rw [hall] at hx
      rw [hcur]
      rcases List.mem_append.mp hx with h | h
      · have := hbound x h
        omega
      · have := (List.mem_range'_1.mp h).2
        omega
    · intro c hc'
      rw [hconn'] at hc'
      have := hconn c hc'
      rw [hcur]
      omega
    · intro c hc'
      rw [hconn'] at hc'
      have hold := hpins c hc'
      have hb := hconn c hc'
      constructor
      · intro n hn
        rw [findNodeById_addNodeWith_old g node c.inputNode hb.1] at hn
        exact hold.1 n hn
      · intro n hn
        rw [findNodeById_addNodeWith_old g node c.outputNode hb.2] at hn
        exact hold.2 n hn

/-- The empty editor satisfies the invariant. -/
theorem graphInv_empty : graphInv emptyEditor := by
  refine ⟨?_, ?_, ?_, ?_⟩ <;> simp [graphInv, allIds, emptyEditor, connPinsOk]

/-- Claim C4: along any sequence of `addNode` calls from an invariant-holding
graph, every node id and every pin id across the whole graph stays pairwise
distinct; and each successful `addNode` assigns the fresh ids in the fixed
order — node id first, then the input-pin ids in declaration order, then the
output-pin ids — all consecutive values of the single monotonic counter. -/
theorem c4_unique_ids :
    (∀ (g : NodeEditor) (ts : List NodeType), graphInv g →
        (allIds (ts.foldl addNode g)).Nodup) ∧
    (∀ (g : NodeEditor) (node : Node), ∃ newNode : Node,
        addNodeWith g (some node) =
          { g with nodes := g.nodes ++ [newNode],
                   currentId := g.currentId + 1 + node.inputs.length + node.outputs.length } ∧
        newNode.id = g.currentId ∧
        newNode.inputs.map (fun p => p.id) = List.range' (g.currentId + 1) node.inputs.length ∧
        newNode.outputs.map (fun p => p.id) =
          List.range' (g.currentId + 1 + node.inputs.length) node.outputs.length) := by
  constructor
  · intro g ts
    induction ts generalizing g with
    | nil => exact fun hg => hg.1
    | cons t ts ih =>
      intro hg
      exact ih (addNode g t) (graphInv_addNode g t hg)
  · exact addNodeWith_some_spec

/-- Witness for C4: two concrete `addNode` calls from the empty editor. -/
theorem c4_unique_ids_witness :
    graphInv emptyEditor ∧
    (allIds ([NodeType.ImageInput, NodeType.Blend].foldl addNode emptyEditor)).Nodup :=
  ⟨graphInv_empty,
   c4_unique_ids.1 emptyEditor [NodeType.ImageInput, NodeType.Blend] graphInv_empty⟩

/-- `shapeEq` is reflexive. -/
theorem shapeEq_refl (g : NodeEditor) : shapeEq g g := ⟨rfl, rfl, rfl, rfl⟩

/-- `shapeEq` is transitive. -/
theorem shapeEq_trans {g₁ g₂ g₃ : NodeEditor} (h₁ : shapeEq g₁ g₂) (h₂ : shapeEq g₂ g₃) :
    shapeEq g₁ g₃ :=
  ⟨h₁.1.trans h₂.1, h₁.2.1.trans h₂.2.1, h₁.2.2.1.trans h₂.2.2.1, h₁.2.2.2.trans h₂.2.2.2⟩

/-- Writing a pin buffer does not change the pin's structural data. -/
theorem setPinData_shape (ps : List Pin) (i : Nat) (b : Buf) :
    (setPinData ps i b).map pinShape = ps.map pinShape := by
  induction ps generalizing i with
  | nil => cases i <;> rfl
  | cons p ps ih =>
    cases i with
    | zero => simp [setPinData, pinShape]
    | succ j => simp [setPinData, ih j]

/-- Writing output buffers does not change the pins' structural data. -/
theorem setOutData_shape (ps : List Pin) (bs : List Buf) :
    (setOutData ps bs).map pinShape = ps.map pinShape := by
  induction ps generalizing bs with
  | nil => cases bs <;> rfl
  | cons p ps ih =>
    cases bs with
    | nil => rfl
    | cons b bs => simp [setOutData, pinShape, ih bs]

/-- A node update that preserves structural data preserves the node list's
structural data. -/
theorem updateFirstNode_shape (l : List Node) (nid : Nat) (f : Node → Node)
    (hf : ∀ n, nodeShape (f n) = nodeShape n) :
    (updateFirstNode l nid f).map nodeShape = l.map nodeShape := by
  induction l with
  | nil => rfl
  | cons n ns ih =>
    by_cases h : (n.id == nid) = true
    · simp [updateFirstNode, h, hf n]
    · simp [updateFirstNode, h, ih]

/-- The copy step preserves the structural frame and only appends events. -/
theorem copyConn_shape (g : NodeEditor) (c : Connection) (nid : Nat) (tr : List Ev) :
    shapeEq g (copyConn g c nid tr).1 ∧ ∃ e, (copyConn g c nid tr).2 = tr ++ e := by
  unfold copyConn
  cases findNodeById g c.outputNode with
  | none => exact ⟨shapeEq_refl g, [], by simp⟩
  | some u =>
    cases findNodeById g nid with
    | none => exact ⟨shapeEq_refl g, [], by simp⟩
    | some n =>
      dsimp only
      cases findPinIndex u.outputs c.outputPin with
      | none => exact ⟨shapeEq_refl g, [], by simp⟩
      | some oi =>
        cases findPinIndex n.inputs c.inputPin with
        | none => exact ⟨shapeEq_refl g, [], by simp⟩
        | some ii =>
          dsimp only
          by_cases hs : pinDataAt u.outputs oi = []
          · rw [if_pos hs]
            exact ⟨shapeEq_refl g, [], by simp⟩
          · rw [if_neg hs]
            refine ⟨⟨?_, rfl, rfl, rfl⟩,
              [Ev.copyEv c.outputNode oi nid ii (pinDataAt u.outputs oi)], rfl⟩
            show g.nodes.map nodeShape = (updateFirstNode g.nodes nid _).map nodeShape
            rw [updateFirstNode_shape]
            intro m
            simp [nodeShape, setPinData_shape]

/-- `setNodeOutputs` preserves the structural frame. -/
theorem setNodeOutputs_shape (g : NodeEditor) (nid : Nat) (bs : List Buf) :
    shapeEq g (setNodeOutputs g nid bs) := by
  refine ⟨?_, rfl, rfl, rfl⟩
  show g.nodes.map nodeShape = (updateFirstNode g.nodes nid _).map nodeShape
  rw [updateFirstNode_shape]
  intro m
  simp [nodeShape, setOutData_shape]

/-- The dependency loop preserves the structural frame, only extends the
processed set, and only appends to the trace, given that the recursive call
does. -/
theorem processDepsAux_shape
    (recur : NodeEditor → Nat → List Nat → List Ev → Option EvalOut)
    (hrec : ∀ g nid pr tr g' pr' tr', recur g nid pr tr = some (g', pr', tr') →
      shapeEq g g' ∧ (∃ d, pr' = d ++ pr) ∧ (∃ e, tr' = tr ++ e)) :
    ∀ (conns : List Connection) (g : NodeEditor) (nid : Nat) (pr : List Nat) (tr : List Ev)
      (g' : NodeEditor) (pr' : List Nat) (tr' : List Ev),
      processDepsAux recur conns g nid pr tr = some (g', pr', tr') →
      shapeEq g g' ∧ (∃ d, pr' = d ++ pr) ∧ (∃ e, tr' = tr ++ e) := by
  intro conns
  induction conns with
  | nil =>
    intro g nid pr tr g' pr' tr' h
    simp only [processDepsAux] at h
    obtain ⟨rfl, rfl, rfl⟩ : g = g' ∧ pr = pr' ∧ tr = tr' := by
      refine ⟨?_, ?_, ?_⟩ <;> cases h <;> rfl
    exact ⟨shapeEq_refl g, ⟨[], rfl⟩, ⟨[], by simp⟩⟩
  | cons c rest ih =>
    intro g nid pr tr g' pr' tr' h
    simp only [processDepsAux] at h
    by_cases hcc : (c.inputNode == nid) = true
    · rw [if_pos hcc] at h
      cases hfind : findNodeById g c.outputNode with
      | none =>
        rw [hfind] at h
        exact ih g nid pr tr g' pr' tr' h
      | some u =>
        rw [hfind] at h
        cases hrecur : recur g c.outputNode pr tr with
        | none => rw [hrecur] at h; cases h
        | some out =>
          obtain ⟨g₁, pr₁, tr₁⟩ := out
          rw [hrecur] at h
          have h₁ := hrec g c.outputNode pr tr g₁ pr₁ tr₁ hrecur
          have h₂ := copyConn_shape g₁ c nid tr₁
          have h₃ := ih (copyConn g₁ c nid tr₁).1 nid pr₁ (copyConn g₁ c nid tr₁).2
            g' pr' tr' h
          refine ⟨shapeEq_trans (shapeEq_trans h₁.1 h₂.1) h₃.1, ?_, ?_⟩
          · obtain ⟨d₁, hd₁⟩ := h₁.2.1
            obtain ⟨d₂, hd₂⟩ := h₃.2.1
            exact ⟨d₂ ++ d₁, by rw [hd₂, hd₁, List.append_assoc]⟩
          · obtain ⟨e₁, he₁⟩ := h₁.2.2
            obtain ⟨e₂, he₂⟩ := h₂.2
            obtain ⟨e₃, he₃⟩ := h₃.2.2
            exact ⟨e₁ ++ (e₂ ++ e₃), by rw [he₃, he₂, he₁]; simp [List.append_assoc]⟩
    · rw [if_neg hcc] at h
      exact ih g nid pr tr g' pr' tr' h

/-- `processNode` preserves the structural frame, only extends the processed
set, and only appends to the trace. -/
theorem processNode_shape :
    ∀ (fuel : Nat) (g : NodeEditor) (nid : Nat) (pr : List Nat) (tr : List Ev)
      (g' : NodeEditor) (pr' : List Nat) (tr' : List Ev),
      processNode fuel g nid pr tr = some (g', pr', tr') →
      shapeEq g g' ∧ (∃ d, pr' = d ++ pr) ∧ (∃ e, tr' = tr ++ e) := by
  intro fuel
  induction fuel with
  | zero => intro g nid pr tr g' pr' tr' h; cases h
  | succ fuel ih =>
    intro g nid pr tr g' pr' tr' h
    simp only [processNode] at h
    by_cases hmem : nid ∈ pr
    · rw [if_pos hmem] at h
      obtain ⟨rfl, rfl, rfl⟩ : g = g' ∧ pr = pr' ∧ tr = tr' := by
        refine ⟨?_, ?_, ?_⟩ <;> cases h <;> rfl
      exact ⟨shapeEq_refl g, ⟨[], rfl⟩, ⟨[], by simp⟩⟩
    · rw [if_neg hmem] at h
      cases hdeps : processDepsAux (processNode fuel) g.connections g nid pr tr with
      | none => rw [hdeps] at h; cases h
      | some out =>
        obtain ⟨g₁, pr₁, tr₁⟩ := out
        rw [hdeps] at h
        dsimp only at h
        have h₁ := processDepsAux_shape (processNode fuel) ih
          g.connections g nid pr tr g₁ pr₁ tr₁ hdeps
        cases hfind : findNodeById g₁ nid with
        | none => rw [hfind] at h; cases h
        | some n =>
          rw [hfind] at h
          obtain ⟨rfl, rfl, rfl⟩ :
              setNodeOutputs g₁ nid (n.procFn (n.inputs.map (·.data))) = g' ∧
              nid :: pr₁ = pr' ∧
              tr₁ ++ [Ev.procEv nid (n.inputs.map (·.data))] = tr' := by
            refine ⟨?_, ?_, ?_⟩ <;> cases h <;> rfl
          refine ⟨shapeEq_trans h₁.1 (setNodeOutputs_shape g₁ nid _), ?_, ?_⟩
          · obtain ⟨d, hd⟩ := h₁.2.1
            exact ⟨nid :: d, by rw [hd]; rfl⟩
          · obtain ⟨e, he⟩ := h₁.2.2
            exact ⟨e ++ [Ev.procEv nid (n.inputs.map (·.data))], by rw [he]; simp⟩

/-- The outer loop preserves the structural frame, only extends the processed
set, and only appends to the trace. -/
theorem processSeq_shape :
    ∀ (fuel : Nat) (ids : List Nat) (g : NodeEditor) (pr : List Nat) (tr : List Ev)
      (g' : NodeEditor) (pr' : List Nat) (tr' : List Ev),
      processSeq fuel ids g pr tr = some (g', pr', tr') →
      shapeEq g g' ∧ (∃ d, pr' = d ++ pr) ∧ (∃ e, tr' = tr ++ e) := by
  intro fuel ids
  induction ids with
  | nil =>
    intro g pr tr g' pr' tr' h
    simp only [processSeq] at h
    obtain ⟨rfl, rfl, rfl⟩ : g = g' ∧ pr = pr' ∧ tr = tr' := by
      refine ⟨?_, ?_, ?_⟩ <;> cases h <;> rfl
    exact ⟨shapeEq_refl g, ⟨[], rfl⟩, ⟨[], by simp⟩⟩
  | cons nid rest ih =>
    intro g pr tr g' pr' tr' h
    simp only [processSeq] at h
    cases hstep : processNode fuel g nid pr tr with
    | none => rw [hstep] at h; cases h
    | some out =>
      obtain ⟨g₁, pr₁, tr₁⟩ := out
      rw [hstep] at h
      have h₁ := processNode_shape fuel g nid pr tr g₁ pr₁ tr₁ hstep
      have h₂ := ih g₁ pr₁ tr₁ g' pr' tr' h
      refine ⟨shapeEq_trans h₁.1 h₂.1, ?_, ?_⟩
      · obtain ⟨d₁, hd₁⟩ := h₁.2.1
        obtain ⟨d₂, hd₂⟩ := h₂.2.1
        exact ⟨d₂ ++ d₁, by rw [hd₂, hd₁, List.append_assoc]⟩
      · obtain ⟨e₁, he₁⟩ := h₁.2.2
        obtain ⟨e₂, he₂⟩ := h₂.2.2
        exact ⟨e₁ ++ e₂, by rw [he₂, he₁, List.append_assoc]⟩

/-- Claim C9: an evaluation pass never adds or removes nodes, never changes a
node id, pin id, name, dirty flag, processing function or `connected` flag,
never changes the ID counter or the selection; its connections afterwards are
exactly the original list with the invalid ones pruned (connections are only
removed, never added). -/
theorem c9_pass_frame (fuel : Nat) (g g' : NodeEditor) (pr : List Nat) (tr : List Ev)
    (h : processGraphFull fuel g = some (g', pr, tr)) :
    g'.nodes.map nodeShape = g.nodes.map nodeShape ∧
    g'.currentId = g.currentId ∧
    g'.selectedNode = g.selectedNode ∧
    g'.connections = g.connections.filter (fun c => isConnectionValid g c) := by
  have h'' : processSeq fuel ((pruneConnections g).nodes.map (fun n => n.id))
      (pruneConnections g) [] [] = some (g', pr, tr) := h
  have h' := processSeq_shape fuel ((pruneConnections g).nodes.map (fun n => n.id))
    (pruneConnections g) [] [] g' pr tr h''
  obtain ⟨⟨hn, hc, hcur, hsel⟩, _, _⟩ := h'
  exact ⟨hn.symm, hcur.symm, hsel.symm, hc.symm⟩

/-- Witness for C9 at the concrete fan-out graph. -/
theorem c9_pass_frame_witness :
    exG10.nodes.map nodeShape = exG10.nodes.map nodeShape ∧
    exG10.currentId = exG10.currentId ∧
    exG10.selectedNode = exG10.selectedNode ∧
    exG10.connections = exG10.connections.filter (fun c => isConnectionValid exG10 c) :=
  c9_pass_frame 3 exG10 exG10 [4, 2, 0]
    [Ev.procEv 0 [], Ev.procEv 2 [[]], Ev.procEv 4 [[]]] rfl

/-- Equation: out of fuel. -/
theorem processNode_zero (g : NodeEditor) (nid : Nat) (pr : List Nat) (tr : List Ev) :
    processNode 0 g nid pr tr = none := rfl

/-- Equation: already processed nodes are skipped. -/
theorem processNode_succ_mem (fuel : Nat) (g : NodeEditor) (nid : Nat) (pr : List Nat)
    (tr : List Ev) (h : nid ∈ pr) :
    processNode (fuel + 1) g nid pr tr = some (g, pr, tr) := by
  simp only [processNode, if_pos h]

/-- Equation: a failing dependency loop fails the node. -/
theorem processNode_succ_deps_none (fuel : Nat) (g : NodeEditor) (nid : Nat) (pr : List Nat)
    (tr : List Ev) (h : nid ∉ pr)
    (hd : processDepsAux (processNode fuel) g.connections g nid pr tr = none) :
    processNode (fuel + 1) g nid pr tr = none := by
  simp only [processNode, if_neg h, hd]

/-- Equation: after a successful dependency loop the node is processed and
marked. -/
theorem processNode_succ_found (fuel : Nat) (g : NodeEditor) (nid : Nat) (pr : List Nat)
    (tr : List Ev) (g₁ : NodeEditor) (pr₁ : List Nat) (tr₁ : List Ev) (n : Node)
    (h : nid ∉ pr)
    (hd : processDepsAux (processNode fuel) g.connections g nid pr tr = some (g₁, pr₁, tr₁))
    (hf : findNodeById g₁ nid = some n) :
    processNode (fuel + 1) g nid pr tr =
      some (setNodeOutputs g₁ nid (n.procFn (n.inputs.map (·.data))),
            nid :: pr₁,
            tr₁ ++ [Ev.procEv nid (n.inputs.map (·.data))]) := by
  simp only [processNode, if_neg h, hd, hf]

/-- Equation: empty dependency loop. -/
theorem processDepsAux_nil (recur : NodeEditor → Nat → List Nat → List Ev → Option EvalOut)
    (g : NodeEditor) (nid : Nat) (pr : List Nat) (tr : List Ev) :
    processDepsAux recur [] g nid pr tr = some (g, pr, tr) := rfl

/-- Equation: a connection into another node is skipped. -/
theorem processDepsAux_cons_skip
    (recur : NodeEditor → Nat → List Nat → List Ev → Option EvalOut)
    (c : Connection) (rest : List Connection) (g : NodeEditor) (nid : Nat) (pr : List Nat)
    (tr : List Ev) (hcc : (c.inputNode == nid) = false) :
    processDepsAux recur (c :: rest) g nid pr tr = processDepsAux recur rest g nid pr tr := by
  simp only [processDepsAux, hcc]
  simp

/-- Equation: a connection whose upstream node is missing is skipped. -/
theorem processDepsAux_cons_noup
    (recur : NodeEditor → Nat → List Nat → List Ev → Option EvalOut)
    (c : Connection) (rest : List Connection) (g : NodeEditor) (nid : Nat) (pr : List Nat)
    (tr : List Ev) (hcc : (c.inputNode == nid) = true)
    (hf : findNodeById g c.outputNode = none) :
    processDepsAux recur (c :: rest) g nid pr tr = processDepsAux recur rest g nid pr tr := by
  simp only [processDepsAux, hcc, hf]
  simp

/-- Equation: a failing recursive call fails the loop. -/
theorem processDepsAux_cons_recnone
    (recur : NodeEditor → Nat → List Nat → List Ev → Option EvalOut)
    (c : Connection) (rest : List Connection) (g : NodeEditor) (nid : Nat) (pr : List Nat)
    (tr : List Ev) (hcc : (c.inputNode == nid) = true)
    (hf : (findNodeById g c.outputNode).isSome = true)
    (hrec : recur g c.outputNode pr tr = none) :
    processDepsAux recur (c :: rest) g nid pr tr = none := by
  cases hu : findNodeById g c.outputNode with
  | none => rw [hu] at hf; cases hf
  | some u => simp only [processDepsAux, hcc, hu, hrec]; simp

/-- Equation: a successful recursive call is followed by the copy step and the
rest of the loop. -/
theorem processDepsAux_cons_recsome
    (recur : NodeEditor → Nat → List Nat → List Ev → Option EvalOut)
    (c : Connection) (rest : List Connection) (g : NodeEditor) (nid : Nat) (pr : List Nat)
    (tr : List Ev) (u : Node) (g₁ : NodeEditor) (pr₁ : List Nat) (tr₁ : List Ev)
    (hcc : (c.inputNode == nid) = true)
    (hf : findNodeById g c.outputNode = some u)
    (hrec : recur g c.outputNode pr tr = some (g₁, pr₁, tr₁)) :
    processDepsAux recur (c :: rest) g nid pr tr =
      processDepsAux recur rest (copyConn g₁ c nid tr₁).1 nid pr₁ (copyConn g₁ c nid tr₁).2 := by
  simp only [processDepsAux, hcc, hf, hrec]
  simp

/-- Equation: empty outer loop. -/
theorem processSeq_nil (fuel : Nat) (g : NodeEditor) (pr : List Nat) (tr : List Ev) :
    processSeq fuel [] g pr tr = some (g, pr, tr) := rfl

/-- Equation: a failing node step fails the outer loop. -/
theorem processSeq_cons_none (fuel : Nat) (nid : Nat) (rest : List Nat) (g : NodeEditor)
    (pr : List Nat) (tr : List Ev) (h : processNode fuel g nid pr tr = none) :
    processSeq fuel (nid :: rest) g pr tr = none := by
  simp only [processSeq, h]

/-- Equation: a successful node step feeds the rest of the outer loop. -/
theorem processSeq_cons_some (fuel : Nat) (nid : Nat) (rest : List Nat) (g : NodeEditor)
    (pr : List Nat) (tr : List Ev) (g₁ : NodeEditor) (pr₁ : List Nat) (tr₁ : List Ev)
    (h : processNode fuel g nid pr tr = some (g₁, pr₁, tr₁)) :
    processSeq fuel (nid :: rest) g pr tr = processSeq fuel rest g₁ pr₁ tr₁ := by
  simp only [processSeq, h]

/-- Structurally equal states have the same node ids. -/
theorem nodeIds_of_shapeEq {g g' : NodeEditor} (h : shapeEq g g') :
    nodeIds g = nodeIds g' := by
  have h1 : (g.nodes.map nodeShape).map (fun t => t.1) =
      (g'.nodes.map nodeShape).map (fun t => t.1) := by rw [h.1]
  simpa [nodeIds, List.map_map, nodeShape, Function.comp] using h1

/-- A node lookup succeeds exactly when the id occurs in the graph. -/
theorem findNodeById_isSome_iff (g : NodeEditor) (x : Nat) :
    (findNodeById g x).isSome = true ↔ x ∈ nodeIds g := by
  unfold findNodeById nodeIds
  rw [List.find?_isSome]
  constructor
  · rintro ⟨n, hn, hp⟩
    exact List.mem_map.mpr ⟨n, hn, eq_of_beq hp⟩
  · intro hx
    obtain ⟨n, hn, hid⟩ := List.mem_map.mp hx
    exact ⟨n, hn, by simp [hid]⟩

/-- A successful node lookup returns a member with the requested id. -/
theorem findNodeById_mem {g : NodeEditor} {x : Nat} {n : Node}
    (h : findNodeById g x = some n) : n ∈ g.nodes ∧ n.id = x := by
  refine ⟨List.mem_of_find?_eq_some h, ?_⟩
  have := List.find?_some h
  exact eq_of_beq this

/-- Totality of the dependency loop under a rank function that strictly
decreases along the connections. -/
theorem processDepsAux_total (rank : Nat → Nat) (fuel : Nat)
    (hrec : ∀ (g : NodeEditor) (nid : Nat) (pr : List Nat) (tr : List Ev),
      (∀ c ∈ g.connections, rank c.outputNode < rank c.inputNode) →
      rank nid < fuel → nid ∈ nodeIds g →
      (processNode fuel g nid pr tr).isSome = true) :
    ∀ (conns : List Connection) (g : NodeEditor) (nid : Nat) (pr : List Nat) (tr : List Ev),
      (∀ c ∈ conns, c ∈ g.connections) →
      (∀ c ∈ g.connections, rank c.outputNode < rank c.inputNode) →
      rank nid ≤ fuel →
      (processDepsAux (processNode fuel) conns g nid pr tr).isSome = true := by
  intro conns
  induction conns with
  | nil => intro g nid pr tr _ _ _; rfl
  | cons c rest ih =>
    intro g nid pr tr hsub hr hn
    by_cases hcc : (c.inputNode == nid) = true
    · cases hfind : findNodeById g c.outputNode with
      | none =>
        rw [processDepsAux_cons_noup _ c rest g nid pr tr hcc hfind]
        exact ih g nid pr tr (fun c' hc' => hsub c' (by simp [hc'])) hr hn
      | some u =>
        have hout_mem : c.outputNode ∈ nodeIds g := by
          have hs : (findNodeById g c.outputNode).isSome = true := by rw [hfind]; rfl
          exact (findNodeById_isSome_iff g c.outputNode).mp hs
        have hlt : rank c.outputNode < fuel := by
          have heq : c.inputNode = nid := eq_of_beq hcc
          have hlt' := hr c (hsub c (by simp))
          rw [heq] at hlt'
          omega
        have hrec' := hrec g c.outputNode pr tr hr hlt hout_mem
        cases hrecur : processNode fuel g c.outputNode pr tr with
        | none => rw [hrecur] at hrec'; cases hrec'
        | some out =>
          obtain ⟨g₁, pr₁, tr₁⟩ := out
          rw [processDepsAux_cons_recsome _ c rest g nid pr tr u g₁ pr₁ tr₁ hcc hfind hrecur]
          have hsh₁ := processNode_shape fuel g c.outputNode pr tr g₁ pr₁ tr₁ hrecur
          have hsh₂ := copyConn_shape g₁ c nid tr₁
          have hconn₂ : (copyConn g₁ c nid tr₁).1.connections = g.connections :=
            (hsh₁.1.2.1.trans hsh₂.1.2.1).symm
          apply ih
          · intro c' hc'
            rw [hconn₂]
            exact hsub c' (by simp [hc'])
          · rw [hconn₂]
            exact hr
          · exact hn
    · rw [processDepsAux_cons_skip _ c rest g nid pr tr (by simpa using hcc)]
      exact ih g nid pr tr (fun c' hc' => hsub c' (by simp [hc'])) hr hn

/-- Totality of `processNode`: under a strictly decreasing rank, fuel above
the node's rank suffices. -/
theorem processNode_total (rank : Nat → Nat) :
    ∀ (fuel : Nat) (g : NodeEditor) (nid : Nat) (pr : List Nat) (tr : List Ev),
      (∀ c ∈ g.connections, rank c.outputNode < rank c.inputNode) →
      rank nid < fuel →
      nid ∈ nodeIds g →
      (processNode fuel g nid pr tr).isSome = true := by
  intro fuel
  induction fuel with
  | zero => intro g nid pr tr _ hf _; omega
  | succ fuel ih =>
    intro g nid pr tr hr hf hex
    by_cases hmem : nid ∈ pr
    · rw [processNode_succ_mem fuel g nid pr tr hmem]; rfl
    · have hdeps := processDepsAux_total rank fuel ih g.connections g nid pr tr
        (fun c hc => hc) hr (by omega)
      cases hd : processDepsAux (processNode fuel) g.connections g nid pr tr with
      | none => rw [hd] at hdeps; cases hdeps
      | some out =>
        obtain ⟨g₁, pr₁, tr₁⟩ := out
        have hsh := processDepsAux_shape (processNode fuel)
          (fun a b c' d e f k h => processNode_shape fuel a b c' d e f k h)
          g.connections g nid pr tr g₁ pr₁ tr₁ hd
        have hids : nodeIds g = nodeIds g₁ := nodeIds_of_shapeEq hsh.1
        have hfs : (findNodeById g₁ nid).isSome = true :=
          (findNodeById_isSome_iff g₁ nid).mpr (hids ▸ hex)
        cases hfind : findNodeById g₁ nid with
        | none => rw [hfind] at hfs; cases hfs
        | some n =>
          rw [processNode_succ_found fuel g nid pr tr g₁ pr₁ tr₁ n hmem hd hfind]
          rfl

/-- Totality of the outer loop. -/
theorem processSeq_total (rank : Nat → Nat) (fuel : Nat) :
    ∀ (ids : List Nat) (g : NodeEditor) (pr : List Nat) (tr : List Ev),
      (∀ c ∈ g.connections, rank c.outputNode < rank c.inputNode) →
      (∀ x ∈ ids, rank x < fuel ∧ x ∈ nodeIds g) →
      (processSeq fuel ids g pr tr).isSome = true := by
  intro ids
  induction ids with
  | nil => intro g pr tr _ _; rfl
  | cons nid rest ih =>
    intro g pr tr hr hx
    have h1 := processNode_total rank fuel g nid pr tr hr
      (hx nid (by simp)).1 (hx nid (by simp)).2
    cases hstep : processNode fuel g nid pr tr with
    | none => rw [hstep] at h1; cases h1
    | some out =>
      obtain ⟨g₁, pr₁, tr₁⟩ := out
      rw [processSeq_cons_some fuel nid rest g pr tr g₁ pr₁ tr₁ hstep]
      have hsh := processNode_shape fuel g nid pr tr g₁ pr₁ tr₁ hstep
      apply ih g₁ pr₁ tr₁
      · rw [← hsh.1.2.1]
        exact hr
      · intro x hxr
        refine ⟨(hx x (by simp [hxr])).1, ?_⟩
        rw [← nodeIds_of_shapeEq hsh.1]
        exact (hx x (by simp [hxr])).2

/-- The two-node cycle defeats the evaluator at every recursion depth: there
is no visited-on-path guard, so the mutual recursion only stops by running
out of fuel. -/
theorem processNode_exGCyc_none :
    ∀ f : Nat, processNode f exGCyc 0 [] [] = none ∧ processNode f exGCyc 3 [] [] = none := by
  intro f
  induction f with
  | zero => exact ⟨rfl, rfl⟩
  | succ f ih =>
    constructor
    · apply processNode_succ_deps_none f exGCyc 0 [] [] (by simp)
      show processDepsAux (processNode f) (⟨0, 3, 2, 4⟩ :: [⟨3, 0, 5, 1⟩]) exGCyc 0 [] [] = none
      exact processDepsAux_cons_recnone (processNode f) ⟨0, 3, 2, 4⟩ [⟨3, 0, 5, 1⟩]
        exGCyc 0 [] [] (by decide) (by decide) ih.2
    · apply processNode_succ_deps_none f exGCyc 3 [] [] (by simp)
      show processDepsAux (processNode f) (⟨0, 3, 2, 4⟩ :: [⟨3, 0, 5, 1⟩]) exGCyc 3 [] [] = none
      rw [processDepsAux_cons_skip (processNode f) ⟨0, 3, 2, 4⟩ [⟨3, 0, 5, 1⟩]
        exGCyc 3 [] [] (by decide)]
      exact processDepsAux_cons_recnone (processNode f) ⟨3, 0, 5, 1⟩ []
        exGCyc 3 [] [] (by decide) (by decide) ih.1

/-- Claim C2: the evaluation pass terminates on acyclic graphs, with the
needed recursion depth (fuel) bounded by any rank function that strictly
decreases along valid connections — the length of the longest dependency
chain; and the guarantee genuinely needs acyclicity: on the two-node cycle
`exGCyc` the pass fails for every recursion-depth budget, since there is no
in-progress guard distinct from the processed set. -/
theorem c2_termination (rank : Nat → Nat) (fuel : Nat) (g : NodeEditor)
    (hr : ∀ c ∈ g.connections, isConnectionValid g c = true →
      rank c.outputNode < rank c.inputNode)
    (hb : ∀ n ∈ g.nodes, rank n.id < fuel) :
    (∃ out, processGraphFull fuel g = some out) ∧
    (∀ f : Nat, processGraphFull f exGCyc = none) := by
  constructor
  · have hseq := processSeq_total rank fuel ((pruneConnections g).nodes.map (fun n => n.id))
      (pruneConnections g) [] [] ?_ ?_
    · obtain ⟨out, hout⟩ := Option.isSome_iff_exists.mp hseq
      exact ⟨out, hout⟩
    · intro c hc
      have hm := List.mem_filter.mp hc
      exact hr c hm.1 hm.2
    · intro x hx
      obtain ⟨n, hn, hid⟩ := List.mem_map.mp hx
      refine ⟨hid ▸ hb n hn, ?_⟩
      show x ∈ (pruneConnections g).nodes.map (fun n => n.id)
      exact hx
  · intro f
    show processSeq f [0, 3] (pruneConnections exGCyc) [] [] = none
    have hpr : pruneConnections exGCyc = exGCyc := rfl
    rw [hpr]
    exact processSeq_cons_none f 0 [3] exGCyc [] [] (processNode_exGCyc_none f).1

/-- Witness for C2 on the concrete chain A→B→C with the identity rank. -/
theorem c2_termination_witness :
    (∀ c ∈ exChain.connections, isConnectionValid exChain c = true →
      (fun x => x) c.outputNode < (fun x => x) c.inputNode) ∧
    (∀ n ∈ exChain.nodes, (fun x => x) n.id < 8) ∧
    ((∃ out, processGraphFull 8 exChain = some out) ∧
      (∀ f : Nat, processGraphFull f exGCyc = none)) :=
  ⟨by decide, by intro n hn; fin_cases hn <;> decide,
   c2_termination (fun x => x) 8 exChain (by decide) (by intro n hn; fin_cases hn <;> decide)⟩

/-- Characterisation of `find?` after updating the first node with a given id
(for id-preserving updates): looking up that id sees the update, any other id
is unaffected. -/
theorem updateFirstNode_find? (m x : Nat) (f : Node → Node) (hf : ∀ n, (f n).id = n.id) :
    ∀ l : List Node,
      (updateFirstNode l m f).find? (fun n => n.id == x) =
        if x = m then (l.find? (fun n => n.id == m)).map f
        else l.find? (fun n => n.id == x) := by
  intro l
  induction l with
  | nil => by_cases hxm : x = m <;> simp [updateFirstNode, hxm]
  | cons n ns ih =>
    by_cases hm : (n.id == m) = true
    · have hnm : n.id = m := eq_of_beq hm
      simp only [updateFirstNode, if_pos hm]
      by_cases hxm : x = m
      · subst hxm
        have h1 : ((f n).id == x) = true := by rw [hf n]; exact hm
        simp [List.find?, h1, hm]
      · have h1 : ((f n).id == x) = false := by
          rw [hf n]
          exact beq_eq_false_iff_ne.mpr (fun he => hxm (he ▸ hnm.symm ▸ rfl))
        have h2 : (n.id == x) = false := beq_eq_false_iff_ne.mpr (fun he => hxm (hnm ▸ he ▸ rfl))
        simp only [List.find?, h1, h2, if_neg hxm]
    · simp only [updateFirstNode, if_neg hm]
      by_cases hxm : x = m
      · subst hxm
        simp only [List.find?, hm, ih, if_pos rfl]
      · by_cases hx : (n.id == x) = true
        · simp [List.find?, hx, if_neg hxm]
        · simp only [List.find?, hx, ih, if_neg hxm]

/-- Editor-level version of `updateFirstNode_find?`. -/
theorem findNodeById_updateNodeFirst (g : NodeEditor) (m x : Nat) (f : Node → Node)
    (hf : ∀ n, (f n).id = n.id) :
    findNodeById (updateNodeFirst g m f) x =
      if x = m then (findNodeById g m).map f else findNodeById g x :=
  updateFirstNode_find? m x f hf g.nodes

/-- A successful `findPinIndex` points at a pin with the requested id. -/
theorem findPinIndex_spec :
    ∀ (ps : List Pin) (x : Nat) (i : Nat), findPinIndex ps x = some i →
      ∃ p, ps.get? i = some p ∧ p.id = x := by
  intro ps
  induction ps with
  | nil => intro x i h; cases h
  | cons p ps ih =>
    intro x i h
    by_cases hp : (p.id == x) = true
    · simp only [findPinIndex, if_pos hp] at h
      cases h
      exact ⟨p, rfl, eq_of_beq hp⟩
    · simp only [findPinIndex, if_neg hp] at h
      cases hi : findPinIndex ps x with
      | none => rw [hi] at h; cases h
      | some j =>
        rw [hi] at h
        simp only [Option.map_some'] at h
        obtain ⟨q, hq, hqid⟩ := ih x j hi
        cases h
        exact ⟨q, hq, hqid⟩

/-- Pointwise relation extracted from equal images under a map. -/
theorem forall₂_of_map_eq {α β : Type _} {f : α → β} :
    ∀ {l l' : List α}, l.map f = l'.map f → List.Forall₂ (fun a b => f a = f b) l l' := by
  intro l
  induction l with
  | nil =>
    intro l' h
    cases l' with
    | nil => exact List.Forall₂.nil
    | cons b bs => cases h
  | cons a as ih =>
    intro l' h
    cases l' with
    | nil => cases h
    | cons b bs =>
      simp only [List.map_cons, List.cons.injEq] at h
      exact List.Forall₂.cons h.1 (ih h.2)

/-- `find?` transported along a pointwise relation that the predicate
respects: the successful case. -/
theorem find?_some_congr {α : Type _} {R : α → α → Prop} {p : α → Bool}
    (hp : ∀ a b, R a b → p a = p b) :
    ∀ {l l' : List α}, List.Forall₂ R l l' → ∀ {a}, l.find? p = some a →
      ∃ b, l'.find? p = some b ∧ R a b := by
  intro l l' hl
  induction hl with
  | nil => intro a h; cases h
  | cons hR hrest ih =>
    intro a h
    rename_i x y xs ys
    by_cases hx : p x = true
    · rw [List.find?_cons_of_pos _ hx] at h
      cases h
      exact ⟨y, List.find?_cons_of_pos _ ((hp _ _ hR).symm.trans hx), hR⟩
    · rw [List.find?_cons_of_neg _ hx] at h
      obtain ⟨b, hb, hRb⟩ := ih h
      have hy : ¬ p y = true := by rw [← hp _ _ hR]; exact hx
      exact ⟨b, by rw [List.find?_cons_of_neg _ hy]; exact hb, hRb⟩

/-- `find?` transported along a pointwise relation: the failing case. -/
theorem find?_none_congr {α : Type _} {R : α → α → Prop} {p : α → Bool}
    (hp : ∀ a b, R a b → p a = p b) :
    ∀ {l l' : List α}, List.Forall₂ R l l' → l.find? p = none → l'.find? p = none := by
  intro l l' hl
  induction hl with
  | nil => intro _; rfl
  | cons hR hrest ih =>
    intro h
    rename_i x y xs ys
    by_cases hx : p x = true
    · rw [List.find?_cons_of_pos _ hx] at h; cases h
    · rw [List.find?_cons_of_neg _ hx] at h
      have hy : ¬ p y = true := by rw [← hp _ _ hR]; exact hx
      rw [List.find?_cons_of_neg _ hy]
      exact ih h

/-- Membership on the right of a pointwise relation is matched on the left. -/
theorem forall₂_mem_right {α : Type _} {R : α → α → Prop} :
    ∀ {l l' : List α}, List.Forall₂ R l l' → ∀ {b}, b ∈ l' → ∃ a ∈ l, R a b := by
  intro l l' hl
  induction hl with
  | nil => intro b h; cases h
  | cons hR hrest ih =>
    intro b h
    rename_i x y xs ys
    rcases List.mem_cons.mp h with rfl | h
    · exact ⟨x, by simp, hR⟩
    · obtain ⟨a, ha, hab⟩ := ih h
      exact ⟨a, by simp [ha], hab⟩

/-- Equal node shapes mean equal components apart from the pin buffers. -/
theorem nodeShape_inj {m m' : Node} (h : nodeShape m = nodeShape m') :
    m.id = m'.id ∧ m.name = m'.name ∧ m.dirty = m'.dirty ∧
    m.inputs.map pinShape = m'.inputs.map pinShape ∧
    m.outputs.map pinShape = m'.outputs.map pinShape ∧ m.procFn = m'.procFn := by
  simp only [nodeShape, Prod.mk.injEq] at h
  exact ⟨h.1, h.2.1, h.2.2.1, h.2.2.2.1, h.2.2.2.2.1, h.2.2.2.2.2⟩

/-- Equal pin shapes mean equal id, name and `connected` flag. -/
theorem pinShape_inj {p p' : Pin} (h : pinShape p = pinShape p') :
    p.id = p'.id ∧ p.name = p'.name ∧ p.connected = p'.connected := by
  simp only [pinShape, Prod.mk.injEq] at h
  exact h

/-- Node lookup transported backwards along equal node-shape lists. -/
theorem findNodeById_shape_some {g g' : NodeEditor}
    (h : g.nodes.map nodeShape = g'.nodes.map nodeShape) {x : Nat} {n' : Node}
    (hf : findNodeById g' x = some n') :
    ∃ n, findNodeById g x = some n ∧ nodeShape n = nodeShape n' := by
  have hfa := forall₂_of_map_eq (f := nodeShape) h.symm
  have hp : ∀ a b : Node, nodeShape a = nodeShape b → (a.id == x) = (b.id == x) := by
    intro a b hab
    rw [(nodeShape_inj hab).1]
  obtain ⟨b, hb, hRb⟩ := find?_some_congr hp hfa hf
  exact ⟨b, hb, hRb.symm⟩

/-- Connection validity depends only on the node ids present. -/
theorem isConnectionValid_congr {g g' : NodeEditor} (h : nodeIds g = nodeIds g')
    (c : Connection) : isConnectionValid g c = isConnectionValid g' c := by
  have hx : ∀ x, (findNodeById g x).isSome = (findNodeById g' x).isSome := by
    intro x
    by_cases hm : x ∈ nodeIds g
    · have h1 := (findNodeById_isSome_iff g x).mpr hm
      have h2 := (findNodeById_isSome_iff g' x).mpr (h ▸ hm)
      rw [h1, h2]
    · have h1 : ¬ (findNodeById g x).isSome = true := fun hs =>
        hm ((findNodeById_isSome_iff g x).mp hs)
      have h2 : ¬ (findNodeById g' x).isSome = true := fun hs =>
        hm (h ▸ (findNodeById_isSome_iff g' x).mp hs)
      rw [Bool.not_eq_true] at h1 h2
      rw [h1, h2]
  unfold isConnectionValid
  rw [hx c.inputNode, hx c.outputNode]

/-- Writing a pin at an index holding a different pin id does not change the
pins filtered by id. -/
theorem setPinData_filter_of_ne (pid : Nat) :
    ∀ (ps : List Pin) (ii : Nat) (b : Buf),
      (∀ p, ps.get? ii = some p → p.id ≠ pid) →
      (setPinData ps ii b).filter (fun p => p.id == pid) =
        ps.filter (fun p => p.id == pid) := by
  intro ps
  induction ps with
  | nil => intro ii b _; cases ii <;> rfl
  | cons p ps ih =>
    intro ii b h
    cases ii with
    | zero =>
      have hne : p.id ≠ pid := h p rfl
      have hb : (p.id == pid) = false := beq_eq_false_iff_ne.mpr hne
      simp only [setPinData, List.filter]
      rw [show ({ p with data := b } : Pin).id = p.id from rfl, hb]
    | succ j =>
      simp only [setPinData, List.filter]
      cases hp : (p.id == pid) <;> simp [ih j b (fun q hq => h q hq)]

/-- An id-preserving, input-preserving node update leaves `inputPinsById`
unchanged. -/
theorem inputPinsById_updateNodeFirst (g : NodeEditor) (m : Nat) (f : Node → Node)
    (nid pid : Nat) (hf : ∀ n, (f n).id = n.id) (hfi : ∀ n, (f n).inputs = n.inputs) :
    inputPinsById (updateNodeFirst g m f) nid pid = inputPinsById g nid pid := by
  unfold inputPinsById
  rw [findNodeById_updateNodeFirst g m nid f hf]
  by_cases hnm : nid = m
  · rw [if_pos hnm, hnm]
    cases findNodeById g m with
    | none => rfl
    | some n => simp [hfi n]
  · rw [if_neg hnm]

/-- The copy step leaves `inputPinsById` of `(nid, pid)` unchanged when it
does not target that pin. -/
theorem copyConn_inputPinsById (g : NodeEditor) (c : Connection) (m : Nat) (tr : List Ev)
    (nid pid : Nat) (h : m = nid → c.inputPin ≠ pid) :
    inputPinsById (copyConn g c m tr).1 nid pid = inputPinsById g nid pid := by
  unfold copyConn
  cases hu : findNodeById g c.outputNode with
  | none => rfl
  | some u =>
    cases hm : findNodeById g m with
    | none => rfl
    | some n =>
      dsimp only
      cases ho : findPinIndex u.outputs c.outputPin with
      | none => rfl
      | some oi =>
        cases hii : findPinIndex n.inputs c.inputPin with
        | none => rfl
        | some ii =>
          dsimp only
          by_cases hs : pinDataAt u.outputs oi = []
          · rw [if_pos hs]
          · rw [if_neg hs]
            show inputPinsById (updateNodeFirst g m _) nid pid = inputPinsById g nid pid
            unfold inputPinsById
            rw [findNodeById_updateNodeFirst g m nid
              (fun mm => { mm with inputs := setPinData mm.inputs ii (pinDataAt u.outputs oi) })
              (fun q => rfl)]
            by_cases hnm : nid = m
            · rw [if_pos hnm, hnm, hm]
              show ((setPinData n.inputs ii (pinDataAt u.outputs oi)).filter
                  (fun p => p.id == pid)).map (fun p => p.data) =
                (n.inputs.filter (fun p => p.id == pid)).map (fun p => p.data)
              rw [setPinData_filter_of_ne pid n.inputs ii (pinDataAt u.outputs oi)]
              intro q hq
              obtain ⟨q', hq', hid⟩ := findPinIndex_spec n.inputs c.inputPin ii hii
              rw [hq] at hq'
              cases hq'
              rw [hid]
              exact h hnm.symm
            · rw [if_neg hnm]

/-- The dependency loop leaves `inputPinsById` of an unfed pin unchanged. -/
theorem processDepsAux_inputPinsById (nid pid : Nat) (fuel : Nat)
    (hrec : ∀ (g : NodeEditor) (m : Nat) (pr : List Nat) (tr : List Ev) g' pr' tr',
      processNode fuel g m pr tr = some (g', pr', tr') →
      (∀ c ∈ g.connections, c.inputNode = nid → c.inputPin ≠ pid) →
      inputPinsById g' nid pid = inputPinsById g nid pid) :
    ∀ (conns : List Connection) (g : NodeEditor) (m : Nat) (pr : List Nat) (tr : List Ev)
      g' pr' tr',
      processDepsAux (processNode fuel) conns g m pr tr = some (g', pr', tr') →
      (∀ c ∈ conns, c ∈ g.connections) →
      (∀ c ∈ g.connections, c.inputNode = nid → c.inputPin ≠ pid) →
      inputPinsById g' nid pid = inputPinsById g nid pid := by
  intro conns
  induction conns with
  | nil =>
    intro g m pr tr g' pr' tr' h _ _
    cases h
    rfl
  | cons c rest ih =>
    intro g m pr tr g' pr' tr' h hsub hnf
    by_cases hcc : (c.inputNode == m) = true
    · cases hfind : findNodeById g c.outputNode with
      | none =>
        rw [processDepsAux_cons_noup _ c rest g m pr tr hcc hfind] at h
        exact ih g m pr tr g' pr' tr' h (fun c' hc' => hsub c' (by simp [hc'])) hnf
      | some u =>
        cases hrecur : processNode fuel g c.outputNode pr tr with
        | none =>
          rw [processDepsAux_cons_recnone _ c rest g m pr tr hcc (by rw [hfind]; rfl) hrecur] at h
          cases h
        | some out =>
          obtain ⟨g₁, pr₁, tr₁⟩ := out
          rw [processDepsAux_cons_recsome _ c rest g m pr tr u g₁ pr₁ tr₁ hcc hfind hrecur] at h
          have hsh₁ := processNode_shape fuel g c.outputNode pr tr g₁ pr₁ tr₁ hrecur
          have hsh₂ := copyConn_shape g₁ c m tr₁
          have hconn : (copyConn g₁ c m tr₁).1.connections = g.connections :=
            (hsh₁.1.2.1.trans hsh₂.1.2.1).symm
          have e₁ := hrec g c.outputNode pr tr g₁ pr₁ tr₁ hrecur hnf
          have e₂ : inputPinsById (copyConn g₁ c m tr₁).1 nid pid =
              inputPinsById g₁ nid pid := by
            apply copyConn_inputPinsById
            intro hm
            exact hnf c (hsub c (by simp)) ((eq_of_beq hcc).trans hm)
          have e₃ := ih (copyConn g₁ c m tr₁).1 m pr₁ (copyConn g₁ c m tr₁).2 g' pr' tr' h
            (fun c' hc' => by rw [hconn]; exact hsub c' (by simp [hc']))
            (by rw [hconn]; exact hnf)
          rw [e₃, e₂, e₁]
    · rw [processDepsAux_cons_skip _ c rest g m pr tr (by simpa using hcc)] at h
      exact ih g m pr tr g' pr' tr' h (fun c' hc' => hsub c' (by simp [hc'])) hnf

/-- `processNode` leaves `inputPinsById` of an unfed pin unchanged. -/
theorem processNode_inputPinsById (nid pid : Nat) :
    ∀ (fuel : Nat) (g : NodeEditor) (m : Nat) (pr : List Nat) (tr : List Ev) g' pr' tr',
      processNode fuel g m pr tr = some (g', pr', tr') →
      (∀ c ∈ g.connections, c.inputNode = nid → c.inputPin ≠ pid) →
      inputPinsById g' nid pid = inputPinsById g nid pid := by
  intro fuel
  induction fuel with
  | zero => intro g m pr tr g' pr' tr' h _; cases h
  | succ fuel ih =>
    intro g m pr tr g' pr' tr' h hnf
    by_cases hmem : m ∈ pr
    · rw [processNode_succ_mem fuel g m pr tr hmem] at h
      cases h
      rfl
    · cases hd : processDepsAux (processNode fuel) g.connections g m pr tr with
      | none => rw [processNode_succ_deps_none fuel g m pr tr hmem hd] at h; cases h
      | some out =>
        obtain ⟨g₁, pr₁, tr₁⟩ := out
        cases hfind : findNodeById g₁ m with
        | none =>
          rw [show processNode (fuel+1) g m pr tr = none by
            simp only [processNode, if_neg hmem, hd, hfind]] at h
          cases h
        | some n =>
          rw [processNode_succ_found fuel g m pr tr g₁ pr₁ tr₁ n hmem hd hfind] at h
          have e₁ := processDepsAux_inputPinsById nid pid fuel ih g.connections g m pr tr
            g₁ pr₁ tr₁ hd (fun c hc => hc) hnf
          have e₂ : inputPinsById (setNodeOutputs g₁ m (n.procFn (n.inputs.map (·.data))))
              nid pid = inputPinsById g₁ nid pid :=
            inputPinsById_updateNodeFirst g₁ m _ nid pid (fun q => rfl) (fun q => rfl)
          cases h
          rw [e₂, e₁]

/-- The whole evaluation pass leaves `inputPinsById` of an unfed pin
unchanged. -/
theorem processGraphFull_inputPinsById (nid pid : Nat) (fuel : Nat) (g : NodeEditor)
    (g' : NodeEditor) (pr : List Nat) (tr : List Ev)
    (h : processGraphFull fuel g = some (g', pr, tr))
    (hnf : ∀ c ∈ g.connections, c.inputNode = nid → c.inputPin ≠ pid) :
    inputPinsById g' nid pid = inputPinsById g nid pid := by
  have hseq : ∀ (ids : List Nat) (g₀ : NodeEditor) (pr₀ : List Nat) (tr₀ : List Ev) g₁ pr₁ tr₁,
      processSeq fuel ids g₀ pr₀ tr₀ = some (g₁, pr₁, tr₁) →
      (∀ c ∈ g₀.connections, c.inputNode = nid → c.inputPin ≠ pid) →
      inputPinsById g₁ nid pid = inputPinsById g₀ nid pid := by
    intro ids
    induction ids with
    | nil => intro g₀ pr₀ tr₀ g₁ pr₁ tr₁ h' _; cases h'; rfl
    | cons x rest ih =>
      intro g₀ pr₀ tr₀ g₁ pr₁ tr₁ h' hnf'
      cases hstep : processNode fuel g₀ x pr₀ tr₀ with
      | none => rw [processSeq_cons_none fuel x rest g₀ pr₀ tr₀ hstep] at h'; cases h'
      | some out =>
        obtain ⟨g₂, pr₂, tr₂⟩ := out
        rw [processSeq_cons_some fuel x rest g₀ pr₀ tr₀ g₂ pr₂ tr₂ hstep] at h'
        have hsh := processNode_shape fuel g₀ x pr₀ tr₀ g₂ pr₂ tr₂ hstep
        have e₁ := processNode_inputPinsById nid pid fuel g₀ x pr₀ tr₀ g₂ pr₂ tr₂ hstep hnf'
        have e₂ := ih g₂ pr₂ tr₂ g₁ pr₁ tr₁ h' (by rw [← hsh.1.2.1]; exact hnf')
        rw [e₂, e₁]
  have h' : processSeq fuel ((pruneConnections g).nodes.map (fun n => n.id))
      (pruneConnections g) [] [] = some (g', pr, tr) := h
  have := hseq ((pruneConnections g).nodes.map (fun n => n.id)) (pruneConnections g) [] []
    g' pr tr h' (fun c hc => hnf c (List.mem_filter.mp hc).1)
  exact this

/-- An id-preserving update keeps the list of node ids. -/
theorem updateFirstNode_ids (m : Nat) (f : Node → Node) (hf : ∀ n, (f n).id = n.id) :
    ∀ l : List Node, (updateFirstNode l m f).map (fun n => n.id) = l.map (fun n => n.id) := by
  intro l
  induction l with
  | nil => rfl
  | cons n ns ih =>
    by_cases hm : (n.id == m) = true
    · simp [updateFirstNode, hm, hf n]
    · simp [updateFirstNode, hm, ih]

/-- Lookup after the input-clearing stage. -/
theorem clearInStage_find (g : NodeEditor) (c : Connection) (x : Nat) :
    findNodeById (clearInStage g c) x =
      if x = c.inputNode then
        (findNodeById g c.inputNode).map
          (fun n => { n with inputs := n.inputs.map (clearInputPin c.inputPin) })
      else findNodeById g x := by
  unfold clearInStage
  cases hin : findNodeById g c.inputNode with
  | none =>
    by_cases hx : x = c.inputNode
    · rw [if_pos hx, hx, hin]
      rfl
    · rw [if_neg hx]
  | some n0 =>
    dsimp only
    rw [findNodeById_updateNodeFirst g c.inputNode x
      (fun n => { n with inputs := n.inputs.map (clearInputPin c.inputPin) }) (fun q => rfl)]
    rw [hin]

/-- Lookup after the output-clearing stage. -/
theorem clearOutStage_find (g : NodeEditor) (c : Connection) (x : Nat) :
    findNodeById (clearOutStage g c) x =
      if x = c.outputNode then
        (findNodeById g c.outputNode).map
          (fun n => { n with outputs := n.outputs.map (clearOutputPin c.outputPin) })
      else findNodeById g x := by
  unfold clearOutStage
  cases hout : findNodeById g c.outputNode with
  | none =>
    by_cases hx : x = c.outputNode
    · rw [if_pos hx, hx, hout]
      rfl
    · rw [if_neg hx]
  | some n0 =>
    dsimp only
    rw [findNodeById_updateNodeFirst g c.outputNode x
      (fun n => { n with outputs := n.outputs.map (clearOutputPin c.outputPin) }) (fun q => rfl)]
    rw [hout]

/-- The clearing stage touches no connections, counter, selection or node
ids. -/
theorem clearConnPins_frame (g : NodeEditor) (c : Connection) :
    (clearConnPins g c).connections = g.connections ∧
    (clearConnPins g c).currentId = g.currentId ∧
    (clearConnPins g c).selectedNode = g.selectedNode ∧
    nodeIds (clearConnPins g c) = nodeIds g := by
  have hstage : ∀ (g' : NodeEditor),
      (clearInStage g' c).connections = g'.connections ∧
      (clearInStage g' c).currentId = g'.currentId ∧
      (clearInStage g' c).selectedNode = g'.selectedNode ∧
      nodeIds (clearInStage g' c) = nodeIds g' := by
    intro g'
    unfold clearInStage
    cases findNodeById g' c.inputNode with
    | none => exact ⟨rfl, rfl, rfl, rfl⟩
    | some _ =>
      dsimp only
      exact ⟨rfl, rfl, rfl, updateFirstNode_ids c.inputNode
        (fun n => { n with inputs := n.inputs.map (clearInputPin c.inputPin) })
        (fun q => rfl) g'.nodes⟩
  have hstage2 : ∀ (g' : NodeEditor),
      (clearOutStage g' c).connections = g'.connections ∧
      (clearOutStage g' c).currentId = g'.currentId ∧
      (clearOutStage g' c).selectedNode = g'.selectedNode ∧
      nodeIds (clearOutStage g' c) = nodeIds g' := by
    intro g'
    unfold clearOutStage
    cases findNodeById g' c.outputNode with
    | none => exact ⟨rfl, rfl, rfl, rfl⟩
    | some _ =>
      dsimp only
      exact ⟨rfl, rfl, rfl, updateFirstNode_ids c.outputNode
        (fun n => { n with outputs := n.outputs.map (clearOutputPin c.outputPin) })
        (fun q => rfl) g'.nodes⟩
  have h1 := hstage g
  have h2 := hstage2 (clearInStage g c)
  exact ⟨h2.1.trans h1.1, h2.2.1.trans h1.2.1, h2.2.2.1.trans h1.2.2.1,
    h2.2.2.2.trans h1.2.2.2⟩

/-- The input node seen after the clearing stage: either the lookup fails, or
its input pins are the image of some pin list under `clearInputPin`. -/
theorem clearConnPins_find_inputNode (g : NodeEditor) (c : Connection) :
    findNodeById (clearConnPins g c) c.inputNode = none ∨
    ∃ (ins0 : List Pin) (n' : Node), findNodeById (clearConnPins g c) c.inputNode = some n' ∧
      n'.inputs = ins0.map (clearInputPin c.inputPin) := by
  unfold clearConnPins
  rw [clearOutStage_find (clearInStage g c) c c.inputNode]
  by_cases heq : c.inputNode = c.outputNode
  · rw [if_pos heq, ← heq, clearInStage_find g c c.inputNode, if_pos rfl]
    cases findNodeById g c.inputNode with
    | none => exact Or.inl rfl
    | some n0 => exact Or.inr ⟨n0.inputs, _, rfl, rfl⟩
  · rw [if_neg heq, clearInStage_find g c c.inputNode, if_pos rfl]
    cases findNodeById g c.inputNode with
    | none => exact Or.inl rfl
    | some n0 => exact Or.inr ⟨n0.inputs, _, rfl, rfl⟩

/-- The output node seen after the clearing stage: either the lookup fails,
or its output pins are the image of some pin list under `clearOutputPin`. -/
theorem clearConnPins_find_outputNode (g : NodeEditor) (c : Connection) :
    findNodeById (clearConnPins g c) c.outputNode = none ∨
    ∃ (outs0 : List Pin) (u' : Node), findNodeById (clearConnPins g c) c.outputNode = some u' ∧
      u'.outputs = outs0.map (clearOutputPin c.outputPin) := by
  unfold clearConnPins
  rw [clearOutStage_find (clearInStage g c) c c.outputNode, if_pos rfl]
  cases findNodeById (clearInStage g c) c.outputNode with
  | none => exact Or.inl rfl
  | some u1 => exact Or.inr ⟨u1.outputs, _, rfl, rfl⟩

/-- Pins produced by `clearInputPin` with the cleared id are empty and
unconnected. -/
theorem clearInputPin_cleared (pid : Nat) (ins0 : List Pin) :
    ∀ p ∈ ins0.map (clearInputPin pid), p.id = pid → p.data = [] ∧ p.connected = false := by
  intro p hp hpid
  obtain ⟨q, hq, rfl⟩ := List.mem_map.mp hp
  by_cases hb : (q.id == pid) = true
  · unfold clearInputPin
    rw [if_pos hb]
    exact ⟨rfl, rfl⟩
  · have hne : q.id ≠ pid := by simpa using hb
    unfold clearInputPin at hpid
    rw [if_neg hb] at hpid
    exact absurd hpid hne

/-- Pins produced by `clearOutputPin` with the cleared id are unconnected. -/
theorem clearOutputPin_cleared (pid : Nat) (outs0 : List Pin) :
    ∀ p ∈ outs0.map (clearOutputPin pid), p.id = pid → p.connected = false := by
  intro p hp hpid
  obtain ⟨q, hq, rfl⟩ := List.mem_map.mp hp
  by_cases hb : (q.id == pid) = true
  · unfold clearOutputPin
    rw [if_pos hb]
  · have hne : q.id ≠ pid := by simpa using hb
    unfold clearOutputPin at hpid
    rw [if_neg hb] at hpid
    exact absurd hpid hne

/-- General frame of a full pass (shape, counter, selection, pruned
connections). -/
theorem processGraphFull_frame (fuel : Nat) (g g' : NodeEditor) (pr : List Nat)
    (tr : List Ev) (h : processGraphFull fuel g = some (g', pr, tr)) :
    g'.nodes.map nodeShape = g.nodes.map nodeShape ∧
    g'.currentId = g.currentId ∧
    g'.selectedNode = g.selectedNode ∧
    g'.connections = g.connections.filter (fun c => isConnectionValid g c) := by
  have h'' : processSeq fuel ((pruneConnections g).nodes.map (fun n => n.id))
      (pruneConnections g) [] [] = some (g', pr, tr) := h
  have h' := processSeq_shape fuel ((pruneConnections g).nodes.map (fun n => n.id))
    (pruneConnections g) [] [] g' pr tr h''
  obtain ⟨⟨hn, hc, hcur, hsel⟩, _, _⟩ := h'
  exact ⟨hn.symm, hcur.symm, hsel.symm, hc.symm⟩

/-- Inversion of the state-only pass wrapper. -/
theorem processGraphSt_inv (fuel : Nat) (G : NodeEditor) (g' : NodeEditor)
    (h : processGraphSt fuel G = some g') :
    ∃ pr tr, processGraphFull fuel G = some (g', pr, tr) := by
  unfold processGraphSt at h
  cases hfull : processGraphFull fuel G with
  | none => rw [hfull] at h; cases h
  | some out =>
    obtain ⟨gf, pr, tr⟩ := out
    rw [hfull] at h
    simp only [Option.map_some'] at h
    have hg : gf = g' := by injection h
    subst hg
    exact ⟨pr, tr, rfl⟩

/-- A pin buffer of a looked-up node occurs in `inputPinsById`. -/
theorem mem_inputPinsById {g : NodeEditor} {nid pid : Nat} {n' : Node} {p : Pin}
    (hf : findNodeById g nid = some n') (hp : p ∈ n'.inputs) (hid : p.id = pid) :
    p.data ∈ inputPinsById g nid pid := by
  unfold inputPinsById
  rw [hf]
  exact List.mem_map.mpr ⟨p, List.mem_filter.mpr ⟨hp, by simp [hid]⟩, rfl⟩

/-- After the clearing stage, every buffer tracked for the cleared input pin
is empty. -/
theorem clearConnPins_inputPins_empty (g : NodeEditor) (c : Connection) :
    ∀ b ∈ inputPinsById (clearConnPins g c) c.inputNode c.inputPin, b = [] := by
  rcases clearConnPins_find_inputNode g c with hnone | ⟨ins0, n', hfind, hins⟩
  · unfold inputPinsById
    rw [hnone]
    intro b hb
    cases hb
  · unfold inputPinsById
    rw [hfind]
    intro b hb
    obtain ⟨p, hpf, rfl⟩ := List.mem_map.mp hb
    have hpm := List.mem_filter.mp hpf
    have hpid : p.id = c.inputPin := by simpa using hpm.2
    exact (clearInputPin_cleared c.inputPin ins0 p (hins ▸ hpm.1) hpid).1

/-- Equation: out-of-range `deleteConnection` is the identity. -/
theorem deleteConnection_oor (fuel : Nat) (g : NodeEditor) (i : Int)
    (h : i < 0 ∨ (g.connections.length : Int) ≤ i) :
    deleteConnection fuel g i = some g := by
  simp only [deleteConnection, if_pos h]

/-- Equation: in-range `deleteConnection` clears, erases and reprocesses. -/
theorem deleteConnection_ir (fuel : Nat) (g : NodeEditor) (i : Int) (c : Connection)
    (h : ¬(i < 0 ∨ (g.connections.length : Int) ≤ i))
    (hc : g.connections.get? i.toNat = some c) :
    deleteConnection fuel g i =
      processGraphSt fuel
        { clearConnPins g c with
            connections := (clearConnPins g c).connections.eraseIdx i.toNat } := by
  simp only [deleteConnection, if_neg h, hc]

/-- Claim C6 (amended): for every in-range index, `disconnect` removes the
indexed connection (the triggered pass also prunes invalid ones) and clears
both endpoint pins' `connected` flags; the former input pin's buffer ends up
empty provided no remaining connection targets the same input pin — the
triggered evaluation pass can otherwise refill it (see the counterexample).
For every out-of-range index, `disconnect` leaves the state unchanged. -/
theorem c6_disconnect (fuel : Nat) (g : NodeEditor) (i : Int) (g' : NodeEditor)
    (h : deleteConnection fuel g i = some g') : disconnectSpec g i g' := by
  constructor
  · intro hoor
    rw [deleteConnection_oor fuel g i hoor] at h
    cases h
    rfl
  · intro hir c hc
    rw [deleteConnection_ir fuel g i c hir hc] at h
    obtain ⟨pr, tr, hfull⟩ := processGraphSt_inv fuel _ g' h
    have hframe := processGraphFull_frame fuel _ g' pr tr hfull
    have hcc := clearConnPins_frame g c
    have hG₃conn : ({ clearConnPins g c with
        connections := (clearConnPins g c).connections.eraseIdx i.toNat } :
        NodeEditor).connections = g.connections.eraseIdx i.toNat := by
      show (clearConnPins g c).connections.eraseIdx i.toNat = _
      rw [hcc.1]
    have hG₃ids : nodeIds ({ clearConnPins g c with
        connections := (clearConnPins g c).connections.eraseIdx i.toNat } :
        NodeEditor) = nodeIds g := hcc.2.2.2
    refine ⟨?_, ?_, ?_, ?_⟩
    · rw [hframe.2.2.2, hG₃conn]
      exact List.filter_congr (fun c' _ => isConnectionValid_congr hG₃ids c')
    · intro n' hn' p hp hpid
      obtain ⟨n₃, hn₃, hsh⟩ := findNodeById_shape_some hframe.1.symm hn'
      have hn₃' : findNodeById (clearConnPins g c) c.inputNode = some n₃ := hn₃
      rcases clearConnPins_find_inputNode g c with hnone | ⟨ins0, n'', hfind, hins⟩
      · rw [hn₃'] at hnone; cases hnone
      · rw [hn₃'] at hfind
        cases hfind
        have hpins := (nodeShape_inj hsh).2.2.2.1
        have hfa := forall₂_of_map_eq (f := pinShape) hpins
        obtain ⟨q, hq, hqp⟩ := forall₂_mem_right hfa hp
        have hq3 := pinShape_inj hqp
        have := clearInputPin_cleared c.inputPin ins0 q (hins ▸ hq) (hq3.1.trans hpid)
        rw [← hq3.2.2]
        exact this.2
    · intro u' hu' p hp hpid
      obtain ⟨u₃, hu₃, hsh⟩ := findNodeById_shape_some hframe.1.symm hu'
      have hu₃' : findNodeById (clearConnPins g c) c.outputNode = some u₃ := hu₃
      rcases clearConnPins_find_outputNode g c with hnone | ⟨outs0, u'', hfind, houts⟩
      · rw [hu₃'] at hnone; cases hnone
      · rw [hu₃'] at hfind
        cases hfind
        have hpins := (nodeShape_inj hsh).2.2.2.2.1
        have hfa := forall₂_of_map_eq (f := pinShape) hpins
        obtain ⟨q, hq, hqp⟩ := forall₂_mem_right hfa hp
        have hq3 := pinShape_inj hqp
        have := clearOutputPin_cleared c.outputPin outs0 q (houts ▸ hq) (hq3.1.trans hpid)
        rw [← hq3.2.2]
        exact this
    · intro hnf n' hn' p hp hpid
      have htrans := processGraphFull_inputPinsById c.inputNode c.inputPin fuel _ g' pr tr
        hfull (by
          rw [hG₃conn]
          intro c' hc' hin hpin
          exact hnf c' hc' ⟨hin, hpin⟩)
      have hclear : inputPinsById ({ clearConnPins g c with
          connections := (clearConnPins g c).connections.eraseIdx i.toNat } :
          NodeEditor) c.inputNode c.inputPin =
          inputPinsById (clearConnPins g c) c.inputNode c.inputPin := rfl
      have hmem := mem_inputPinsById hn' hp hpid
      rw [htrans, hclear] at hmem
      exact clearConnPins_inputPins_empty g c p.data hmem

/-- Witness for C6 at the fan-out graph: disconnecting index 0 in range. -/
theorem c6_disconnect_witness :
    disconnectSpec exG10 0
      ⟨[⟨0, "A", [], [⟨1, "out", [], false⟩], false, fun _ => []⟩,
        ⟨2, "B", [⟨3, "in", [], false⟩], [], false, fun _ => []⟩,
        ⟨4, "C", [⟨5, "in", [], true⟩], [], false, fun _ => []⟩],
       [⟨4, 0, 5, 1⟩], 6, none⟩ :=
  c6_disconnect 5 exG10 0 _ rfl

/-- Mapping a function that respects a pointwise relation gives equal images. -/
theorem map_congr_of_forall₂ {α β : Type _} {R : α → α → Prop} {f : α → β}
    (hf : ∀ a b, R a b → f a = f b) :
    ∀ {l l' : List α}, List.Forall₂ R l l' → l.map f = l'.map f := by
  intro l l' h
  induction h with
  | nil => rfl
  | cons hR _ ih => simp [hf _ _ hR, ih]

/-- Equal pin shapes give equal pin ids. -/
theorem pinIds_of_pinShapes {ps ps' : List Pin}
    (h : ps.map pinShape = ps'.map pinShape) :
    ps.map (fun p => p.id) = ps'.map (fun p => p.id) := by
  have h1 : (ps.map pinShape).map (fun t => t.1) = (ps'.map pinShape).map (fun t => t.1) := by
    rw [h]
  simpa [List.map_map, pinShape, Function.comp] using h1

/-- Node shapes determine id signatures. -/
theorem idSig_of_nodeShape {n n' : Node} (h : nodeShape n = nodeShape n') :
    idSig n = idSig n' := by
  obtain ⟨h1, _, _, h4, h5, _⟩ := nodeShape_inj h
  unfold idSig
  rw [h1, pinIds_of_pinShapes h4, pinIds_of_pinShapes h5]

/-- Equal shape lists give equal id-signature lists. -/
theorem idSigs_of_shapes {g g' : NodeEditor}
    (h : g.nodes.map nodeShape = g'.nodes.map nodeShape) :
    g.nodes.map idSig = g'.nodes.map idSig :=
  map_congr_of_forall₂ (fun _ _ hab => idSig_of_nodeShape hab) (forall₂_of_map_eq h)

/-- Equal id-signature lists give equal `allIds`. -/
theorem allIds_congr {g g' : NodeEditor} (h : g.nodes.map idSig = g'.nodes.map idSig) :
    allIds g = allIds g' := by
  unfold allIds
  have haux : ∀ l l' : List Node, List.Forall₂ (fun a b => idSig a = idSig b) l l' →
      l.flatMap (fun n => n.id :: (n.inputs.map (fun p => p.id) ++ n.outputs.map (fun p => p.id))) =
      l'.flatMap (fun n => n.id :: (n.inputs.map (fun p => p.id) ++ n.outputs.map (fun p => p.id))) := by
    intro l l' hfa
    induction hfa with
    | nil => rfl
    | @cons a b as bs hR hrest ih =>
      simp only [List.flatMap_cons, ih]
      have h1 : a.id = b.id := congrArg (fun t => t.1) hR
      have h2 : a.inputs.map (fun p => p.id) = b.inputs.map (fun p => p.id) :=
        congrArg (fun t => t.2.1) hR
      have h3 : a.outputs.map (fun p => p.id) = b.outputs.map (fun p => p.id) :=
        congrArg (fun t => t.2.2) hR
      rw [h1, h2, h3]
  exact haux g.nodes g'.nodes (forall₂_of_map_eq h)

/-- Equal id-signature lists give equal node-id lists. -/
theorem nodeIds_congr {g g' : NodeEditor} (h : g.nodes.map idSig = g'.nodes.map idSig) :
    nodeIds g = nodeIds g' := by
  unfold nodeIds
  exact map_congr_of_forall₂ (fun a b hab => congrArg (fun t => t.1) hab)
    (forall₂_of_map_eq h)

/-- Node lookup transported backwards along equal id-signature lists. -/
theorem findNodeById_idSig_some {g g' : NodeEditor}
    (h : g.nodes.map idSig = g'.nodes.map idSig) {x : Nat} {n' : Node}
    (hf : findNodeById g' x = some n') :
    ∃ n, findNodeById g x = some n ∧ idSig n = idSig n' := by
  have hfa := forall₂_of_map_eq (f := idSig) h.symm
  have hp : ∀ a b : Node, idSig a = idSig b → (a.id == x) = (b.id == x) := by
    intro a b hab
    have h1 : a.id = b.id := congrArg (fun t => t.1) hab
    rw [h1]
  obtain ⟨b, hb, hRb⟩ := find?_some_congr hp hfa hf
  exact ⟨b, hb, hRb.symm⟩

/-- Connection pin validity transported along id signatures and a connection
subset. -/
theorem connPinsOk_transfer {g g' : NodeEditor}
    (h : g.nodes.map idSig = g'.nodes.map idSig)
    (hsub : ∀ c ∈ g'.connections, c ∈ g.connections)
    (hg : connPinsOk g) : connPinsOk g' := by
  intro c hc
  have hcg := hg c (hsub c hc)
  constructor
  · intro n' hn'
    obtain ⟨n, hfind, hsh⟩ := findNodeById_idSig_some h hn'
    have hids : n.inputs.map (fun p => p.id) = n'.inputs.map (fun p => p.id) :=
      congrArg (fun t => t.2.1) hsh
    rw [← hids]
    exact hcg.1 n hfind
  · intro n' hn'
    obtain ⟨n, hfind, hsh⟩ := findNodeById_idSig_some h hn'
    have hids : n.outputs.map (fun p => p.id) = n'.outputs.map (fun p => p.id) :=
      congrArg (fun t => t.2.2) hsh
    rw [← hids]
    exact hcg.2 n hfind

/-- The whole graph invariant transported along id signatures, equal counter
and a connection subset. -/
theorem graphInv_transfer {g g' : NodeEditor}
    (h : g.nodes.map idSig = g'.nodes.map idSig)
    (hcur : g'.currentId = g.currentId)
    (hsub : ∀ c ∈ g'.connections, c ∈ g.connections)
    (hg : graphInv g) : graphInv g' := by
  obtain ⟨hnd, hb, hcb, hpins⟩ := hg
  have hall := allIds_congr h
  refine ⟨hall ▸ hnd, ?_, ?_, connPinsOk_transfer h hsub hpins⟩
  · intro x hx
    rw [hcur]
    exact hb x (hall ▸ hx)
  · intro c hc
    rw [hcur]
    exact hcb c (hsub c hc)

/-- An evaluation pass preserves the graph invariant. -/
theorem graphInv_pass (fuel : Nat) (g g' : NodeEditor) (pr : List Nat) (tr : List Ev)
    (h : processGraphFull fuel g = some (g', pr, tr)) (hg : graphInv g) : graphInv g' := by
  have hframe := processGraphFull_frame fuel g g' pr tr h
  refine graphInv_transfer (idSigs_of_shapes hframe.1.symm) hframe.2.1 ?_ hg
  intro c hc
  rw [hframe.2.2.2] at hc
  exact (List.mem_filter.mp hc).1

/-- A node's id occurs among the graph's ids. -/
theorem mem_allIds_of_node {g : NodeEditor} {n : Node} (hn : n ∈ g.nodes) :
    n.id ∈ allIds g := by
  unfold allIds
  exact List.mem_flatMap.mpr ⟨n, hn, by simp⟩

/-- With distinct node ids, looking up a member's id returns that member. -/
theorem findNodeById_of_mem {g : NodeEditor} (hnd : (nodeIds g).Nodup) {n : Node}
    (hn : n ∈ g.nodes) : findNodeById g n.id = some n := by
  have haux : ∀ l : List Node, (l.map (fun m => m.id)).Nodup → n ∈ l →
      l.find? (fun m => m.id == n.id) = some n := by
    intro l
    induction l with
    | nil => intro _ h; cases h
    | cons m ms ih =>
      intro hndl hnl
      simp only [List.map_cons, List.nodup_cons] at hndl
      rcases List.mem_cons.mp hnl with rfl | hn'
      · simp [List.find?]
      · have hne : (m.id == n.id) = false := by
          refine beq_eq_false_iff_ne.mpr (fun he => hndl.1 ?_)
          rw [he]
          exact List.mem_map.mpr ⟨n, hn', rfl⟩
        simp only [List.find?, hne]
        exact ih hndl.2 hn'
  exact haux g.nodes hnd hn

/-- A successful pin-owner search returns a member owning the pin. -/
theorem findNodeByPin_mem {g : NodeEditor} {p : Nat} {isInput : Bool} {n : Node}
    (h : findNodeByPin g p isInput = some n) :
    n ∈ g.nodes ∧ p ∈ (if isInput then n.inputs else n.outputs).map (fun q => q.id) := by
  refine ⟨List.mem_of_find?_eq_some h, ?_⟩
  have := List.find?_some h
  obtain ⟨q, hq, hqid⟩ := List.any_eq_true.mp this
  exact List.mem_map.mpr ⟨q, hq, eq_of_beq hqid⟩

/-- An id-signature-preserving update keeps the id-signature list. -/
theorem updateFirstNode_idSig (m : Nat) (f : Node → Node)
    (hf : ∀ n, idSig (f n) = idSig n) :
    ∀ l : List Node, (updateFirstNode l m f).map idSig = l.map idSig := by
  intro l
  induction l with
  | nil => rfl
  | cons n ns ih =>
    by_cases hm : (n.id == m) = true
    · simp [updateFirstNode, hm, hf n]
    · simp [updateFirstNode, hm, ih]

/-- The node ids form a sublist of all ids. -/
theorem nodeIds_sublist_allIds (g : NodeEditor) : (nodeIds g).Sublist (allIds g) := by
  unfold nodeIds allIds
  have haux : ∀ l : List Node, (l.map (fun n => n.id)).Sublist
      (l.flatMap (fun n =>
        n.id :: (n.inputs.map (fun p => p.id) ++ n.outputs.map (fun p => p.id)))) := by
    intro l
    induction l with
    | nil => exact List.Sublist.refl []
    | cons n ns ih =>
      simp only [List.map_cons, List.flatMap_cons, List.cons_append]
      exact List.Sublist.cons₂ _ (ih.trans (List.sublist_append_right _ _))
  exact haux g.nodes

/-- Pointwise transfer of a connection's pin-validity along id signatures. -/
theorem connPinsOkAt_transfer {g g' : NodeEditor}
    (h : g.nodes.map idSig = g'.nodes.map idSig) (c : Connection)
    (hin : ∀ n, findNodeById g c.inputNode = some n →
      c.inputPin ∈ n.inputs.map (fun p => p.id))
    (hout : ∀ n, findNodeById g c.outputNode = some n →
      c.outputPin ∈ n.outputs.map (fun p => p.id)) :
    (∀ n', findNodeById g' c.inputNode = some n' →
      c.inputPin ∈ n'.inputs.map (fun p => p.id)) ∧
    (∀ n', findNodeById g' c.outputNode = some n' →
      c.outputPin ∈ n'.outputs.map (fun p => p.id)) := by
  constructor
  · intro n' hn'
    obtain ⟨n, hfind, hsh⟩ := findNodeById_idSig_some h hn'
    have hids : n.inputs.map (fun p => p.id) = n'.inputs.map (fun p => p.id) :=
      congrArg (fun t => t.2.1) hsh
    rw [← hids]
    exact hin n hfind
  · intro n' hn'
    obtain ⟨n, hfind, hsh⟩ := findNodeById_idSig_some h hn'
    have hids : n.outputs.map (fun p => p.id) = n'.outputs.map (fun p => p.id) :=
      congrArg (fun t => t.2.2) hsh
    rw [← hids]
    exact hout n hfind

/-- `connect` preserves the graph invariant. -/
theorem graphInv_connect (g : NodeEditor) (sp ep : Nat) (hg : graphInv g) :
    graphInv (connect g sp ep) := by
  unfold connect
  cases hout : findNodeByPin g sp false with
  | none => exact hg
  | some outN =>
    cases hin : findNodeByPin g ep true with
    | none => exact hg
    | some inN =>
      dsimp only
      obtain ⟨hnd, hb, hcb, hpins⟩ := hg
      have houtm := findNodeByPin_mem hout
      have hinm := findNodeByPin_mem hin
      have hsig : g.nodes.map idSig =
          (markDirty (markDirty { g with connections :=
            g.connections ++ [⟨inN.id, outN.id, ep, sp⟩] } outN.id) inN.id).nodes.map idSig := by
        show g.nodes.map idSig =
          (updateFirstNode (updateFirstNode g.nodes outN.id (fun n => { n with dirty := true }))
            inN.id (fun n => { n with dirty := true })).map idSig
        rw [updateFirstNode_idSig inN.id (fun n => { n with dirty := true }) (fun q => rfl),
          updateFirstNode_idSig outN.id (fun n => { n with dirty := true }) (fun q => rfl)]
      have hall := allIds_congr hsig
      refine ⟨?_, ?_, ?_, ?_⟩
      · rw [← hall]
        exact hnd
      · intro x hx
        rw [← hall] at hx
        exact hb x hx
      · intro c hc
        rcases List.mem_append.mp hc with hold | hnew
        · exact hcb c hold
        · rw [List.mem_singleton] at hnew
          subst hnew
          exact ⟨hb inN.id (mem_allIds_of_node hinm.1),
            hb outN.id (mem_allIds_of_node houtm.1)⟩
      · intro c hc
        rcases List.mem_append.mp hc with hold | hnew
        · exact connPinsOkAt_transfer hsig c (hpins c hold).1 (hpins c hold).2
        · rw [List.mem_singleton] at hnew
          subst hnew
          have hndN : (nodeIds g).Nodup := (nodeIds_sublist_allIds g).nodup hnd
          have hfin : findNodeById g inN.id = some inN := findNodeById_of_mem hndN hinm.1
          have hfout : findNodeById g outN.id = some outN := findNodeById_of_mem hndN houtm.1
          refine connPinsOkAt_transfer hsig _ ?_ ?_
          · intro n hn
            rw [show (⟨inN.id, outN.id, ep, sp⟩ : Connection).inputNode = inN.id from rfl,
              hfin] at hn
            cases hn
            simpa using hinm.2
          · intro n hn
            rw [show (⟨inN.id, outN.id, ep, sp⟩ : Connection).outputNode = outN.id from rfl,
              hfout] at hn
            cases hn
            simpa using houtm.2

/-- Erasing the first node with a given id yields a sublist of any flatMap. -/
theorem flatMap_eraseFirstNode_sublist (f : Node → List Nat) (nid : Nat) :
    ∀ l : List Node, ((eraseFirstNode l nid).flatMap f).Sublist (l.flatMap f) := by
  intro l
  induction l with
  | nil => exact List.Sublist.refl []
  | cons n ns ih =>
    by_cases hm : (n.id == nid) = true
    · simp only [eraseFirstNode, if_pos hm, List.flatMap_cons]
      exact List.sublist_append_right _ _
    · simp only [eraseFirstNode, if_neg hm, List.flatMap_cons]
      exact List.Sublist.append_left ih _

/-- Erasing a node does not change lookups of other ids. -/
theorem eraseFirstNode_find? (x nid : Nat) (hx : x ≠ nid) :
    ∀ l : List Node,
      (eraseFirstNode l nid).find? (fun n => n.id == x) = l.find? (fun n => n.id == x) := by
  intro l
  induction l with
  | nil => rfl
  | cons n ns ih =>
    by_cases hm : (n.id == nid) = true
    · have hnx : (n.id == x) = false := by
        refine beq_eq_false_iff_ne.mpr (fun he => hx ?_)
        rw [← he, eq_of_beq hm]
      simp only [eraseFirstNode, if_pos hm, List.find?, hnx]
    · by_cases hnx : (n.id == x) = true
      · simp only [eraseFirstNode, if_neg hm, List.find?, hnx]
      · have hnx' : (n.id == x) = false := Bool.not_eq_true _ ▸ hnx
        simp only [eraseFirstNode, if_neg hm, List.find?, hnx', ih]

/-- `removeNode` preserves the graph invariant. -/
theorem graphInv_removeNode (fuel : Nat) (g : NodeEditor) (nid : Nat) (g' : NodeEditor)
    (h : removeNode fuel g nid = some g') (hg : graphInv g) : graphInv g' := by
  obtain ⟨hnd, hb, hcb, hpins⟩ := hg
  unfold removeNode at h
  set conns' := g.connections.filter (fun c => !(c.inputNode == nid || c.outputNode == nid))
    with hconns'
  have hg₁ : graphInv { g with connections := conns' } := by
    refine ⟨hnd, hb, ?_, ?_⟩
    · intro c hc
      exact hcb c (List.mem_filter.mp hc).1
    · intro c hc
      exact hpins c (List.mem_filter.mp hc).1
  dsimp only at h
  by_cases hany : ((g.nodes.any (fun n => n.id == nid)) = true)
  · rw [if_pos hany] at h
    have hg₂ : graphInv { g with connections := conns', nodes := eraseFirstNode g.nodes nid } := by
      have hsub : (allIds { g with connections := conns', nodes := eraseFirstNode g.nodes nid }).Sublist (allIds g) :=
        flatMap_eraseFirstNode_sublist _ nid g.nodes
      refine ⟨hsub.nodup hnd, ?_, ?_, ?_⟩
      · intro x hx
        exact hb x (hsub.mem hx)
      · intro c hc
        exact hcb c (List.mem_filter.mp hc).1
      · intro c hc
        have hcm := List.mem_filter.mp hc
        have hne : c.inputNode ≠ nid ∧ c.outputNode ≠ nid := by
          have h2 := hcm.2
          simp only [Bool.not_eq_true', Bool.or_eq_false_iff, beq_eq_false_iff_ne] at h2
          exact h2
        have hp := hpins c hcm.1
        constructor
        · intro n hn
          rw [show findNodeById { g with connections := conns', nodes := eraseFirstNode g.nodes nid } c.inputNode = findNodeById g c.inputNode from eraseFirstNode_find? c.inputNode nid hne.1 g.nodes] at hn
          exact hp.1 n hn
        · intro n hn
          rw [show findNodeById { g with connections := conns', nodes := eraseFirstNode g.nodes nid } c.outputNode = findNodeById g c.outputNode from eraseFirstNode_find? c.outputNode nid hne.2 g.nodes] at hn
          exact hp.2 n hn
    obtain ⟨pr, tr, hfull⟩ := processGraphSt_inv fuel _ g' h
    exact graphInv_pass fuel _ g' pr tr hfull hg₂
  · rw [if_neg hany] at h
    cases h
    exact hg₁

/-- `clearInputPin` and `clearOutputPin` keep the pin id. -/
theorem clearPin_ids (pid : Nat) (p : Pin) :
    (clearInputPin pid p).id = p.id ∧ (clearOutputPin pid p).id = p.id := by
  unfold clearInputPin clearOutputPin
  constructor <;> split <;> rfl

/-- The clearing stage keeps every node's id signature. -/
theorem clearConnPins_idSig (g : NodeEditor) (c : Connection) :
    (clearConnPins g c).nodes.map idSig = g.nodes.map idSig := by
  have hfIn : ∀ n : Node, idSig { n with inputs := n.inputs.map (clearInputPin c.inputPin) } =
      idSig n := by
    intro n
    unfold idSig
    simp only [List.map_map]
    have h1 : List.map ((fun p => p.id) ∘ clearInputPin c.inputPin) n.inputs =
        List.map (fun p => p.id) n.inputs :=
      List.map_congr_left (fun p _ => (clearPin_ids c.inputPin p).1)
    rw [h1]
  have hfOut : ∀ n : Node, idSig { n with outputs := n.outputs.map (clearOutputPin c.outputPin) } =
      idSig n := by
    intro n
    unfold idSig
    simp only [List.map_map]
    have h1 : List.map ((fun p => p.id) ∘ clearOutputPin c.outputPin) n.outputs =
        List.map (fun p => p.id) n.outputs :=
      List.map_congr_left (fun p _ => (clearPin_ids c.outputPin p).2)
    rw [h1]
  have h1 : (clearInStage g c).nodes.map idSig = g.nodes.map idSig := by
    unfold clearInStage
    cases findNodeById g c.inputNode with
    | none => rfl
    | some _ =>
      dsimp only
      exact updateFirstNode_idSig c.inputNode _ hfIn g.nodes
  show (clearOutStage (clearInStage g c) c).nodes.map idSig = g.nodes.map idSig
  unfold clearOutStage
  cases findNodeById (clearInStage g c) c.outputNode with
  | none => exact h1
  | some _ =>
    dsimp only
    exact (updateFirstNode_idSig c.outputNode _ hfOut (clearInStage g c).nodes).trans h1

/-- `deleteConnection` preserves the graph invariant. -/
theorem graphInv_deleteConnection (fuel : Nat) (g : NodeEditor) (i : Int) (g' : NodeEditor)
    (h : deleteConnection fuel g i = some g') (hg : graphInv g) : graphInv g' := by
  by_cases hoor : (i < 0 ∨ (g.connections.length : Int) ≤ i)
  · rw [deleteConnection_oor fuel g i hoor] at h
    cases h
    exact hg
  · cases hc : g.connections.get? i.toNat with
    | none =>
      rw [List.get?_eq_none] at hc
      exact absurd hc (by omega)
    | some c =>
      rw [deleteConnection_ir fuel g i c hoor hc] at h
      obtain ⟨pr, tr, hfull⟩ := processGraphSt_inv fuel _ g' h
      have hG₃ : graphInv { clearConnPins g c with
          connections := (clearConnPins g c).connections.eraseIdx i.toNat } := by
        refine graphInv_transfer (clearConnPins_idSig g c).symm
          (clearConnPins_frame g c).2.1 ?_ hg
        intro c' hc'
        have h1 : c' ∈ (clearConnPins g c).connections :=
          (List.eraseIdx_sublist _ i.toNat).mem hc'
        rw [(clearConnPins_frame g c).1] at h1
        exact h1
      exact graphInv_pass fuel _ g' pr tr hfull hG₃

/-- Every operation sequence from an invariant state keeps the invariant. -/
theorem graphInv_runOps (fuel : Nat) :
    ∀ (ops : List Op) (g g' : NodeEditor),
      runOps fuel g ops = some g' → graphInv g → graphInv g' := by
  intro ops
  induction ops with
  | nil =>
    intro g g' h hg
    cases h
    exact hg
  | cons op rest ih =>
    intro g g' h hg
    cases hop : applyOp fuel g op with
    | none => unfold runOps at h; rw [hop] at h; cases h
    | some g₁ =>
      unfold runOps at h
      rw [hop] at h
      refine ih g₁ g' h ?_
      cases op with
      | add t =>
        have : g₁ = addNode g t := by injection hop.symm
        rw [this]
        exact graphInv_addNode g t hg
      | remove nid => exact graphInv_removeNode fuel g nid g₁ hop hg
      | link s e =>
        have : g₁ = connect g s e := by injection hop.symm
        rw [this]
        exact graphInv_connect g s e hg
      | unlink i => exact graphInv_deleteConnection fuel g i g₁ hop hg


/-- C3: after any sequence of add/remove/connect/disconnect operations from
the initial empty editor, followed by one evaluation pass, every connection
remaining in the connections list refers to an `inputNode` id and an
`outputNode` id of nodes currently present in the graph, its `inputPin` id
belongs to the input node's input-pin ids, and its `outputPin` id belongs to
the output node's output-pin ids. -/
theorem c3_connection_validity (fuel fuelP : Nat) (ops : List Op) (g gP : NodeEditor)
    (pr : List Nat) (tr : List Ev)
    (hops : runOps fuel emptyEditor ops = some g)
    (hpass : processGraphFull fuelP g = some (gP, pr, tr)) :
    ∀ c ∈ gP.connections,
      (∃ n ∈ gP.nodes, n.id = c.inputNode ∧ c.inputPin ∈ n.inputs.map (fun p => p.id)) ∧
      (∃ m ∈ gP.nodes, m.id = c.outputNode ∧ c.outputPin ∈ m.outputs.map (fun p => p.id)) := by
  have hg : graphInv g := graphInv_runOps fuel ops emptyEditor g hops graphInv_empty
  have hgP : graphInv gP := graphInv_pass fuelP g gP pr tr hpass hg
  obtain ⟨hshape, _, _, hconns⟩ := processGraphFull_frame fuelP g gP pr tr hpass
  intro c hc
  have hcf : c ∈ g.connections.filter (fun c => isConnectionValid g c) := hconns ▸ hc
  have hcv : isConnectionValid g c = true := (List.mem_filter.mp hcf).2
  unfold isConnectionValid at hcv
  obtain ⟨h1, h2⟩ := (Bool.and_eq_true _ _).mp hcv
  obtain ⟨nIn, hnIn⟩ := Option.isSome_iff_exists.mp h1
  obtain ⟨nOut, hnOut⟩ := Option.isSome_iff_exists.mp h2
  obtain ⟨n, hnf, _⟩ := findNodeById_shape_some hshape hnIn
  obtain ⟨m, hmf, _⟩ := findNodeById_shape_some hshape hnOut
  have hcp := hgP.2.2.2 c hc
  exact ⟨⟨n, (findNodeById_mem hnf).1, (findNodeById_mem hnf).2, hcp.1 n hnf⟩,
         ⟨m, (findNodeById_mem hmf).1, (findNodeById_mem hmf).2, hcp.2 m hmf⟩⟩

theorem c3_connection_validity_witness :
    runOps 3 emptyEditor c3ops = some c3g ∧
    processGraphFull 3 c3g = some (c3g, [2, 0], [Ev.procEv 0 [], Ev.procEv 2 [[]]]) ∧
    ((∃ n ∈ c3g.nodes,
        n.id = (Connection.mk 2 0 3 1).inputNode ∧
        (Connection.mk 2 0 3 1).inputPin ∈ n.inputs.map (fun p => p.id)) ∧
     (∃ m ∈ c3g.nodes,
        m.id = (Connection.mk 2 0 3 1).outputNode ∧
        (Connection.mk 2 0 3 1).outputPin ∈ m.outputs.map (fun p => p.id))) :=
  ⟨rfl, rfl,
   c3_connection_validity 3 3 c3ops c3g c3g [2, 0] [Ev.procEv 0 [], Ev.procEv 2 [[]]]
     rfl rfl ⟨2, 0, 3, 1⟩ (by simp [c3g])⟩

/-- Re-merging the same produced buffers is the identity. -/
theorem mergeBufs_idem : ∀ (ds bs : List Buf), mergeBufs (mergeBufs ds bs) bs = mergeBufs ds bs := by
  intro ds
  induction ds with
  | nil => intro bs; cases bs <;> rfl
  | cons d ds ih =>
    intro bs
    cases bs with
    | nil => rfl
    | cons b bs => simp [mergeBufs, ih bs]

/-- `setOutData` acts as `mergeBufs` on the buffer contents. -/
theorem setOutData_data : ∀ (ps : List Pin) (bs : List Buf),
    (setOutData ps bs).map (fun p => p.data) = mergeBufs (ps.map (fun p => p.data)) bs := by
  intro ps
  induction ps with
  | nil => intro bs; cases bs <;> rfl
  | cons p ps ih =>
    intro bs
    cases bs with
    | nil => rfl
    | cons b bs => simp [setOutData, mergeBufs, ih bs]

/-- When the merge would reproduce the current buffers, `setOutData` is the
identity on the pin list. -/
theorem setOutData_eq_self : ∀ (ps : List Pin) (bs : List Buf),
    mergeBufs (ps.map (fun p => p.data)) bs = ps.map (fun p => p.data) → setOutData ps bs = ps := by
  intro ps
  induction ps with
  | nil => intro bs _; cases bs <;> rfl
  | cons p ps ih =>
    intro bs h
    cases bs with
    | nil => rfl
    | cons b bs =>
      simp only [List.map_cons, mergeBufs, List.cons.injEq] at h
      have hp : ({ p with data := b } : Pin) = p := by
        cases p
        simp_all
      simp only [setOutData, hp, ih bs h.2]

/-- Buffer at an index after a positional pin write. -/
theorem pinDataAt_setPinData : ∀ (ps : List Pin) (ii : Nat), ii < ps.length → ∀ (v : Buf) (jj : Nat),
    pinDataAt (setPinData ps ii v) jj = if jj = ii then v else pinDataAt ps jj := by
  intro ps
  induction ps with
  | nil => intro ii h; cases h
  | cons p ps ih =>
    intro ii hlt v jj
    cases ii with
    | zero =>
      cases jj with
      | zero => simp [setPinData, pinDataAt]
      | succ j => simp [setPinData, pinDataAt]
    | succ i =>
      cases jj with
      | zero => simp [setPinData, pinDataAt]
      | succ j =>
        have hlt' : i < ps.length := Nat.lt_of_succ_lt_succ hlt
        have hji : (j + 1 = i + 1) = (j = i) := by simp
        simp only [setPinData, pinDataAt, List.get?_cons_succ, hji] at *
        exact ih i hlt' v j

/-- A successful pin-index search is within bounds. -/
theorem findPinIndex_lt {ps : List Pin} {x i : Nat} (h : findPinIndex ps x = some i) :
    i < ps.length := by
  obtain ⟨p, hp, _⟩ := findPinIndex_spec ps x i h
  exact (List.get?_eq_some.mp hp).1

/-- Pin-index search only depends on the pin ids. -/
theorem findPinIndex_ids : ∀ (ps qs : List Pin),
    ps.map (fun p => p.id) = qs.map (fun p => p.id) → ∀ x, findPinIndex ps x = findPinIndex qs x := by
  intro ps
  induction ps with
  | nil =>
    intro qs h x
    cases qs with
    | nil => rfl
    | cons q qs => cases h
  | cons p ps ih =>
    intro qs h x
    cases qs with
    | nil => cases h
    | cons q qs =>
      simp only [List.map_cons, List.cons.injEq] at h
      simp only [findPinIndex, h.1, ih qs h.2 x]

/-- `updateFirstNode` is the identity when the function fixes the first
matching node. -/
theorem updateFirstNode_eq_self (nid : Nat) (f : Node → Node) :
    ∀ l : List Node, (∀ n, l.find? (fun m => m.id == nid) = some n → f n = n) →
      updateFirstNode l nid f = l := by
  intro l
  induction l with
  | nil => intro _; rfl
  | cons n ns ih =>
    intro h
    by_cases hn : (n.id == nid) = true
    · have : f n = n := h n (by simp [List.find?, hn])
      simp [updateFirstNode, hn, this]
    · have hn' : (n.id == nid) = false := by simpa using hn
      simp only [updateFirstNode, hn', Bool.false_eq_true, if_false]
      rw [ih]
      intro m hm
      refine h m ?_
      simp only [List.find?, hn', hm]

/-- Two updates of the first node with the same id compose. -/
theorem updateFirstNode_comp (nid : Nat) (f₁ f₂ : Node → Node) (hf : ∀ n, (f₁ n).id = n.id) :
    ∀ l : List Node,
      updateFirstNode (updateFirstNode l nid f₁) nid f₂ = updateFirstNode l nid (fun n => f₂ (f₁ n)) := by
  intro l
  induction l with
  | nil => rfl
  | cons n ns ih =>
    by_cases hn : (n.id == nid) = true
    · have h1 : ((f₁ n).id == nid) = true := by rw [hf n]; exact hn
      simp [updateFirstNode, hn, h1]
    · have hn' : (n.id == nid) = false := by simpa using hn
      simp [updateFirstNode, hn', ih]

/-- `updateFirstNode` only evaluates its function at the first match. -/
theorem updateFirstNode_congr_first (nid : Nat) (f₁ f₂ : Node → Node) :
    ∀ l : List Node, (∀ n, l.find? (fun m => m.id == nid) = some n → f₁ n = f₂ n) →
      updateFirstNode l nid f₁ = updateFirstNode l nid f₂ := by
  intro l
  induction l with
  | nil => intro _; rfl
  | cons n ns ih =>
    intro h
    by_cases hn : (n.id == nid) = true
    · have : f₁ n = f₂ n := h n (by simp [List.find?, hn])
      simp [updateFirstNode, hn, this]
    · have hn' : (n.id == nid) = false := by simpa using hn
      simp only [updateFirstNode, hn', Bool.false_eq_true, if_false]
      rw [ih]
      intro m hm
      refine h m ?_
      simp only [List.find?, hn', hm]

/-- Pin lists with the same structure and the same buffer at every index are
equal. -/
theorem pinList_ext : ∀ (ps qs : List Pin),
    ps.map pinShape = qs.map pinShape → (∀ jj, pinDataAt ps jj = pinDataAt qs jj) → ps = qs := by
  intro ps
  induction ps with
  | nil =>
    intro qs h _
    cases qs with
    | nil => rfl
    | cons q qs => cases h
  | cons p ps ih =>
    intro qs h hd
    cases qs with
    | nil => cases h
    | cons q qs =>
      simp only [List.map_cons, List.cons.injEq] at h
      have hpq : p = q := by
        have hd0 := hd 0
        simp only [pinDataAt, List.get?_cons_zero] at hd0
        have := pinShape_inj h.1
        cases p; cases q
        simp only [pinShape, Prod.mk.injEq] at h
        simp_all
      rw [hpq, ih qs h.2 (fun jj => by have := hd (jj + 1); simpa [pinDataAt] using this)]

/-- Default-carrying last element of a prepended list. -/
theorem getLastD_cons (a d : Buf) (l : List Buf) :
    ((a :: l).getLast?).getD d = (l.getLast?).getD a := by
  cases l with
  | nil => rfl
  | cons b bs => rw [List.getLast?_cons_cons]; cases hbl : (b :: bs).getLast? with
    | none => simp [List.getLast?] at hbl
    | some x => rfl

/-- Lookup of the rewritten node after an input-pin overwrite. -/
theorem findNodeById_setNodeInputs_self (h : NodeEditor) (nid : Nat) (ps : List Pin)
    {m : Node} (hm : findNodeById h nid = some m) :
    findNodeById (setNodeInputs h nid ps) nid = some { m with inputs := ps } := by
  unfold setNodeInputs
  rw [findNodeById_updateNodeFirst h nid nid (fun n => { n with inputs := ps }) (fun n => rfl)]
  rw [if_pos rfl, hm]
  rfl

/-- Lookup of any other node after an input-pin overwrite. -/
theorem findNodeById_setNodeInputs_other (h : NodeEditor) (nid : Nat) (ps : List Pin)
    {x : Nat} (hx : x ≠ nid) :
    findNodeById (setNodeInputs h nid ps) x = findNodeById h x := by
  unfold setNodeInputs
  rw [findNodeById_updateNodeFirst h nid x (fun n => { n with inputs := ps }) (fun n => rfl)]
  rw [if_neg hx]

/-- Overwriting the input pins with their current value is the identity. -/
theorem setNodeInputs_self (h : NodeEditor) (nid : Nat) {m : Node}
    (hm : findNodeById h nid = some m) :
    setNodeInputs h nid m.inputs = h := by
  unfold setNodeInputs updateNodeFirst
  have : updateFirstNode h.nodes nid (fun n => { n with inputs := m.inputs }) = h.nodes := by
    refine updateFirstNode_eq_self nid _ h.nodes ?_
    intro n hn
    have : n = m := by
      have := hm
      unfold findNodeById at this
      rw [hn] at this
      injection this
    rw [this]
  rw [this]

/-- Consecutive input-pin overwrites of the same node collapse. -/
theorem setNodeInputs_setNodeInputs (h : NodeEditor) (nid : Nat) (ps qs : List Pin) :
    setNodeInputs (setNodeInputs h nid ps) nid qs = setNodeInputs h nid qs := by
  unfold setNodeInputs updateNodeFirst
  have := updateFirstNode_comp nid (fun n => { n with inputs := ps })
    (fun n => { n with inputs := qs }) (fun n => rfl) h.nodes
  simp only at this ⊢
  rw [this]

/-- The resolved, non-empty case of the copy step. -/
theorem copyConn_resolved (g : NodeEditor) (c : Connection) (nid : Nat) (tr : List Ev)
    {u n : Node} (hu : findNodeById g c.outputNode = some u) (hn : findNodeById g nid = some n)
    {oi ii : Nat} (hoi : findPinIndex u.outputs c.outputPin = some oi)
    (hii : findPinIndex n.inputs c.inputPin = some ii) (hne : pinDataAt u.outputs oi ≠ []) :
    copyConn g c nid tr =
      (updateNodeFirst g nid
        (fun m => { m with inputs := setPinData m.inputs ii (pinDataAt u.outputs oi) }),
       tr ++ [Ev.copyEv c.outputNode oi nid ii (pinDataAt u.outputs oi)]) := by
  unfold copyConn
  rw [hu, hn]
  dsimp only
  rw [hoi, hii]
  dsimp only
  rw [if_neg hne]

/-- The copy step skips a connection whose upstream node is missing. -/
theorem copyConn_no_upstream (g : NodeEditor) (c : Connection) (nid : Nat) (tr : List Ev)
    (hu : findNodeById g c.outputNode = none) : copyConn g c nid tr = (g, tr) := by
  unfold copyConn
  rw [hu]

/-- The copy step skips a connection whose downstream node is missing. -/
theorem copyConn_no_down (g : NodeEditor) (c : Connection) (nid : Nat) (tr : List Ev)
    (hn : findNodeById g nid = none) : copyConn g c nid tr = (g, tr) := by
  unfold copyConn
  cases findNodeById g c.outputNode with
  | none => rfl
  | some u => rw [hn]

/-- The copy step skips a connection whose output pin does not resolve. -/
theorem copyConn_no_oi (g : NodeEditor) (c : Connection) (nid : Nat) (tr : List Ev)
    {u n : Node} (hu : findNodeById g c.outputNode = some u) (hn : findNodeById g nid = some n)
    (hoi : findPinIndex u.outputs c.outputPin = none) : copyConn g c nid tr = (g, tr) := by
  unfold copyConn
  rw [hu, hn]
  dsimp only
  rw [hoi]

/-- The copy step skips a connection whose input pin does not resolve. -/
theorem copyConn_no_ii (g : NodeEditor) (c : Connection) (nid : Nat) (tr : List Ev)
    {u n : Node} (hu : findNodeById g c.outputNode = some u) (hn : findNodeById g nid = some n)
    {oi : Nat} (hoi : findPinIndex u.outputs c.outputPin = some oi)
    (hii : findPinIndex n.inputs c.inputPin = none) : copyConn g c nid tr = (g, tr) := by
  unfold copyConn
  rw [hu, hn]
  dsimp only
  rw [hoi, hii]

/-- The copy step skips a connection whose upstream buffer is empty. -/
theorem copyConn_empty (g : NodeEditor) (c : Connection) (nid : Nat) (tr : List Ev)
    {u n : Node} (hu : findNodeById g c.outputNode = some u) (hn : findNodeById g nid = some n)
    {oi ii : Nat} (hoi : findPinIndex u.outputs c.outputPin = some oi)
    (hii : findPinIndex n.inputs c.inputPin = some ii) (hne : pinDataAt u.outputs oi = []) :
    copyConn g c nid tr = (g, tr) := by
  unfold copyConn
  rw [hu, hn]
  dsimp only
  rw [hoi, hii]
  dsimp only
  rw [if_pos hne]

/-- The dependency loop feeds nothing from a connection into another node. -/
theorem feedVals_cons_skip (g : NodeEditor) (uid ii : Nat) (c : Connection) (L : List Connection)
    (h : (c.inputNode == uid) = false) :
    feedVals g uid ii (c :: L) = feedVals g uid ii L := by
  unfold feedVals
  rw [List.filterMap_cons, h]
  rfl

/-- No feed from a connection whose upstream node is missing. -/
theorem feedVals_cons_noup (g : NodeEditor) (uid ii : Nat) (c : Connection) (L : List Connection)
    (hup : findNodeById g c.outputNode = none) :
    feedVals g uid ii (c :: L) = feedVals g uid ii L := by
  unfold feedVals
  rw [List.filterMap_cons]
  by_cases hc : (c.inputNode == uid) = true
  · rw [hc, hup]
    cases findNodeById g uid <;> simp
  · have hc' : (c.inputNode == uid) = false := by simpa using hc
    rw [hc']
    rfl

/-- No feed when the downstream node is missing. -/
theorem feedVals_cons_nodown (g : NodeEditor) (uid ii : Nat) (c : Connection) (L : List Connection)
    (hdn : findNodeById g uid = none) :
    feedVals g uid ii (c :: L) = feedVals g uid ii L := by
  unfold feedVals
  rw [List.filterMap_cons]
  by_cases hc : (c.inputNode == uid) = true
  · rw [hc, hdn]
    cases findNodeById g c.outputNode <;> simp
  · have hc' : (c.inputNode == uid) = false := by simpa using hc
    rw [hc']
    rfl

/-- No feed when the upstream pin does not resolve. -/
theorem feedVals_cons_no_oi (g : NodeEditor) (uid ii : Nat) (c : Connection) (L : List Connection)
    {u n : Node} (hu : findNodeById g c.outputNode = some u) (hn : findNodeById g uid = some n)
    (hoi : findPinIndex u.outputs c.outputPin = none) :
    feedVals g uid ii (c :: L) = feedVals g uid ii L := by
  unfold feedVals
  rw [List.filterMap_cons]
  by_cases hc : (c.inputNode == uid) = true
  · rw [hc, hu, hn]
    dsimp only
    rw [hoi]
    rfl
  · have hc' : (c.inputNode == uid) = false := by simpa using hc
    rw [hc']
    rfl

/-- No feed when the downstream pin does not resolve. -/
theorem feedVals_cons_no_ii (g : NodeEditor) (uid ii : Nat) (c : Connection) (L : List Connection)
    {u n : Node} (hu : findNodeById g c.outputNode = some u) (hn : findNodeById g uid = some n)
    {oi : Nat} (hoi : findPinIndex u.outputs c.outputPin = some oi)
    (hii : findPinIndex n.inputs c.inputPin = none) :
    feedVals g uid ii (c :: L) = feedVals g uid ii L := by
  unfold feedVals
  rw [List.filterMap_cons]
  by_cases hc : (c.inputNode == uid) = true
  · rw [hc, hu, hn]
    dsimp only
    rw [hoi, hii]
    rfl
  · have hc' : (c.inputNode == uid) = false := by simpa using hc
    rw [hc']
    rfl

/-- The fully resolved head case of the feed list. -/
theorem feedVals_cons_hit (g : NodeEditor) (uid ii : Nat) (c : Connection) (L : List Connection)
    {u n : Node} (hc : (c.inputNode == uid) = true)
    (hu : findNodeById g c.outputNode = some u) (hn : findNodeById g uid = some n)
    {oi j : Nat} (hoi : findPinIndex u.outputs c.outputPin = some oi)
    (hii : findPinIndex n.inputs c.inputPin = some j) :
    feedVals g uid ii (c :: L) =
      if j = ii ∧ pinDataAt u.outputs oi ≠ [] then
        pinDataAt u.outputs oi :: feedVals g uid ii L
      else feedVals g uid ii L := by
  unfold feedVals
  rw [List.filterMap_cons, if_pos hc, hu, hn]
  dsimp only
  rw [hoi, hii]
  dsimp only
  by_cases hcond : j = ii ∧ pinDataAt u.outputs oi ≠ []
  · rw [if_pos hcond]
    dsimp only
    rw [if_pos hcond]
  · rw [if_neg hcond]
    dsimp only
    rw [if_neg hcond]

/-- The feed list only reads upstream output buffers and the downstream input
pins: it is unchanged by any state change preserving those. -/
theorem feedVals_ext (g g' : NodeEditor) (uid jj : Nat) :
    ∀ L : List Connection,
      (∀ c ∈ L, (c.inputNode == uid) = true →
        Option.map (fun n => n.outputs) (findNodeById g' c.outputNode) =
          Option.map (fun n => n.outputs) (findNodeById g c.outputNode)) →
      Option.map (fun n => n.inputs) (findNodeById g' uid) =
        Option.map (fun n => n.inputs) (findNodeById g uid) →
      feedVals g' uid jj L = feedVals g uid jj L := by
  intro L
  induction L with
  | nil => intro _ _; rfl
  | cons c L ih =>
    intro hup hdn
    have hrest := ih (fun c' hc' => hup c' (List.mem_cons_of_mem c hc')) hdn
    by_cases hc : (c.inputNode == uid) = true
    · have hu := hup c (List.mem_cons_self c L) hc
      cases hu0 : findNodeById g c.outputNode with
      | none =>
        rw [hu0] at hu
        simp only [Option.map_none'] at hu
        have hu0' : findNodeById g' c.outputNode = none := Option.map_eq_none'.mp hu
        rw [feedVals_cons_noup g uid jj c L hu0, feedVals_cons_noup g' uid jj c L hu0', hrest]
      | some u =>
        rw [hu0] at hu
        simp only [Option.map_some'] at hu
        obtain ⟨u', hu0', huo⟩ := Option.map_eq_some'.mp hu
        cases hn0 : findNodeById g uid with
        | none =>
          rw [hn0] at hdn
          simp only [Option.map_none'] at hdn
          have hn0' : findNodeById g' uid = none := Option.map_eq_none'.mp hdn
          rw [feedVals_cons_nodown g uid jj c L hn0, feedVals_cons_nodown g' uid jj c L hn0', hrest]
        | some n =>
          rw [hn0] at hdn
          simp only [Option.map_some'] at hdn
          obtain ⟨n', hn0', hni⟩ := Option.map_eq_some'.mp hdn
          cases hoi : findPinIndex u.outputs c.outputPin with
          | none =>
            have hoi' : findPinIndex u'.outputs c.outputPin = none := by rw [huo, hoi]
            rw [feedVals_cons_no_oi g uid jj c L hu0 hn0 hoi,
              feedVals_cons_no_oi g' uid jj c L hu0' hn0' hoi', hrest]
          | some oi =>
            have hoi' : findPinIndex u'.outputs c.outputPin = some oi := by rw [huo, hoi]
            cases hii : findPinIndex n.inputs c.inputPin with
            | none =>
              have hii' : findPinIndex n'.inputs c.inputPin = none := by rw [hni, hii]
              rw [feedVals_cons_no_ii g uid jj c L hu0 hn0 hoi hii,
                feedVals_cons_no_ii g' uid jj c L hu0' hn0' hoi' hii', hrest]
            | some j =>
              have hii' : findPinIndex n'.inputs c.inputPin = some j := by rw [hni, hii]
              rw [feedVals_cons_hit g uid jj c L hc hu0 hn0 hoi hii,
                feedVals_cons_hit g' uid jj c L hc hu0' hn0' hoi' hii', huo, hrest]
    · have hc' : (c.inputNode == uid) = false := by simpa using hc
      rw [feedVals_cons_skip g uid jj c L hc', feedVals_cons_skip g' uid jj c L hc', hrest]

/-- Process-event ids of a concatenated trace. -/
theorem procIds_append (tr e : List Ev) : procIds (tr ++ e) = procIds tr ++ procIds e :=
  List.filterMap_append tr e _

/-- A copy event contributes no process-event id. -/
theorem procIds_copy (a oi b ii : Nat) (v : Buf) :
    procIds [Ev.copyEv a oi b ii v] = [] := rfl

/-- A process event contributes its node id. -/
theorem procIds_proc (x : Nat) (ins : List Buf) : procIds [Ev.procEv x ins] = [x] := rfl

/-- Every recorded process-event id occurs at some trace position. -/
theorem mem_procIds_get {tr : List Ev} {x : Nat} (h : x ∈ procIds tr) :
    ∃ k ins, tr.get? k = some (Ev.procEv x ins) := by
  obtain ⟨e, he, hsome⟩ := List.mem_filterMap.mp h
  obtain ⟨k, hk⟩ := List.get?_of_mem he
  cases e with
  | procEv n ins =>
    have hnx : some n = some x := hsome
    have : n = x := by injection hnx
    exact ⟨k, ins, by rw [hk, this]⟩
  | copyEv a oi b ii v =>
    exact absurd (hsome : (none : Option Nat) = some x) (by simp)

/-- A node id outside the process-event ids has process count zero. -/
theorem procCount_zero : ∀ (tr : List Ev) (x : Nat), x ∉ procIds tr → procCount tr x = 0 := by
  intro tr x
  induction tr with
  | nil => intro _; rfl
  | cons e tr ih =>
    intro hx
    cases e with
    | procEv n ins =>
      have hids : procIds (Ev.procEv n ins :: tr) = n :: procIds tr := rfl
      rw [hids] at hx
      have hn : (n == x) = false :=
        beq_eq_false_iff_ne.mpr (fun h => hx (h ▸ List.mem_cons_self n (procIds tr)))
      have hrest : x ∉ procIds tr := fun h => hx (List.mem_cons_of_mem n h)
      show (List.filter (isProcOf x) (Ev.procEv n ins :: tr)).length = 0
      simp only [List.filter, isProcOf, hn]
      exact ih hrest
    | copyEv a oi b ii v =>
      have hids : procIds (Ev.copyEv a oi b ii v :: tr) = procIds tr := rfl
      rw [hids] at hx
      show (List.filter (isProcOf x) (Ev.copyEv a oi b ii v :: tr)).length = 0
      simp only [List.filter, isProcOf]
      exact ih hx

/-- A node id occurring without repetition among the process-event ids has
process count one. -/
theorem procCount_one : ∀ (tr : List Ev) (x : Nat),
    (procIds tr).Nodup → x ∈ procIds tr → procCount tr x = 1 := by
  intro tr x
  induction tr with
  | nil => intro _ hx; cases hx
  | cons e tr ih =>
    intro hnd hx
    cases e with
    | procEv n ins =>
      have hids : procIds (Ev.procEv n ins :: tr) = n :: procIds tr := rfl
      rw [hids] at hnd hx
      by_cases hn : (n == x) = true
      · have hnx : n = x := eq_of_beq hn
        have hxnot : x ∉ procIds tr := hnx ▸ (List.nodup_cons.mp hnd).1
        show (List.filter (isProcOf x) (Ev.procEv n ins :: tr)).length = 1
        simp only [List.filter, isProcOf, hn, List.length_cons]
        have h0 : (List.filter (isProcOf x) tr).length = 0 := procCount_zero tr x hxnot
        omega
      · have hn' : (n == x) = false := by simpa using hn
        have hxr : x ∈ procIds tr := by
          cases List.mem_cons.mp hx with
          | inl h => exact absurd (by rw [h]; exact beq_self_eq_true n : (n == x) = true) (by simp [hn'])
          | inr h => exact h
        show (List.filter (isProcOf x) (Ev.procEv n ins :: tr)).length = 1
        simp only [List.filter, isProcOf, hn']
        exact ih (List.nodup_cons.mp hnd).2 hxr
    | copyEv a oi b ii v =>
      have hids : procIds (Ev.copyEv a oi b ii v :: tr) = procIds tr := rfl
      rw [hids] at hnd hx
      show (List.filter (isProcOf x) (Ev.copyEv a oi b ii v :: tr)).length = 1
      simp only [List.filter, isProcOf]
      exact ih hnd hx

/-- Replay agreement is reflexive. -/
theorem agreeBelow_refl (rank : Nat → Nat) (R : Nat) (g : NodeEditor) : agreeBelow rank R g g :=
  ⟨rfl, rfl, rfl, List.forall₂_same.mpr (fun n _ => ⟨rfl, rfl, fun _ => rfl⟩)⟩

/-- Replay agreement weakens as the rank bound drops. -/
theorem agreeBelow_mono (rank : Nat → Nat) {R' R : Nat} (hR : R' ≤ R) {g h : NodeEditor}
    (hag : agreeBelow rank R g h) : agreeBelow rank R' g h := by
  refine ⟨hag.1, hag.2.1, hag.2.2.1, ?_⟩
  refine List.Forall₂.imp ?_ hag.2.2.2
  intro n m hr
  exact ⟨hr.1, hr.2.1, fun hle => hr.2.2 (le_trans hle hR)⟩

/-- The id-lookup predicate respects the per-node agreement relation. -/
theorem nodeAgreeBelow_pred (rank : Nat → Nat) (R : Nat) (x : Nat) :
    ∀ a b : Node, nodeAgreeBelow rank R a b → (a.id == x) = (b.id == x) := by
  intro a b hab
  rw [(nodeShape_inj hab.1).1]

/-- Lookup in the replay state of a node found in the reference state. -/
theorem agreeBelow_find_some (rank : Nat → Nat) {R : Nat} {g h : NodeEditor}
    (hag : agreeBelow rank R g h) {x : Nat} {n : Node} (hn : findNodeById g x = some n) :
    ∃ m, findNodeById h x = some m ∧ nodeAgreeBelow rank R n m :=
  find?_some_congr (nodeAgreeBelow_pred rank R x) hag.2.2.2 hn

/-- A node missing in the reference state is missing in the replay state. -/
theorem agreeBelow_find_none (rank : Nat → Nat) {R : Nat} {g h : NodeEditor}
    (hag : agreeBelow rank R g h) {x : Nat} (hn : findNodeById g x = none) :
    findNodeById h x = none :=
  find?_none_congr (nodeAgreeBelow_pred rank R x) hag.2.2.2 hn

/-- Below the rank bound, lookup in the replay state returns the reference
node itself. -/
theorem agreeBelow_find_eq (rank : Nat → Nat) {R : Nat} {g h : NodeEditor}
    (hag : agreeBelow rank R g h) {x : Nat} {n : Node} (hn : findNodeById g x = some n)
    (hr : rank n.id ≤ R) : findNodeById h x = some n := by
  obtain ⟨m, hm, hrel⟩ := agreeBelow_find_some rank hag hn
  rw [hm, hrel.2.2 hr]

/-- List-level form: rewriting the input pins of the first node with the
given id (shape-preservingly) keeps replay agreement at any strictly lower
rank bound. -/
theorem forall₂_updateFirst_inputs (rank : Nat → Nat) {R R' : Nat} (nid : Nat) (ps : List Pin)
    (hR'R : R' ≤ R) (hR' : R' < rank nid) :
    ∀ (gs hs : List Node), List.Forall₂ (nodeAgreeBelow rank R) gs hs →
      ∀ gN : Node, gs.find? (fun m => m.id == nid) = some gN →
        ps.map pinShape = gN.inputs.map pinShape →
        List.Forall₂ (nodeAgreeBelow rank R') gs
          (updateFirstNode hs nid (fun n => { n with inputs := ps })) := by
  intro gs hs hrel
  induction hrel with
  | nil => intro gN hfind _; cases hfind
  | @cons n m ns ms hnm hrest ih =>
    intro gN hfind hps
    have hid : m.id = n.id := (nodeShape_inj hnm.1).1
    by_cases hm : (m.id == nid) = true
    · have hn : (n.id == nid) = true := by rw [← hid]; exact hm
      have hgN : gN = n := by
        simp only [List.find?, hn, Option.some.injEq] at hfind
        exact hfind.symm
      have hrnid : rank n.id = rank nid := by rw [eq_of_beq hn]
      simp only [updateFirstNode, hm, if_pos]
      refine List.Forall₂.cons ?_ (List.Forall₂.imp
        (fun a b hab => ⟨hab.1, hab.2.1, fun hle => hab.2.2 (le_trans hle hR'R)⟩) hrest)
      refine ⟨?_, hnm.2.1, ?_⟩
      · show nodeShape { m with inputs := ps } = nodeShape n
        have h1 : nodeShape { m with inputs := ps } =
            (m.id, m.name, m.dirty, ps.map pinShape, m.outputs.map pinShape, m.procFn) := rfl
        have h2 : ps.map pinShape = m.inputs.map pinShape := by
          rw [hps, hgN]
          exact ((nodeShape_inj hnm.1).2.2.2.1).symm
        rw [h1, h2]
        exact hnm.1
      · intro hle
        exact absurd (lt_of_lt_of_le hR' (hrnid ▸ hle)) (lt_irrefl _)
    · have hm' : (m.id == nid) = false := by simpa using hm
      have hn' : (n.id == nid) = false := by rw [← hid]; exact hm'
      simp only [updateFirstNode, hm', Bool.false_eq_true, if_false]
      simp only [List.find?, hn'] at hfind
      refine List.Forall₂.cons
        ⟨hnm.1, hnm.2.1, fun hle => hnm.2.2 (le_trans hle hR'R)⟩ (ih gN hfind hps)

/-- Editor-level wrapper: a shape-preserving input-pin overwrite of one node
keeps replay agreement at any strictly lower rank bound. -/
theorem agreeBelow_setNodeInputs (rank : Nat → Nat) {R R' : Nat} {g h : NodeEditor}
    (hag : agreeBelow rank R g h) (nid : Nat) {gN : Node}
    (hgN : findNodeById g nid = some gN) (ps : List Pin)
    (hps : ps.map pinShape = gN.inputs.map pinShape)
    (hR'R : R' ≤ R) (hR' : R' < rank nid) :
    agreeBelow rank R' g (setNodeInputs h nid ps) :=
  ⟨hag.1, hag.2.1, hag.2.2.1,
    forall₂_updateFirst_inputs rank nid ps hR'R hR' g.nodes h.nodes hag.2.2.2 gN hgN hps⟩

/-- The feed list of a concatenated connection list. -/
theorem feedVals_append (g : NodeEditor) (uid ii : Nat) (L₁ L₂ : List Connection) :
    feedVals g uid ii (L₁ ++ L₂) = feedVals g uid ii L₁ ++ feedVals g uid ii L₂ :=
  List.filterMap_append L₁ L₂ _

/-- Replay of the dependency loop from a settled, output-consistent reference
state: every copy rewrites the value already present, so the loop maps a
state that equals the reference up to the processed node's input pins to the
same kind of state, with the pins holding the accumulated feeds. -/
theorem replayDeps (rank : Nat → Nat) (g : NodeEditor)
    (hacyc : ∀ c ∈ g.connections, rank c.outputNode < rank c.inputNode)
    (fuel : Nat)
    (hrec : ∀ (h : NodeEditor) (x : Nat) (pr : List Nat) (tr : List Ev),
      agreeBelow rank (rank x) g h → rank x < fuel → x ∈ nodeIds g →
      ∃ pr₂ tr₂, processNode fuel h x pr tr = some (h, pr₂, tr₂)) :
    ∀ (L done : List Connection), g.connections = done ++ L →
    ∀ (h : NodeEditor) (nid : Nat) (gN : Node) (ps : List Pin) (pr : List Nat) (tr : List Ev),
      agreeBelow rank (rank nid) g h →
      findNodeById g nid = some gN →
      ps.map pinShape = gN.inputs.map pinShape →
      (∀ jj, pinDataAt ps jj =
        ((feedVals g nid jj done).getLast?).getD (pinDataAt gN.inputs jj)) →
      rank nid ≤ fuel →
      ∃ ps₂ pr₂ tr₂,
        processDepsAux (processNode fuel) L (setNodeInputs h nid ps) nid pr tr =
          some (setNodeInputs h nid ps₂, pr₂, tr₂) ∧
        ps₂.map pinShape = gN.inputs.map pinShape ∧
        (∀ jj, pinDataAt ps₂ jj =
          ((feedVals g nid jj (done ++ L)).getLast?).getD (pinDataAt gN.inputs jj)) := by
  intro L
  induction L with
  | nil =>
    intro done hsplit h nid gN ps pr tr hag hgN hps hdata hrk
    refine ⟨ps, pr, tr, processDepsAux_nil _ _ _ _ _, hps, ?_⟩
    intro jj
    rw [List.append_nil]
    exact hdata jj
  | cons c L ih =>
    intro done hsplit h nid gN ps pr tr hag hgN hps hdata hrk
    have hsplit' : g.connections = (done ++ [c]) ++ L := by
      rw [hsplit, List.append_assoc, List.singleton_append]
    have happ : done ++ c :: L = (done ++ [c]) ++ L := by simp
    have hgNh : findNodeById h nid = some gN :=
      agreeBelow_find_eq rank hag hgN (by rw [(findNodeById_mem hgN).2])
    have hstN : findNodeById (setNodeInputs h nid ps) nid = some { gN with inputs := ps } :=
      findNodeById_setNodeInputs_self h nid ps hgNh
    have hfpi : ∀ x, findPinIndex ps x = findPinIndex gN.inputs x :=
      findPinIndex_ids ps gN.inputs (pinIds_of_pinShapes hps)
    by_cases hc : (c.inputNode == nid) = true
    · have hcmem : c ∈ g.connections := by
        rw [hsplit]
        exact List.mem_append_right done (List.mem_cons_self c L)
      have hrc : rank c.outputNode < rank nid := by
        have := hacyc c hcmem
        rw [eq_of_beq hc] at this
        exact this
      have hne_out : c.outputNode ≠ nid := fun he => absurd (he ▸ hrc) (lt_irrefl _)
      have hst_out : findNodeById (setNodeInputs h nid ps) c.outputNode =
          findNodeById h c.outputNode := findNodeById_setNodeInputs_other h nid ps hne_out
      cases hu : findNodeById g c.outputNode with
      | none =>
        have hhu : findNodeById h c.outputNode = none := agreeBelow_find_none rank hag hu
        rw [processDepsAux_cons_noup _ c L _ nid pr tr hc (hst_out.trans hhu)]
        have hdataC : ∀ jj, pinDataAt ps jj =
            ((feedVals g nid jj (done ++ [c])).getLast?).getD (pinDataAt gN.inputs jj) := by
          intro jj
          rw [feedVals_append, feedVals_cons_noup g nid jj c [] hu]
          rw [show feedVals g nid jj ([] : List Connection) = [] from rfl, List.append_nil]
          exact hdata jj
        obtain ⟨ps₂, pr₂, tr₂, hrun, hshape₂, hdata₂⟩ :=
          ih (done ++ [c]) hsplit' h nid gN ps pr tr hag hgN hps hdataC hrk
        refine ⟨ps₂, pr₂, tr₂, hrun, hshape₂, ?_⟩
        intro jj
        rw [happ]
        exact hdata₂ jj
      | some gU =>
        obtain ⟨hU, hhU, hrelU⟩ := agreeBelow_find_some rank hag hu
        have hstU : findNodeById (setNodeInputs h nid ps) c.outputNode = some hU :=
          hst_out.trans hhU
        have hagU : agreeBelow rank (rank c.outputNode) g (setNodeInputs h nid ps) :=
          agreeBelow_setNodeInputs rank hag nid hgN ps hps (le_of_lt hrc) hrc
        have hmemU : c.outputNode ∈ nodeIds g :=
          (findNodeById_isSome_iff g c.outputNode).mp (by rw [hu]; rfl)
        obtain ⟨pr₁, tr₁, hrec₁⟩ := hrec (setNodeInputs h nid ps) c.outputNode pr tr hagU
          (lt_of_lt_of_le hrc hrk) hmemU
        rw [processDepsAux_cons_recsome _ c L _ nid pr tr hU _ pr₁ tr₁ hc hstU hrec₁]
        have houts : hU.outputs = gU.outputs := hrelU.2.1
        cases hoi : findPinIndex gU.outputs c.outputPin with
        | none =>
          have hoiU : findPinIndex hU.outputs c.outputPin = none := by rw [houts, hoi]
          have hcopy : copyConn (setNodeInputs h nid ps) c nid tr₁ =
              (setNodeInputs h nid ps, tr₁) :=
            copyConn_no_oi _ c nid tr₁ hstU hstN hoiU
          rw [hcopy]
          dsimp only
          have hdataC : ∀ jj, pinDataAt ps jj =
              ((feedVals g nid jj (done ++ [c])).getLast?).getD (pinDataAt gN.inputs jj) := by
            intro jj
            rw [feedVals_append, feedVals_cons_no_oi g nid jj c [] hu hgN hoi]
            rw [show feedVals g nid jj ([] : List Connection) = [] from rfl, List.append_nil]
            exact hdata jj
          obtain ⟨ps₂, pr₂, tr₂, hrun, hshape₂, hdata₂⟩ :=
            ih (done ++ [c]) hsplit' h nid gN ps pr₁ tr₁ hag hgN hps hdataC hrk
          refine ⟨ps₂, pr₂, tr₂, hrun, hshape₂, ?_⟩
          intro jj
          rw [happ]
          exact hdata₂ jj
        | some oi =>
          have hoiU : findPinIndex hU.outputs c.outputPin = some oi := by rw [houts, hoi]
          cases hii : findPinIndex gN.inputs c.inputPin with
          | none =>
            have hiiSt : findPinIndex ({ gN with inputs := ps } : Node).inputs c.inputPin = none := by
              show findPinIndex ps c.inputPin = none
              rw [hfpi, hii]
            have hcopy : copyConn (setNodeInputs h nid ps) c nid tr₁ =
                (setNodeInputs h nid ps, tr₁) :=
              copyConn_no_ii _ c nid tr₁ hstU hstN hoiU hiiSt
            rw [hcopy]
            dsimp only
            have hdataC : ∀ jj, pinDataAt ps jj =
                ((feedVals g nid jj (done ++ [c])).getLast?).getD (pinDataAt gN.inputs jj) := by
              intro jj
              rw [feedVals_append, feedVals_cons_no_ii g nid jj c [] hu hgN hoi hii]
              rw [show feedVals g nid jj ([] : List Connection) = [] from rfl, List.append_nil]
              exact hdata jj
            obtain ⟨ps₂, pr₂, tr₂, hrun, hshape₂, hdata₂⟩ :=
              ih (done ++ [c]) hsplit' h nid gN ps pr₁ tr₁ hag hgN hps hdataC hrk
            refine ⟨ps₂, pr₂, tr₂, hrun, hshape₂, ?_⟩
            intro jj
            rw [happ]
            exact hdata₂ jj
          | some ii =>
            have hiiSt : findPinIndex ({ gN with inputs := ps } : Node).inputs c.inputPin = some ii := by
              show findPinIndex ps c.inputPin = some ii
              rw [hfpi, hii]
            have hvalU : pinDataAt hU.outputs oi = pinDataAt gU.outputs oi := by rw [houts]
            by_cases hsrc : pinDataAt gU.outputs oi = []
            · have hcopy : copyConn (setNodeInputs h nid ps) c nid tr₁ =
                  (setNodeInputs h nid ps, tr₁) :=
                copyConn_empty _ c nid tr₁ hstU hstN hoiU hiiSt (hvalU.trans hsrc)
              rw [hcopy]
              dsimp only
              have hdataC : ∀ jj, pinDataAt ps jj =
                  ((feedVals g nid jj (done ++ [c])).getLast?).getD (pinDataAt gN.inputs jj) := by
                intro jj
                rw [feedVals_append, feedVals_cons_hit g nid jj c [] hc hu hgN hoi hii]
                rw [if_neg (fun hcond => hcond.2 hsrc)]
                rw [show feedVals g nid jj ([] : List Connection) = [] from rfl, List.append_nil]
                exact hdata jj
              obtain ⟨ps₂, pr₂, tr₂, hrun, hshape₂, hdata₂⟩ :=
                ih (done ++ [c]) hsplit' h nid gN ps pr₁ tr₁ hag hgN hps hdataC hrk
              refine ⟨ps₂, pr₂, tr₂, hrun, hshape₂, ?_⟩
              intro jj
              rw [happ]
              exact hdata₂ jj
            · have hlt : ii < ps.length :=
                findPinIndex_lt (by rw [hfpi, hii] : findPinIndex ps c.inputPin = some ii)
              have hcopy := copyConn_resolved (setNodeInputs h nid ps) c nid tr₁ hstU hstN
                hoiU hiiSt (by rw [hvalU]; exact hsrc)
              have hcollapse : updateNodeFirst (setNodeInputs h nid ps) nid
                  (fun m => { m with inputs := setPinData m.inputs ii (pinDataAt hU.outputs oi) }) =
                  setNodeInputs h nid (setPinData ps ii (pinDataAt gU.outputs oi)) := by
                unfold setNodeInputs updateNodeFirst
                dsimp only
                rw [updateFirstNode_comp nid (fun n => { n with inputs := ps })
                  (fun m => { m with inputs := setPinData m.inputs ii (pinDataAt hU.outputs oi) })
                  (fun n => rfl) h.nodes]
                rw [hvalU]
              rw [hcopy]
              dsimp only
              rw [hcollapse]
              have hdataC : ∀ jj, pinDataAt (setPinData ps ii (pinDataAt gU.outputs oi)) jj =
                  ((feedVals g nid jj (done ++ [c])).getLast?).getD (pinDataAt gN.inputs jj) := by
                intro jj
                rw [feedVals_append, feedVals_cons_hit g nid jj c [] hc hu hgN hoi hii]
                rw [pinDataAt_setPinData ps ii hlt _ jj]
                by_cases hjj : jj = ii
                · rw [if_pos hjj, if_pos ⟨hjj.symm, hsrc⟩]
                  rw [show feedVals g nid jj ([] : List Connection) = [] from rfl]
                  rw [List.getLast?_concat]
                  rfl
                · rw [if_neg hjj, if_neg (fun hcond => hjj (hcond.1.symm))]
                  rw [show feedVals g nid jj ([] : List Connection) = [] from rfl, List.append_nil]
                  exact hdata jj
              obtain ⟨ps₂, pr₂, tr₂, hrun, hshape₂, hdata₂⟩ :=
                ih (done ++ [c]) hsplit' h nid gN (setPinData ps ii (pinDataAt gU.outputs oi))
                  pr₁ (tr₁ ++ [Ev.copyEv c.outputNode oi nid ii (pinDataAt hU.outputs oi)])
                  hag hgN ((setPinData_shape ps ii _).trans hps) hdataC hrk
              refine ⟨ps₂, pr₂, tr₂, hrun, hshape₂, ?_⟩
              intro jj
              rw [happ]
              exact hdata₂ jj
    · have hc' : (c.inputNode == nid) = false := by simpa using hc
      rw [processDepsAux_cons_skip _ c L _ nid pr tr hc']
      have hdataC : ∀ jj, pinDataAt ps jj =
          ((feedVals g nid jj (done ++ [c])).getLast?).getD (pinDataAt gN.inputs jj) := by
        intro jj
        rw [feedVals_append, feedVals_cons_skip g nid jj c [] hc']
        rw [show feedVals g nid jj ([] : List Connection) = [] from rfl, List.append_nil]
        exact hdata jj
      obtain ⟨ps₂, pr₂, tr₂, hrun, hshape₂, hdata₂⟩ :=
        ih (done ++ [c]) hsplit' h nid gN ps pr tr hag hgN hps hdataC hrk
      refine ⟨ps₂, pr₂, tr₂, hrun, hshape₂, ?_⟩
      intro jj
      rw [happ]
      exact hdata₂ jj

/-- Replay of one node evaluation from a settled, output-consistent reference
state: the state is returned unchanged. -/
theorem replayNode (rank : Nat → Nat) (g : NodeEditor)
    (hset : settledById g) (hout : outConsistentById g)
    (hacyc : ∀ c ∈ g.connections, rank c.outputNode < rank c.inputNode) :
    ∀ (fuel : Nat) (h : NodeEditor) (x : Nat) (pr : List Nat) (tr : List Ev),
      agreeBelow rank (rank x) g h → rank x < fuel → x ∈ nodeIds g →
      ∃ pr₂ tr₂, processNode fuel h x pr tr = some (h, pr₂, tr₂) := by
  intro fuel
  induction fuel with
  | zero => intro h x pr tr _ hlt _; exact absurd hlt (Nat.not_lt_zero _)
  | succ fuel ih =>
    intro h x pr tr hag hlt hmem
    by_cases hxp : x ∈ pr
    · exact ⟨pr, tr, processNode_succ_mem fuel h x pr tr hxp⟩
    · obtain ⟨gN, hgN⟩ := Option.isSome_iff_exists.mp ((findNodeById_isSome_iff g x).mpr hmem)
      have hgNh : findNodeById h x = some gN :=
        agreeBelow_find_eq rank hag hgN (by rw [(findNodeById_mem hgN).2])
      have hself : setNodeInputs h x gN.inputs = h := setNodeInputs_self h x hgNh
      obtain ⟨ps₂, pr₂, tr₂, hrun, hshape₂, hdata₂⟩ :=
        replayDeps rank g hacyc fuel ih g.connections [] rfl h x gN gN.inputs pr tr hag hgN
          rfl (fun jj => rfl) (Nat.lt_succ_iff.mp hlt)
      have hps2 : ps₂ = gN.inputs := by
        refine pinList_ext ps₂ gN.inputs hshape₂ ?_
        intro jj
        have hd := hdata₂ jj
        rw [List.nil_append] at hd
        cases hlast : (feedVals g x jj g.connections).getLast? with
        | none => rw [hd, hlast]; rfl
        | some b =>
          have hsb : pinDataAt gN.inputs jj = b := hset x hmem gN hgN jj b hlast
          rw [hd, hlast, hsb]
          rfl
      rw [hps2, hself] at hrun
      have hconn : h.connections = g.connections := hag.1
      have hrun' : processDepsAux (processNode fuel) h.connections h x pr tr =
          some (h, pr₂, tr₂) := by rw [hconn]; exact hrun
      have hout1 : setOutData gN.outputs (gN.procFn (gN.inputs.map (fun p => p.data))) =
          gN.outputs := setOutData_eq_self gN.outputs _ (hout x hmem gN hgN)
      have hfinal : setNodeOutputs h x (gN.procFn (gN.inputs.map (·.data))) = h := by
        unfold setNodeOutputs updateNodeFirst
        have hup : updateFirstNode h.nodes x
            (fun n => { n with outputs := setOutData n.outputs (gN.procFn (gN.inputs.map (·.data))) }) = h.nodes := by
          refine updateFirstNode_eq_self x _ h.nodes ?_
          intro n hn
          have hng : n = gN := by
            have h2 : findNodeById h x = some n := hn
            rw [hgNh] at h2
            injection h2.symm
          rw [hng]
          show ({ gN with outputs := setOutData gN.outputs (gN.procFn (gN.inputs.map (·.data))) } : Node) = gN
          rw [show (gN.inputs.map (·.data)) = (gN.inputs.map (fun p => p.data)) from rfl, hout1]
        rw [hup]
      refine ⟨x :: pr₂, tr₂ ++ [Ev.procEv x (gN.inputs.map (·.data))], ?_⟩
      rw [processNode_succ_found fuel h x pr tr h pr₂ tr₂ gN hxp hrun' hgNh]
      rw [hfinal]

/-- Replay of the outer node loop from a settled, output-consistent state:
the state survives unchanged. -/
theorem replaySeq (rank : Nat → Nat) (g : NodeEditor)
    (hset : settledById g) (hout : outConsistentById g)
    (hacyc : ∀ c ∈ g.connections, rank c.outputNode < rank c.inputNode)
    (fuel : Nat) (hfuel : ∀ x ∈ nodeIds g, rank x < fuel) :
    ∀ (ids : List Nat), (∀ x ∈ ids, x ∈ nodeIds g) →
      ∀ (pr : List Nat) (tr : List Ev),
        ∃ pr₂ tr₂, processSeq fuel ids g pr tr = some (g, pr₂, tr₂) := by
  intro ids
  induction ids with
  | nil => intro _ pr tr; exact ⟨pr, tr, processSeq_nil fuel g pr tr⟩
  | cons x rest ih =>
    intro hmem pr tr
    have hx : x ∈ nodeIds g := hmem x (List.mem_cons_self x rest)
    obtain ⟨pr₁, tr₁, hstep⟩ := replayNode rank g hset hout hacyc fuel g x pr tr
      (agreeBelow_refl rank (rank x) g) (hfuel x hx) hx
    obtain ⟨pr₂, tr₂, hrest⟩ := ih (fun y hy => hmem y (List.mem_cons_of_mem x hy)) pr₁ tr₁
    exact ⟨pr₂, tr₂, by rw [processSeq_cons_some fuel x rest g pr tr g pr₁ tr₁ hstep]; exact hrest⟩

/-- Replay of a whole evaluation pass from a settled, output-consistent state
with only valid connections: the pass succeeds and returns the state
unchanged. -/
theorem replayPass (rank : Nat → Nat) (g : NodeEditor)
    (hset : settledById g) (hout : outConsistentById g)
    (hacyc : ∀ c ∈ g.connections, rank c.outputNode < rank c.inputNode)
    (hvalid : ∀ c ∈ g.connections, isConnectionValid g c = true)
    (fuel : Nat) (hfuel : ∀ x ∈ nodeIds g, rank x < fuel) :
    processGraphSt fuel g = some g := by
  have hprune : pruneConnections g = g := by
    unfold pruneConnections
    rw [List.filter_eq_self.mpr hvalid]
  have hids : ∀ x ∈ g.nodes.map (fun n => n.id), x ∈ nodeIds g := fun x hx => hx
  obtain ⟨pr₂, tr₂, hrun⟩ :=
    replaySeq rank g hset hout hacyc fuel hfuel (g.nodes.map (fun n => n.id)) hids [] []
  have hfull : processGraphFull fuel g = some (g, pr₂, tr₂) := by
    unfold processGraphFull
    rw [hprune]
    exact hrun
  unfold processGraphSt
  rw [hfull]
  rfl

/-- A successful indexed access is within bounds. -/
theorem get?_some_lt {α : Type _} {l : List α} {k : Nat} {a : α} (h : l.get? k = some a) :
    k < l.length :=
  (List.get?_eq_some.mp h).1

/-- An indexed access survives appending on the right. -/
theorem get?_append_some {α : Type _} {l e : List α} {k : Nat} {a : α}
    (h : l.get? k = some a) : (l ++ e).get? k = some a := by
  rw [List.get?_append (get?_some_lt h)]
  exact h

/-- Indexed access into a one-element extension. -/
theorem get?_concat_cases {α : Type _} {l : List α} {e : α} {k : Nat} {a : α}
    (h : (l ++ [e]).get? k = some a) : l.get? k = some a ∨ (k = l.length ∧ a = e) := by
  have hk := get?_some_lt h
  rw [List.length_append, List.length_singleton] at hk
  by_cases hkl : k < l.length
  · left
    rw [List.get?_append hkl] at h
    exact h
  · right
    have hke : k = l.length := by omega
    refine ⟨hke, ?_⟩
    rw [hke, List.get?_concat_length] at h
    injection h.symm

/-- Same node ids mean lookups succeed on the same ids. -/
theorem findNodeById_isSome_congr {g g' : NodeEditor} (h : nodeIds g = nodeIds g') (x : Nat) :
    (findNodeById g x).isSome = (findNodeById g' x).isSome := by
  by_cases hm : x ∈ nodeIds g
  · rw [(findNodeById_isSome_iff g x).mpr hm, (findNodeById_isSome_iff g' x).mpr (h ▸ hm)]
  · have h1 : ¬(findNodeById g x).isSome = true := fun hs => hm ((findNodeById_isSome_iff g x).mp hs)
    have h2 : ¬(findNodeById g' x).isSome = true := fun hs =>
      hm (h ▸ (findNodeById_isSome_iff g' x).mp hs)
    rw [Bool.not_eq_true] at h1 h2
    rw [h1, h2]

/-- A shape-preserving update of one node keeps the editor frame. -/
theorem updateNodeFirst_shapeEq (h : NodeEditor) (nid : Nat) (f : Node → Node)
    (hfs : ∀ m, nodeShape (f m) = nodeShape m) :
    shapeEq h (updateNodeFirst h nid f) :=
  ⟨(updateFirstNode_shape h.nodes nid f hfs).symm, rfl, rfl, rfl⟩

/-- A shape-preserving update of the (unprocessed) node `nid` preserves the
pass invariant over the processed set. -/
theorem passInv_updateAt (h : NodeEditor) (pr : List Nat) (nid : Nat) (f : Node → Node)
    (hfs : ∀ m, nodeShape (f m) = nodeShape m)
    (hinv : passInv h pr) (hnid : nid ∉ pr) :
    passInv (updateNodeFirst h nid f) pr := by
  have hfid : ∀ m, (f m).id = m.id := fun m => (nodeShape_inj (hfs m)).1
  have hids : nodeIds h = nodeIds (updateNodeFirst h nid f) :=
    nodeIds_of_shapeEq (updateNodeFirst_shapeEq h nid f hfs)
  have hconn : (updateNodeFirst h nid f).connections = h.connections := rfl
  have hlook : ∀ x, x ≠ nid →
      findNodeById (updateNodeFirst h nid f) x = findNodeById h x := by
    intro x hx
    rw [findNodeById_updateNodeFirst h nid x f hfid, if_neg hx]
  have hext : ∀ y ∈ pr, ∀ jj, feedVals (updateNodeFirst h nid f) y jj h.connections =
      feedVals h y jj h.connections := by
    intro y hy jj
    refine feedVals_ext h (updateNodeFirst h nid f) y jj h.connections ?_ ?_
    · intro c hc hcin
      by_cases hco : c.outputNode = nid
      · cases hun : findNodeById h nid with
        | none =>
          rw [hco, findNodeById_updateNodeFirst h nid nid f hfid, if_pos rfl, hun]
          rfl
        | some m =>
          exact absurd (hinv.2.1 y hy c hc (eq_of_beq hcin) (by rw [hco, hun]; rfl))
            (hco ▸ hnid)
      · rw [hlook c.outputNode hco]
    · have hyn : y ≠ nid := fun he => hnid (he ▸ hy)
      rw [hlook y hyn]
  refine ⟨fun y hy => hids ▸ hinv.1 y hy, ?_, ?_⟩
  · intro y hy c hc hcin hsome
    rw [← findNodeById_isSome_congr hids c.outputNode] at hsome
    exact hinv.2.1 y hy c hc hcin hsome
  · intro y hy n hn
    have hyn : y ≠ nid := fun he => hnid (he ▸ hy)
    rw [hlook y hyn] at hn
    obtain ⟨hsett, hout⟩ := hinv.2.2 y hy n hn
    refine ⟨?_, hout⟩
    intro ii b hlast
    rw [show (updateNodeFirst h nid f).connections = h.connections from rfl] at hlast
    rw [hext y hy ii] at hlast
    exact hsett ii b hlast

/-- A shape-preserving update of the (unprocessed) node `nid`, together with
appended non-process events, preserves the trace invariant. -/
theorem traceInv_updateAt (h : NodeEditor) (pr : List Nat) (tr : List Ev) (nid : Nat)
    (f : Node → Node) (hfs : ∀ m, nodeShape (f m) = nodeShape m)
    (hinv : traceInv h pr tr) (hpinv : passInv h pr) (hnid : nid ∉ pr)
    (e : List Ev) (he : procIds e = [])
    (hne : ∀ k x ins, e.get? k = some (Ev.procEv x ins) → False) :
    traceInv (updateNodeFirst h nid f) pr (tr ++ e) := by
  have hfid : ∀ m, (f m).id = m.id := fun m => (nodeShape_inj (hfs m)).1
  have hids : nodeIds h = nodeIds (updateNodeFirst h nid f) :=
    nodeIds_of_shapeEq (updateNodeFirst_shapeEq h nid f hfs)
  have hlook : ∀ x, x ≠ nid →
      findNodeById (updateNodeFirst h nid f) x = findNodeById h x := by
    intro x hx
    rw [findNodeById_updateNodeFirst h nid x f hfid, if_neg hx]
  refine ⟨?_, hinv.2.1, ?_, ?_⟩
  · rw [procIds_append, he, List.append_nil]
    exact hinv.1
  · intro k x ins hk
    by_cases hkl : k < tr.length
    · rw [List.get?_append hkl] at hk
      obtain ⟨hxpr, hins⟩ := hinv.2.2.1 k x ins hk
      refine ⟨hxpr, ?_⟩
      intro n hn
      have hxn : x ≠ nid := fun heq => hnid (heq ▸ hxpr)
      rw [hlook x hxn] at hn
      exact hins n hn
    · rw [List.get?_append_right (Nat.le_of_not_lt hkl)] at hk
      exact absurd hk (fun hk' => hne _ x ins hk')
  · intro y hy c hc hcin u hu n hn oi hoi ii hii hneb
    have hyn : y ≠ nid := fun heq => hnid (heq ▸ hy)
    have hcmem : c ∈ h.connections := hc
    have hsome : (findNodeById h c.outputNode).isSome = true := by
      rw [findNodeById_isSome_congr hids c.outputNode, hu]
      rfl
    have hco : c.outputNode ∈ pr := hpinv.2.1 y hy c hcmem hcin hsome
    have hcon : c.outputNode ≠ nid := fun heq => hnid (heq ▸ hco)
    rw [hlook c.outputNode hcon] at hu
    rw [hlook y hyn] at hn
    obtain ⟨a, b, k, insU, insN, hab, hbk, ha, hb, hk⟩ :=
      hinv.2.2.2 y hy c hcmem hcin u hu n hn oi hoi ii hii hneb
    exact ⟨a, b, k, insU, insN, hab, hbk, get?_append_some ha, get?_append_some hb,
      get?_append_some hk⟩

/-- Master induction over the dependency loop of a first evaluation pass:
it preserves the pass and trace invariants, only processes nodes of strictly
smaller rank, freezes already processed nodes, touches no node other than
`nid` and the newly processed ones, accumulates the feeds into the pins of
`nid`, processes every resolvable upstream of `nid`, and records each
non-empty copy after its upstream process event. -/
theorem passDeps (rank : Nat → Nat) (fuel : Nat)
    (hrec : ∀ (h : NodeEditor) (x : Nat) (pr : List Nat) (tr : List Ev)
      (h₂ : NodeEditor) (pr₂ : List Nat) (tr₂ : List Ev),
      processNode fuel h x pr tr = some (h₂, pr₂, tr₂) →
      (∀ c ∈ h.connections, rank c.outputNode < rank c.inputNode) →
      passInv h pr → traceInv h pr tr →
      passInv h₂ pr₂ ∧ traceInv h₂ pr₂ tr₂ ∧ x ∈ pr₂ ∧
      (∃ d, pr₂ = d ++ pr ∧ ∀ y ∈ d, rank y ≤ rank x) ∧
      (∀ y ∈ pr, findNodeById h₂ y = findNodeById h y) ∧
      (∀ z, z ∉ pr₂ → findNodeById h₂ z = findNodeById h z)) :
    ∀ (L : List Connection) (nid : Nat) (h : NodeEditor) (n₀ : Node)
      (pr : List Nat) (tr : List Ev) (h₂ : NodeEditor) (pr₂ : List Nat) (tr₂ : List Ev),
      processDepsAux (processNode fuel) L h nid pr tr = some (h₂, pr₂, tr₂) →
      (∀ c ∈ L, c ∈ h.connections) →
      (∀ c ∈ h.connections, rank c.outputNode < rank c.inputNode) →
      passInv h pr → traceInv h pr tr →
      nid ∉ pr →
      findNodeById h nid = some n₀ →
      passInv h₂ pr₂ ∧ traceInv h₂ pr₂ tr₂ ∧
      (∃ d, pr₂ = d ++ pr ∧ ∀ y ∈ d, rank y < rank nid) ∧
      nid ∉ pr₂ ∧
      (∀ y ∈ pr, findNodeById h₂ y = findNodeById h y) ∧
      (∀ z, z ∉ pr₂ → z ≠ nid → findNodeById h₂ z = findNodeById h z) ∧
      (∃ ps₂, findNodeById h₂ nid = some { n₀ with inputs := ps₂ } ∧
        ps₂.map pinShape = n₀.inputs.map pinShape ∧
        (∀ jj, pinDataAt ps₂ jj =
          ((feedVals h₂ nid jj L).getLast?).getD (pinDataAt n₀.inputs jj))) ∧
      (∀ c ∈ L, (c.inputNode == nid) = true →
        (findNodeById h₂ c.outputNode).isSome = true → c.outputNode ∈ pr₂) ∧
      (∀ c ∈ L, (c.inputNode == nid) = true →
        ∀ u, findNodeById h₂ c.outputNode = some u →
        ∀ oi, findPinIndex u.outputs c.outputPin = some oi →
        ∀ ii, findPinIndex n₀.inputs c.inputPin = some ii →
        pinDataAt u.outputs oi ≠ [] →
        ∃ a b insU, a < b ∧
          tr₂.get? a = some (Ev.procEv c.outputNode insU) ∧
          tr₂.get? b = some (Ev.copyEv c.outputNode oi nid ii (pinDataAt u.outputs oi))) := by
  intro L
  induction L with
  | nil =>
    intro nid h n₀ pr tr h₂ pr₂ tr₂ hstep hL hacyc hpinv htinv hnid hn₀
    rw [processDepsAux_nil] at hstep
    obtain ⟨rfl, rfl, rfl⟩ : h = h₂ ∧ pr = pr₂ ∧ tr = tr₂ := by
      refine ⟨?_, ?_, ?_⟩ <;> cases hstep <;> rfl
    refine ⟨hpinv, htinv, ⟨[], rfl, fun y hy => (List.not_mem_nil y hy).elim⟩, hnid,
      fun y _ => rfl, fun z _ _ => rfl, ⟨n₀.inputs, ?_, rfl, fun jj => rfl⟩,
      fun c hc => (List.not_mem_nil c hc).elim, fun c hc => (List.not_mem_nil c hc).elim⟩
    show findNodeById h nid = some { n₀ with inputs := n₀.inputs }
    rw [hn₀]
  | cons c L' ih =>
    intro nid h n₀ pr tr h₂ pr₂ tr₂ hstep hL hacyc hpinv htinv hnid hn₀
    have hcmem : c ∈ h.connections := hL c (List.mem_cons_self c L')
    have hL' : ∀ c' ∈ L', c' ∈ h.connections := fun c' hc' => hL c' (List.mem_cons_of_mem c hc')
    by_cases hcc : (c.inputNode == nid) = true
    · have hrkc : rank c.outputNode < rank nid := by
        have := hacyc c hcmem
        rw [eq_of_beq hcc] at this
        exact this
      have hcon : c.outputNode ≠ nid := fun he => absurd (he ▸ hrkc) (lt_irrefl _)
      cases hu0 : findNodeById h c.outputNode with
      | none =>
        rw [processDepsAux_cons_noup _ c L' h nid pr tr hcc hu0] at hstep
        obtain ⟨hpinv₂, htinv₂, hext, hnid₂, hfroz, hunt, hpins, hupc, htri⟩ :=
          ih nid h n₀ pr tr h₂ pr₂ tr₂ hstep hL' hacyc hpinv htinv hnid hn₀
        have hshape₂ := processDepsAux_shape (processNode fuel)
          (fun g a b c' g' b' c'' hx => processNode_shape fuel g a b c' g' b' c'' hx)
          L' h nid pr tr h₂ pr₂ tr₂ hstep
        have hids₂ : nodeIds h = nodeIds h₂ := nodeIds_of_shapeEq hshape₂.1
        have hu₂ : findNodeById h₂ c.outputNode = none := by
          have := findNodeById_isSome_congr hids₂ c.outputNode
          rw [hu0] at this
          cases hq : findNodeById h₂ c.outputNode with
          | none => rfl
          | some q => rw [hq] at this; cases this
        refine ⟨hpinv₂, htinv₂, hext, hnid₂, hfroz, hunt, ?_, ?_, ?_⟩
        · obtain ⟨ps₂, hps₂, hsh₂, hdata₂⟩ := hpins
          refine ⟨ps₂, hps₂, hsh₂, ?_⟩
          intro jj
          rw [feedVals_cons_noup h₂ nid jj c L' hu₂]
          exact hdata₂ jj
        · intro c' hc' hcin' hsome'
          cases List.mem_cons.mp hc' with
          | inl he =>
            rw [he, hu₂] at hsome'
            cases hsome'
          | inr hmem => exact hupc c' hmem hcin' hsome'
        · intro c' hc' hcin' u hu' oi hoi ii hii hneb
          cases List.mem_cons.mp hc' with
          | inl he =>
            rw [he, hu₂] at hu'
            cases hu'
          | inr hmem => exact htri c' hmem hcin' u hu' oi hoi ii hii hneb
      | some u₀ =>
        cases hr : processNode fuel h c.outputNode pr tr with
        | none =>
          rw [processDepsAux_cons_recnone _ c L' h nid pr tr hcc (by rw [hu0]; rfl) hr] at hstep
          cases hstep
        | some out₁ =>
          obtain ⟨h₁, pr₁, tr₁⟩ := out₁
          obtain ⟨hpinv₁, htinv₁, hupr₁, ⟨d₁, hd₁, hd₁r⟩, hfroz₁, hunt₁⟩ :=
            hrec h c.outputNode pr tr h₁ pr₁ tr₁ hr hacyc hpinv htinv
          have hshape₁ := processNode_shape fuel h c.outputNode pr tr h₁ pr₁ tr₁ hr
          have hconn₁ : h₁.connections = h.connections := hshape₁.1.2.1.symm
          have hnid₁ : nid ∉ pr₁ := by
            intro hmem
            rw [hd₁] at hmem
            cases List.mem_append.mp hmem with
            | inl hd => exact absurd (lt_of_le_of_lt (hd₁r nid hd) hrkc) (lt_irrefl _)
            | inr hp => exact hnid hp
          have hn₀₁ : findNodeById h₁ nid = some n₀ := by rw [hunt₁ nid hnid₁]; exact hn₀
          have hacyc₁ : ∀ c' ∈ h₁.connections, rank c'.outputNode < rank c'.inputNode := by
            rw [hconn₁]; exact hacyc
          have hL₁ : ∀ c' ∈ L', c' ∈ h₁.connections := by rw [hconn₁]; exact hL'
          have hids₁ : nodeIds h = nodeIds h₁ := nodeIds_of_shapeEq hshape₁.1
          have hsome₁ : (findNodeById h₁ c.outputNode).isSome = true := by
            rw [← findNodeById_isSome_congr hids₁ c.outputNode, hu0]; rfl
          obtain ⟨u₁, hu₁⟩ := Option.isSome_iff_exists.mp hsome₁
          rw [processDepsAux_cons_recsome _ c L' h nid pr tr u₀ h₁ pr₁ tr₁ hcc hu0 hr] at hstep
          cases hoi : findPinIndex u₁.outputs c.outputPin with
          | none =>
            rw [copyConn_no_oi h₁ c nid tr₁ hu₁ hn₀₁ hoi] at hstep
            dsimp only at hstep
            obtain ⟨hpinv₂, htinv₂, ⟨d₂, hd₂, hd₂r⟩, hnid₂, hfroz₂, hunt₂, hpins, hupc, htri⟩ :=
              ih nid h₁ n₀ pr₁ tr₁ h₂ pr₂ tr₂ hstep hL₁ hacyc₁ hpinv₁ htinv₁ hnid₁ hn₀₁
            have hprsub : ∀ y ∈ pr, y ∈ pr₁ := by
              intro y hy
              rw [hd₁]
              exact List.mem_append_right d₁ hy
            have hu₂ : findNodeById h₂ c.outputNode = some u₁ := by
              rw [hfroz₂ c.outputNode hupr₁]
              exact hu₁
            refine ⟨hpinv₂, htinv₂, ⟨d₂ ++ d₁, by rw [hd₂, hd₁, List.append_assoc], ?_⟩,
              hnid₂, ?_, ?_, ?_, ?_, ?_⟩
            · intro y hy
              cases List.mem_append.mp hy with
              | inl h2 => exact hd₂r y h2
              | inr h1 => exact lt_of_le_of_lt (hd₁r y h1) hrkc
            · intro y hy
              rw [hfroz₂ y (hprsub y hy)]
              exact hfroz₁ y hy
            · intro z hz hzn
              have hz₁ : z ∉ pr₁ := fun hmem => hz (by rw [hd₂]; exact List.mem_append_right d₂ hmem)
              rw [hunt₂ z hz hzn, hunt₁ z hz₁]
            · obtain ⟨ps₂, hps₂, hsh₂, hdata₂⟩ := hpins
              refine ⟨ps₂, hps₂, hsh₂, ?_⟩
              intro jj
              rw [feedVals_cons_no_oi h₂ nid jj c L' hu₂ hps₂ hoi]
              exact hdata₂ jj
            · intro c' hc' hcin' hsome'
              cases List.mem_cons.mp hc' with
              | inl he =>
                rw [hd₂]
                exact List.mem_append_right d₂ (he ▸ hupr₁)
              | inr hmem => exact hupc c' hmem hcin' hsome'
            · intro c' hc' hcin' u hu' oi' hoi' ii hii hneb
              cases List.mem_cons.mp hc' with
              | inl he =>
                rw [he, hu₂] at hu'
                have huu : u = u₁ := by injection hu'.symm
                rw [he] at hoi'
                rw [huu, hoi] at hoi'
                cases hoi'
              | inr hmem => exact htri c' hmem hcin' u hu' oi' hoi' ii hii hneb
          | some oi =>
            cases hii0 : findPinIndex n₀.inputs c.inputPin with
            | none =>
              rw [copyConn_no_ii h₁ c nid tr₁ hu₁ hn₀₁ hoi hii0] at hstep
              dsimp only at hstep
              obtain ⟨hpinv₂, htinv₂, ⟨d₂, hd₂, hd₂r⟩, hnid₂, hfroz₂, hunt₂, hpins, hupc, htri⟩ :=
                ih nid h₁ n₀ pr₁ tr₁ h₂ pr₂ tr₂ hstep hL₁ hacyc₁ hpinv₁ htinv₁ hnid₁ hn₀₁
              have hprsub : ∀ y ∈ pr, y ∈ pr₁ := by
                intro y hy
                rw [hd₁]
                exact List.mem_append_right d₁ hy
              have hu₂ : findNodeById h₂ c.outputNode = some u₁ := by
                rw [hfroz₂ c.outputNode hupr₁]
                exact hu₁
              refine ⟨hpinv₂, htinv₂, ⟨d₂ ++ d₁, by rw [hd₂, hd₁, List.append_assoc], ?_⟩,
                hnid₂, ?_, ?_, ?_, ?_, ?_⟩
              · intro y hy
                cases List.mem_append.mp hy with
                | inl h2 => exact hd₂r y h2
                | inr h1 => exact lt_of_le_of_lt (hd₁r y h1) hrkc
              · intro y hy
                rw [hfroz₂ y (hprsub y hy)]
                exact hfroz₁ y hy
              · intro z hz hzn
                have hz₁ : z ∉ pr₁ := fun hmem =>
                  hz (by rw [hd₂]; exact List.mem_append_right d₂ hmem)
                rw [hunt₂ z hz hzn, hunt₁ z hz₁]
              · obtain ⟨ps₂, hps₂, hsh₂, hdata₂⟩ := hpins
                refine ⟨ps₂, hps₂, hsh₂, ?_⟩
                intro jj
                have hii₂ : findPinIndex ({ n₀ with inputs := ps₂ } : Node).inputs c.inputPin
                    = none := by
                  show findPinIndex ps₂ c.inputPin = none
                  rw [findPinIndex_ids ps₂ n₀.inputs (pinIds_of_pinShapes hsh₂), hii0]
                rw [feedVals_cons_no_ii h₂ nid jj c L' hu₂ hps₂ hoi hii₂]
                exact hdata₂ jj
              · intro c' hc' hcin' hsome'
                cases List.mem_cons.mp hc' with
                | inl he =>
                  rw [hd₂]
                  exact List.mem_append_right d₂ (he ▸ hupr₁)
                | inr hmem => exact hupc c' hmem hcin' hsome'
              · intro c' hc' hcin' u hu' oi' hoi' ii hii hneb
                cases List.mem_cons.mp hc' with
                | inl he =>
                  rw [he] at hii
                  rw [hii0] at hii
                  cases hii
                | inr hmem => exact htri c' hmem hcin' u hu' oi' hoi' ii hii hneb
            | some ii =>
              by_cases hsrc : pinDataAt u₁.outputs oi = []
              · rw [copyConn_empty h₁ c nid tr₁ hu₁ hn₀₁ hoi hii0 hsrc] at hstep
                dsimp only at hstep
                obtain ⟨hpinv₂, htinv₂, ⟨d₂, hd₂, hd₂r⟩, hnid₂, hfroz₂, hunt₂, hpins, hupc, htri⟩ :=
                  ih nid h₁ n₀ pr₁ tr₁ h₂ pr₂ tr₂ hstep hL₁ hacyc₁ hpinv₁ htinv₁ hnid₁ hn₀₁
                have hprsub : ∀ y ∈ pr, y ∈ pr₁ := by
                  intro y hy
                  rw [hd₁]
                  exact List.mem_append_right d₁ hy
                have hu₂ : findNodeById h₂ c.outputNode = some u₁ := by
                  rw [hfroz₂ c.outputNode hupr₁]
                  exact hu₁
                refine ⟨hpinv₂, htinv₂, ⟨d₂ ++ d₁, by rw [hd₂, hd₁, List.append_assoc], ?_⟩,
                  hnid₂, ?_, ?_, ?_, ?_, ?_⟩
                · intro y hy
                  cases List.mem_append.mp hy with
                  | inl h2 => exact hd₂r y h2
                  | inr h1 => exact lt_of_le_of_lt (hd₁r y h1) hrkc
                · intro y hy
                  rw [hfroz₂ y (hprsub y hy)]
                  exact hfroz₁ y hy
                · intro z hz hzn
                  have hz₁ : z ∉ pr₁ := fun hmem =>
                    hz (by rw [hd₂]; exact List.mem_append_right d₂ hmem)
                  rw [hunt₂ z hz hzn, hunt₁ z hz₁]
                · obtain ⟨ps₂, hps₂, hsh₂, hdata₂⟩ := hpins
                  refine ⟨ps₂, hps₂, hsh₂, ?_⟩
                  intro jj
                  have hii₂ : findPinIndex ({ n₀ with inputs := ps₂ } : Node).inputs c.inputPin
                      = some ii := by
                    show findPinIndex ps₂ c.inputPin = some ii
                    rw [findPinIndex_ids ps₂ n₀.inputs (pinIds_of_pinShapes hsh₂), hii0]
                  rw [feedVals_cons_hit h₂ nid jj c L' hcc hu₂ hps₂ hoi hii₂]
                  rw [if_neg (fun hcond => hcond.2 hsrc)]
                  exact hdata₂ jj
                · intro c' hc' hcin' hsome'
                  cases List.mem_cons.mp hc' with
                  | inl he =>
                    rw [hd₂]
                    exact List.mem_append_right d₂ (he ▸ hupr₁)
                  | inr hmem => exact hupc c' hmem hcin' hsome'
                · intro c' hc' hcin' u hu' oi' hoi' ii' hii' hneb
                  cases List.mem_cons.mp hc' with
                  | inl he =>
                    rw [he, hu₂] at hu'
                    have huu : u = u₁ := by injection hu'.symm
                    rw [he] at hoi'
                    rw [huu, hoi] at hoi'
                    have hoo : oi' = oi := by injection hoi'.symm
                    rw [huu, hoo] at hneb
                    exact absurd hsrc hneb
                  | inr hmem => exact htri c' hmem hcin' u hu' oi' hoi' ii' hii' hneb
              · have hlen : ii < n₀.inputs.length := findPinIndex_lt hii0
                have hcopy := copyConn_resolved h₁ c nid tr₁ hu₁ hn₀₁ hoi hii0 hsrc
                rw [hcopy] at hstep
                dsimp only at hstep
                have hfs_cp : ∀ m : Node, nodeShape
                    ({ m with inputs := setPinData m.inputs ii (pinDataAt u₁.outputs oi) } : Node)
                    = nodeShape m := by
                  intro m
                  show (m.id, m.name, m.dirty,
                    (setPinData m.inputs ii (pinDataAt u₁.outputs oi)).map pinShape,
                    m.outputs.map pinShape, m.procFn) = nodeShape m
                  rw [setPinData_shape]
                  rfl
                have hfid_cp : ∀ m : Node,
                    (({ m with inputs := setPinData m.inputs ii (pinDataAt u₁.outputs oi) } : Node)).id
                    = m.id := fun m => rfl
                have hpinv₁' := passInv_updateAt h₁ pr₁ nid
                  (fun m => { m with inputs := setPinData m.inputs ii (pinDataAt u₁.outputs oi) })
                  hfs_cp hpinv₁ hnid₁
                have htinv₁' := traceInv_updateAt h₁ pr₁ tr₁ nid
                  (fun m => { m with inputs := setPinData m.inputs ii (pinDataAt u₁.outputs oi) })
                  hfs_cp htinv₁ hpinv₁ hnid₁
                  [Ev.copyEv c.outputNode oi nid ii (pinDataAt u₁.outputs oi)] rfl
                  (by intro k x ins hk
                      cases k with
                      | zero => exact absurd hk (by simp)
                      | succ k => cases k <;> cases hk)
                have hn₀₁' : findNodeById (updateNodeFirst h₁ nid
                    (fun m => { m with inputs := setPinData m.inputs ii (pinDataAt u₁.outputs oi) }))
                    nid = some { n₀ with inputs := setPinData n₀.inputs ii (pinDataAt u₁.outputs oi) } := by
                  rw [findNodeById_updateNodeFirst h₁ nid nid _ hfid_cp, if_pos rfl, hn₀₁]
                  rfl
                obtain ⟨hpinv₂, htinv₂, ⟨d₂, hd₂, hd₂r⟩, hnid₂, hfroz₂, hunt₂, hpins, hupc, htri⟩ :=
                  ih nid _ { n₀ with inputs := setPinData n₀.inputs ii (pinDataAt u₁.outputs oi) }
                    pr₁ (tr₁ ++ [Ev.copyEv c.outputNode oi nid ii (pinDataAt u₁.outputs oi)])
                    h₂ pr₂ tr₂ hstep
                    (by rw [show (updateNodeFirst h₁ nid (fun m => { m with
                      inputs := setPinData m.inputs ii (pinDataAt u₁.outputs oi) })).connections =
                      h₁.connections from rfl, hconn₁]
                        exact hL')
                    (by rw [show (updateNodeFirst h₁ nid (fun m => { m with
                      inputs := setPinData m.inputs ii (pinDataAt u₁.outputs oi) })).connections =
                      h₁.connections from rfl, hconn₁]
                        exact hacyc)
                    hpinv₁' htinv₁' hnid₁ hn₀₁'
                have hprsub : ∀ y ∈ pr, y ∈ pr₁ := by
                  intro y hy
                  rw [hd₁]
                  exact List.mem_append_right d₁ hy
                have hu₂ : findNodeById h₂ c.outputNode = some u₁ := by
                  rw [hfroz₂ c.outputNode hupr₁,
                    findNodeById_updateNodeFirst h₁ nid c.outputNode _ hfid_cp, if_neg hcon]
                  exact hu₁
                refine ⟨hpinv₂, htinv₂, ⟨d₂ ++ d₁, by rw [hd₂, hd₁, List.append_assoc], ?_⟩,
                  hnid₂, ?_, ?_, ?_, ?_, ?_⟩
                · intro y hy
                  cases List.mem_append.mp hy with
                  | inl h2 => exact hd₂r y h2
                  | inr h1 => exact lt_of_le_of_lt (hd₁r y h1) hrkc
                · intro y hy
                  have hyn : y ≠ nid := fun he => hnid (he ▸ hy)
                  rw [hfroz₂ y (hprsub y hy),
                    findNodeById_updateNodeFirst h₁ nid y _ hfid_cp, if_neg hyn]
                  exact hfroz₁ y hy
                · intro z hz hzn
                  have hz₁ : z ∉ pr₁ := fun hmem =>
                    hz (by rw [hd₂]; exact List.mem_append_right d₂ hmem)
                  rw [hunt₂ z hz hzn,
                    findNodeById_updateNodeFirst h₁ nid z _ hfid_cp, if_neg hzn]
                  exact hunt₁ z hz₁
                · obtain ⟨ps₂, hps₂0, hsh₂0, hdata₂⟩ := hpins
                  have hps₂ : findNodeById h₂ nid = some { n₀ with inputs := ps₂ } := hps₂0
                  have hsh₂ : ps₂.map pinShape = n₀.inputs.map pinShape :=
                    hsh₂0.trans (setPinData_shape n₀.inputs ii (pinDataAt u₁.outputs oi))
                  refine ⟨ps₂, hps₂, hsh₂, ?_⟩
                  intro jj
                  have hii₂ : findPinIndex ({ n₀ with inputs := ps₂ } : Node).inputs c.inputPin
                      = some ii := by
                    show findPinIndex ps₂ c.inputPin = some ii
                    rw [findPinIndex_ids ps₂ n₀.inputs (pinIds_of_pinShapes hsh₂), hii0]
                  rw [feedVals_cons_hit h₂ nid jj c L' hcc hu₂ hps₂ hoi hii₂]
                  have hdd := hdata₂ jj
                  rw [show ({ n₀ with inputs := setPinData n₀.inputs ii (pinDataAt u₁.outputs oi) } :
                    Node).inputs = setPinData n₀.inputs ii (pinDataAt u₁.outputs oi) from rfl] at hdd
                  rw [pinDataAt_setPinData n₀.inputs ii hlen (pinDataAt u₁.outputs oi) jj] at hdd
                  by_cases hjj : ii = jj
                  · rw [if_pos ⟨hjj, hsrc⟩]
                    rw [getLastD_cons (pinDataAt u₁.outputs oi) (pinDataAt n₀.inputs jj)
                      (feedVals h₂ nid jj L')]
                    rw [if_pos hjj.symm] at hdd
                    exact hdd
                  · rw [if_neg (fun hcond => hjj hcond.1)]
                    rw [if_neg (fun he => hjj he.symm)] at hdd
                    exact hdd
                · intro cp hcp hcinp hsomep
                  cases List.mem_cons.mp hcp with
                  | inl he =>
                    rw [hd₂]
                    exact List.mem_append_right d₂ (he ▸ hupr₁)
                  | inr hmem => exact hupc cp hmem hcinp hsomep
                · intro cp hcp hcinp u hup oip hoip iip hiip hneb
                  cases List.mem_cons.mp hcp with
                  | inl he =>
                    rw [he, hu₂] at hup
                    have huu : u = u₁ := by injection hup.symm
                    rw [he, huu, hoi] at hoip
                    have hoo : oip = oi := by injection hoip.symm
                    rw [he, hii0] at hiip
                    have hi2 : iip = ii := by injection hiip.symm
                    have htr₂e := (processDepsAux_shape (processNode fuel)
                      (fun gg aa bb cc gg2 bb2 cc2 hx => processNode_shape fuel gg aa bb cc gg2 bb2 cc2 hx)
                      L' _ nid pr₁ (tr₁ ++ [Ev.copyEv c.outputNode oi nid ii (pinDataAt u₁.outputs oi)])
                      h₂ pr₂ tr₂ hstep).2.2
                    obtain ⟨e₂, he₂⟩ := htr₂e
                    have hmrev : c.outputNode ∈ procIds
                        (tr₁ ++ [Ev.copyEv c.outputNode oi nid ii (pinDataAt u₁.outputs oi)]) := by
                      have h1 := htinv₁'.1
                      have h2 := hupr₁
                      rw [h1] at h2
                      exact List.mem_reverse.mp h2
                    obtain ⟨a, insU, ha⟩ := mem_procIds_get hmrev
                    have hb : (tr₁ ++ [Ev.copyEv c.outputNode oi nid ii
                        (pinDataAt u₁.outputs oi)]).get? tr₁.length =
                        some (Ev.copyEv c.outputNode oi nid ii (pinDataAt u₁.outputs oi)) :=
                      List.get?_concat_length tr₁ _
                    have hane : a ≠ tr₁.length := by
                      intro hae
                      rw [hae, hb] at ha
                      cases ha
                    have halt : a < tr₁.length := by
                      have := get?_some_lt ha
                      rw [List.length_append, List.length_singleton] at this
                      omega
                    refine ⟨a, tr₁.length, insU, halt, ?_, ?_⟩
                    · rw [he, he₂]
                      exact get?_append_some ha
                    · rw [he, huu, hoo, hi2, he₂]
                      exact get?_append_some hb
                  | inr hmem =>
                    have hiip2 : findPinIndex (setPinData n₀.inputs ii (pinDataAt u₁.outputs oi))
                        cp.inputPin = some iip := by
                      rw [findPinIndex_ids (setPinData n₀.inputs ii (pinDataAt u₁.outputs oi))
                        n₀.inputs (pinIds_of_pinShapes
                          (setPinData_shape n₀.inputs ii (pinDataAt u₁.outputs oi)))]
                      exact hiip
                    exact htri cp hmem hcinp u hup oip hoip iip hiip2 hneb
    · have hcc2 : (c.inputNode == nid) = false := by simpa using hcc
      rw [processDepsAux_cons_skip _ c L' h nid pr tr hcc2] at hstep
      obtain ⟨hpinv₂, htinv₂, hext, hnid₂, hfroz, hunt, hpins, hupc, htri⟩ :=
        ih nid h n₀ pr tr h₂ pr₂ tr₂ hstep hL' hacyc hpinv htinv hnid hn₀
      refine ⟨hpinv₂, htinv₂, hext, hnid₂, hfroz, hunt, ?_, ?_, ?_⟩
      · obtain ⟨ps₂, hps₂, hsh₂, hdata₂⟩ := hpins
        refine ⟨ps₂, hps₂, hsh₂, ?_⟩
        intro jj
        rw [feedVals_cons_skip h₂ nid jj c L' hcc2]
        exact hdata₂ jj
      · intro cp hcp hcinp hsomep
        cases List.mem_cons.mp hcp with
        | inl he =>
          rw [he] at hcinp
          rw [hcinp] at hcc2
          cases hcc2
        | inr hmem => exact hupc cp hmem hcinp hsomep
      · intro cp hcp hcinp u hup oip hoip iip hiip hneb
        cases List.mem_cons.mp hcp with
        | inl he =>
          rw [he] at hcinp
          rw [hcinp] at hcc2
          cases hcc2
        | inr hmem => exact htri cp hmem hcinp u hup oip hoip iip hiip hneb

/-- Master property of one `processNode` call in a first evaluation pass: it
preserves the pass and trace invariants, processes the node, adds only nodes
of rank at most the node's rank, freezes processed nodes and touches no
other node. -/
theorem passNode (rank : Nat → Nat) :
    ∀ (fuel : Nat) (h : NodeEditor) (x : Nat) (pr : List Nat) (tr : List Ev)
      (h₂ : NodeEditor) (pr₂ : List Nat) (tr₂ : List Ev),
      processNode fuel h x pr tr = some (h₂, pr₂, tr₂) →
      (∀ c ∈ h.connections, rank c.outputNode < rank c.inputNode) →
      passInv h pr → traceInv h pr tr →
      passInv h₂ pr₂ ∧ traceInv h₂ pr₂ tr₂ ∧ x ∈ pr₂ ∧
      (∃ d, pr₂ = d ++ pr ∧ ∀ y ∈ d, rank y ≤ rank x) ∧
      (∀ y ∈ pr, findNodeById h₂ y = findNodeById h y) ∧
      (∀ z, z ∉ pr₂ → findNodeById h₂ z = findNodeById h z) := by
  intro fuel
  induction fuel with
  | zero => intro h x pr tr h₂ pr₂ tr₂ hstep _ _ _; cases hstep
  | succ fuel ihf =>
    intro h x pr tr h₂ pr₂ tr₂ hstep hacyc hpinv htinv
    by_cases hmem : x ∈ pr
    · rw [processNode_succ_mem fuel h x pr tr hmem] at hstep
      obtain ⟨rfl, rfl, rfl⟩ : h = h₂ ∧ pr = pr₂ ∧ tr = tr₂ := by
        refine ⟨?_, ?_, ?_⟩ <;> cases hstep <;> rfl
      exact ⟨hpinv, htinv, hmem, ⟨[], rfl, fun y hy => (List.not_mem_nil y hy).elim⟩,
        fun y _ => rfl, fun z _ => rfl⟩
    · cases hdeps : processDepsAux (processNode fuel) h.connections h x pr tr with
      | none =>
        rw [processNode_succ_deps_none fuel h x pr tr hmem hdeps] at hstep
        cases hstep
      | some out₁ =>
        obtain ⟨h₁, pr₁, tr₁⟩ := out₁
        have hshape₁ := processDepsAux_shape (processNode fuel)
          (fun gg aa bb cc gg2 bb2 cc2 hx => processNode_shape fuel gg aa bb cc gg2 bb2 cc2 hx)
          h.connections h x pr tr h₁ pr₁ tr₁ hdeps
        have hids₁ : nodeIds h = nodeIds h₁ := nodeIds_of_shapeEq hshape₁.1
        have hconn₁ : h₁.connections = h.connections := hshape₁.1.2.1.symm
        cases hn₀ : findNodeById h x with
        | none =>
          have hnone₁ : findNodeById h₁ x = none := by
            have hc := findNodeById_isSome_congr hids₁ x
            rw [hn₀] at hc
            cases hq : findNodeById h₁ x with
            | none => rfl
            | some q => rw [hq] at hc; cases hc
          have hred : processNode (fuel + 1) h x pr tr = none := by
            simp only [processNode, if_neg hmem, hdeps, hnone₁]
          rw [hred] at hstep
          cases hstep
        | some n₀ =>
          obtain ⟨hpinv₁, htinv₁, ⟨d₁, hd₁, hd₁r⟩, hnid₁, hfroz₁, hunt₁,
              ⟨ps₂, hps₂, hsh₂, hdata₂⟩, hupc₁, htri₁⟩ :=
            passDeps rank fuel ihf h.connections x h n₀ pr tr h₁ pr₁ tr₁ hdeps
              (fun c hc => hc) hacyc hpinv htinv hmem hn₀
          rw [processNode_succ_found fuel h x pr tr h₁ pr₁ tr₁
            { n₀ with inputs := ps₂ } hmem hdeps hps₂] at hstep
          obtain ⟨rfl, rfl, rfl⟩ :
              setNodeOutputs h₁ x (({ n₀ with inputs := ps₂ } : Node).procFn
                (({ n₀ with inputs := ps₂ } : Node).inputs.map (·.data))) = h₂ ∧
              x :: pr₁ = pr₂ ∧
              tr₁ ++ [Ev.procEv x (({ n₀ with inputs := ps₂ } : Node).inputs.map (·.data))] = tr₂ := by
            refine ⟨?_, ?_, ?_⟩ <;> cases hstep <;> rfl
          have hfs_out : ∀ m : Node, nodeShape
              ({ m with outputs := setOutData m.outputs (n₀.procFn (ps₂.map (·.data))) } : Node)
              = nodeShape m := by
            intro m
            show (m.id, m.name, m.dirty, m.inputs.map pinShape,
              (setOutData m.outputs (n₀.procFn (ps₂.map (·.data)))).map pinShape, m.procFn)
              = nodeShape m
            rw [setOutData_shape]
            rfl
          have hfid_out : ∀ m : Node,
              (({ m with outputs := setOutData m.outputs (n₀.procFn (ps₂.map (·.data))) } : Node)).id
              = m.id := fun m => rfl
          have hseq : setNodeOutputs h₁ x (({ n₀ with inputs := ps₂ } : Node).procFn
              (({ n₀ with inputs := ps₂ } : Node).inputs.map (·.data))) =
              updateNodeFirst h₁ x
                (fun m => { m with outputs := setOutData m.outputs (n₀.procFn (ps₂.map (·.data))) }) := rfl
          rw [hseq]
          have hpinvT := passInv_updateAt h₁ pr₁ x
            (fun m => { m with outputs := setOutData m.outputs (n₀.procFn (ps₂.map (·.data))) })
            hfs_out hpinv₁ hnid₁
          have hlookT : findNodeById (updateNodeFirst h₁ x
              (fun m => { m with outputs := setOutData m.outputs (n₀.procFn (ps₂.map (·.data))) })) x
              = some { n₀ with inputs := ps₂, outputs := setOutData n₀.outputs (n₀.procFn (ps₂.map (·.data))) } := by
            rw [findNodeById_updateNodeFirst h₁ x x _ hfid_out, if_pos rfl, hps₂]
            rfl
          have hlookT_other : ∀ z, z ≠ x →
              findNodeById (updateNodeFirst h₁ x
                (fun m => { m with outputs := setOutData m.outputs (n₀.procFn (ps₂.map (·.data))) })) z
              = findNodeById h₁ z := by
            intro z hz
            rw [findNodeById_updateNodeFirst h₁ x z _ hfid_out, if_neg hz]
          have hidsT : nodeIds h₁ = nodeIds (updateNodeFirst h₁ x
              (fun m => { m with outputs := setOutData m.outputs (n₀.procFn (ps₂.map (·.data))) })) :=
            nodeIds_of_shapeEq (updateNodeFirst_shapeEq h₁ x _ hfs_out)
          have hconnT : (updateNodeFirst h₁ x
              (fun m => { m with outputs := setOutData m.outputs (n₀.procFn (ps₂.map (·.data))) })).connections
              = h.connections := hconn₁
          have hfeedT : ∀ jj, feedVals (updateNodeFirst h₁ x
              (fun m => { m with outputs := setOutData m.outputs (n₀.procFn (ps₂.map (·.data))) }))
              x jj h.connections = feedVals h₁ x jj h.connections := by
            intro jj
            refine feedVals_ext h₁ _ x jj h.connections ?_ ?_
            · intro c hc hcin
              have hrkc : rank c.outputNode < rank x := by
                have := hacyc c hc
                rw [eq_of_beq hcin] at this
                exact this
              have hcox : c.outputNode ≠ x := fun he => absurd (he ▸ hrkc) (lt_irrefl _)
              rw [hlookT_other c.outputNode hcox]
            · rw [hlookT, hps₂]
              rfl
          refine ⟨?_, ?_, List.mem_cons_self x pr₁, ⟨x :: d₁, by rw [hd₁]; rfl, ?_⟩, ?_, ?_⟩
          · refine ⟨?_, ?_, ?_⟩
            · intro y hy
              cases List.mem_cons.mp hy with
              | inl he =>
                rw [he]
                rw [← hidsT, ← hids₁]
                exact (findNodeById_isSome_iff h x).mp (by rw [hn₀]; rfl)
              | inr hp => exact hpinvT.1 y hp
            · intro y hy c hc hcin hsome
              have hcmem : c ∈ h.connections := hconnT ▸ hc
              have hsome₁ : (findNodeById h₁ c.outputNode).isSome = true := by
                rw [findNodeById_isSome_congr hidsT c.outputNode]
                exact hsome
              cases List.mem_cons.mp hy with
              | inl he =>
                refine List.mem_cons_of_mem x ?_
                have hcx : (c.inputNode == x) = true := by
                  rw [hcin.trans he]
                  exact beq_self_eq_true x
                exact hupc₁ c hcmem hcx hsome₁
              | inr hp =>
                exact List.mem_cons_of_mem x (hpinvT.2.1 y hp c hc hcin hsome)
            · intro y hy n hn
              cases List.mem_cons.mp hy with
              | inl he =>
                rw [he] at hn
                rw [hlookT] at hn
                have hnn : n = { n₀ with inputs := ps₂, outputs := setOutData n₀.outputs (n₀.procFn (ps₂.map (·.data))) } := by
                  injection hn.symm
                constructor
                · intro ii b hlast
                  rw [he, hconnT] at hlast
                  rw [hfeedT ii] at hlast
                  have hdd := hdata₂ ii
                  rw [hlast] at hdd
                  rw [hnn]
                  show pinDataAt ps₂ ii = b
                  rw [hdd]
                  rfl
                · rw [hnn]
                  show mergeBufs ((setOutData n₀.outputs (n₀.procFn (ps₂.map (·.data)))).map
                      (fun p => p.data)) (n₀.procFn (ps₂.map (fun p => p.data))) =
                    (setOutData n₀.outputs (n₀.procFn (ps₂.map (·.data)))).map (fun p => p.data)
                  rw [setOutData_data]
                  exact mergeBufs_idem (n₀.outputs.map (fun p => p.data)) _
              | inr hp => exact hpinvT.2.2 y hp n hn
          · refine ⟨?_, ?_, ?_, ?_⟩
            · rw [procIds_append]
              rw [show procIds [Ev.procEv x (({ n₀ with inputs := ps₂ } : Node).inputs.map (·.data))]
                = [x] from rfl]
              rw [List.reverse_append]
              rw [show ([x] : List Nat).reverse = [x] from rfl]
              rw [show ([x] : List Nat) ++ (procIds tr₁).reverse = x :: (procIds tr₁).reverse from rfl]
              rw [← htinv₁.1]
            · exact List.nodup_cons.mpr ⟨hnid₁, htinv₁.2.1⟩
            · intro k z ins hk
              cases get?_concat_cases hk with
              | inl hold =>
                obtain ⟨hzpr, hins⟩ := htinv₁.2.2.1 k z ins hold
                refine ⟨List.mem_cons_of_mem x hzpr, ?_⟩
                intro n hn
                have hzx : z ≠ x := fun he => hnid₁ (he ▸ hzpr)
                rw [hlookT_other z hzx] at hn
                exact hins n hn
              | inr hnew =>
                obtain ⟨hkl, heq⟩ := hnew
                have hzx : z = x := by injection heq
                have hinse : ins = ps₂.map (·.data) := by injection heq with h1 h2
                refine ⟨by rw [hzx]; exact List.mem_cons_self x pr₁, ?_⟩
                intro n hn
                rw [hzx, hlookT] at hn
                have hnn : n = { n₀ with inputs := ps₂, outputs := setOutData n₀.outputs (n₀.procFn (ps₂.map (·.data))) } := by
                  injection hn.symm
                rw [hinse, hnn]
            · intro y hy c hc hcin u hu n hn oi hoi ii hii hneb
              have hcmem : c ∈ h.connections := hconnT ▸ hc
              cases List.mem_cons.mp hy with
              | inr hp =>
                have hyx : y ≠ x := fun he => hnid₁ (he ▸ hp)
                have hsome₁ : (findNodeById h₁ c.outputNode).isSome = true := by
                  rw [findNodeById_isSome_congr hidsT c.outputNode, hu]
                  rfl
                have hco : c.outputNode ∈ pr₁ :=
                  hpinv₁.2.1 y hp c (by rw [hconn₁]; exact hcmem) hcin hsome₁
                have hcox : c.outputNode ≠ x := fun he => hnid₁ (he ▸ hco)
                rw [hlookT_other c.outputNode hcox] at hu
                rw [hlookT_other y hyx] at hn
                obtain ⟨a, b, k, insU, insN, hab, hbk, ha, hb, hk⟩ :=
                  htinv₁.2.2.2 y hp c (by rw [hconn₁]; exact hcmem) hcin u hu n hn oi hoi ii hii hneb
                exact ⟨a, b, k, insU, insN, hab, hbk, get?_append_some ha,
                  get?_append_some hb, get?_append_some hk⟩
              | inl he =>
                have hcx : c.inputNode = x := hcin.trans he
                have hcxb : (c.inputNode == x) = true := by
                  rw [hcx]
                  exact beq_self_eq_true x
                have hrkc : rank c.outputNode < rank x := by
                  have := hacyc c hcmem
                  rw [hcx] at this
                  exact this
                have hcox : c.outputNode ≠ x := fun h2 => absurd (h2 ▸ hrkc) (lt_irrefl _)
                rw [hlookT_other c.outputNode hcox] at hu
                rw [he, hlookT] at hn
                have hnn : n = { n₀ with inputs := ps₂, outputs := setOutData n₀.outputs (n₀.procFn (ps₂.map (·.data))) } := by
                  injection hn.symm
                have hii₀ : findPinIndex n₀.inputs c.inputPin = some ii := by
                  have hii' : findPinIndex ps₂ c.inputPin = some ii := by
                    rw [hnn] at hii
                    exact hii
                  rw [← findPinIndex_ids ps₂ n₀.inputs (pinIds_of_pinShapes hsh₂)]
                  exact hii'
                obtain ⟨a, b, insU, hab, ha, hb⟩ :=
                  htri₁ c hcmem hcxb u hu oi hoi ii hii₀ hneb
                refine ⟨a, b, tr₁.length, insU, ps₂.map (·.data), hab, get?_some_lt hb, ?_, ?_, ?_⟩
                · exact get?_append_some ha
                · rw [he]
                  exact get?_append_some hb
                · rw [he]
                  exact List.get?_concat_length tr₁ _
          · intro y hy
            cases List.mem_cons.mp hy with
            | inl he => rw [he]
            | inr hd => exact le_of_lt (hd₁r y hd)
          · intro y hy
            have hyx : y ≠ x := fun he => hmem (he ▸ hy)
            rw [hlookT_other y hyx]
            exact hfroz₁ y hy
          · intro z hz
            have hzx : z ≠ x := fun he => hz (he ▸ List.mem_cons_self x pr₁)
            have hz₁ : z ∉ pr₁ := fun hmem' => hz (List.mem_cons_of_mem x hmem')
            rw [hlookT_other z hzx]
            exact hunt₁ z hz₁ hzx

/-- Master property of the outer node loop of a first evaluation pass. -/
theorem passSeq (rank : Nat → Nat) (fuel : Nat) :
    ∀ (ids : List Nat) (h : NodeEditor) (pr : List Nat) (tr : List Ev)
      (h₂ : NodeEditor) (pr₂ : List Nat) (tr₂ : List Ev),
      processSeq fuel ids h pr tr = some (h₂, pr₂, tr₂) →
      (∀ c ∈ h.connections, rank c.outputNode < rank c.inputNode) →
      passInv h pr → traceInv h pr tr →
      passInv h₂ pr₂ ∧ traceInv h₂ pr₂ tr₂ ∧ (∀ x ∈ ids, x ∈ pr₂) ∧ (∃ d, pr₂ = d ++ pr) := by
  intro ids
  induction ids with
  | nil =>
    intro h pr tr h₂ pr₂ tr₂ hstep _ hpinv htinv
    rw [processSeq_nil] at hstep
    obtain ⟨rfl, rfl, rfl⟩ : h = h₂ ∧ pr = pr₂ ∧ tr = tr₂ := by
      refine ⟨?_, ?_, ?_⟩ <;> cases hstep <;> rfl
    exact ⟨hpinv, htinv, fun x hx => (List.not_mem_nil x hx).elim, ⟨[], rfl⟩⟩
  | cons nid rest ih =>
    intro h pr tr h₂ pr₂ tr₂ hstep hacyc hpinv htinv
    cases hnode : processNode fuel h nid pr tr with
    | none => rw [processSeq_cons_none fuel nid rest h pr tr hnode] at hstep; cases hstep
    | some out₁ =>
      obtain ⟨h₁, pr₁, tr₁⟩ := out₁
      rw [processSeq_cons_some fuel nid rest h pr tr h₁ pr₁ tr₁ hnode] at hstep
      obtain ⟨hpinv₁, htinv₁, hmem₁, ⟨d₁, hd₁, _⟩, _, _⟩ :=
        passNode rank fuel h nid pr tr h₁ pr₁ tr₁ hnode hacyc hpinv htinv
      have hconn₁ : h₁.connections = h.connections :=
        (processNode_shape fuel h nid pr tr h₁ pr₁ tr₁ hnode).1.2.1.symm
      obtain ⟨hpinv₂, htinv₂, hall₂, ⟨d₂, hd₂⟩⟩ :=
        ih h₁ pr₁ tr₁ h₂ pr₂ tr₂ hstep (by rw [hconn₁]; exact hacyc) hpinv₁ htinv₁
      refine ⟨hpinv₂, htinv₂, ?_, ⟨d₂ ++ d₁, by rw [hd₂, hd₁, List.append_assoc]⟩⟩
      intro x hx
      cases List.mem_cons.mp hx with
      | inl he =>
        rw [hd₂, he]
        exact List.mem_append_right d₂ hmem₁
      | inr hr => exact hall₂ x hr

/-- A first evaluation pass establishes the pass and trace invariants on its
final state, with every node processed. -/
theorem passEstablished (rank : Nat → Nat) (fuel : Nat) (g g' : NodeEditor)
    (pr : List Nat) (tr : List Ev)
    (hacyc : ∀ c ∈ g.connections, rank c.outputNode < rank c.inputNode)
    (hpass : processGraphFull fuel g = some (g', pr, tr)) :
    passInv g' pr ∧ traceInv g' pr tr ∧ (∀ x ∈ nodeIds g', x ∈ pr) := by
  have hstep : processSeq fuel ((pruneConnections g).nodes.map (fun n => n.id))
      (pruneConnections g) [] [] = some (g', pr, tr) := hpass
  have hacyc₀ : ∀ c ∈ (pruneConnections g).connections,
      rank c.outputNode < rank c.inputNode := by
    intro c hc
    exact hacyc c (List.mem_of_mem_filter hc)
  have hpinv₀ : passInv (pruneConnections g) [] :=
    ⟨fun y hy => (List.not_mem_nil y hy).elim,
     fun y hy => (List.not_mem_nil y hy).elim,
     fun y hy => (List.not_mem_nil y hy).elim⟩
  have htinv₀ : traceInv (pruneConnections g) [] [] := by
    refine ⟨rfl, List.nodup_nil, ?_, fun y hy => (List.not_mem_nil y hy).elim⟩
    intro k x ins hk
    cases k <;> cases hk
  obtain ⟨hpinv', htinv', hall, _⟩ := passSeq rank fuel _ _ [] [] g' pr tr hstep
    hacyc₀ hpinv₀ htinv₀
  refine ⟨hpinv', htinv', ?_⟩
  have hshape := processSeq_shape fuel ((pruneConnections g).nodes.map (fun n => n.id))
    (pruneConnections g) [] [] g' pr tr hstep
  have hids : nodeIds (pruneConnections g) = nodeIds g' := nodeIds_of_shapeEq hshape.1
  intro x hx
  refine hall x ?_
  show x ∈ nodeIds (pruneConnections g)
  rw [hids]
  exact hx

/-- After a first evaluation pass over an acyclic graph the final state is
settled, output-consistent, and all its connections are valid. -/
theorem passQuiescent (rank : Nat → Nat) (fuel : Nat) (g g' : NodeEditor)
    (pr : List Nat) (tr : List Ev)
    (hacyc : ∀ c ∈ g.connections, rank c.outputNode < rank c.inputNode)
    (hpass : processGraphFull fuel g = some (g', pr, tr)) :
    settledById g' ∧ outConsistentById g' ∧
    (∀ c ∈ g'.connections, isConnectionValid g' c = true) ∧
    (∀ c ∈ g'.connections, rank c.outputNode < rank c.inputNode) ∧
    nodeIds g' = nodeIds g := by
  obtain ⟨hpinv', htinv', hall⟩ := passEstablished rank fuel g g' pr tr hacyc hpass
  obtain ⟨hshape, hcur, hsel, hconns⟩ := processGraphFull_frame fuel g g' pr tr hpass
  have hids : nodeIds g' = nodeIds g := by
    have h1 : (g'.nodes.map nodeShape).map (fun t => t.1) =
        (g.nodes.map nodeShape).map (fun t => t.1) := by rw [hshape]
    simpa [nodeIds, List.map_map, nodeShape, Function.comp] using h1
  refine ⟨?_, ?_, ?_, ?_, hids⟩
  · intro x hx n hn
    exact (hpinv'.2.2 x (hall x hx) n hn).1
  · intro x hx n hn
    exact (hpinv'.2.2 x (hall x hx) n hn).2
  · intro c hc
    rw [hconns] at hc
    rw [← isConnectionValid_congr hids.symm c]
    exact (List.mem_filter.mp hc).2
  · intro c hc
    rw [hconns] at hc
    exact hacyc c (List.mem_of_mem_filter hc)

/-- Claim C8: for every acyclic graph state (witnessed by a rank function
strictly decreasing along connections) and sufficient fuel, running the
evaluation pass again right after a pass succeeds and returns the very same
editor state; in particular the output buffers on every node's output pins
are identical after the second pass. -/
theorem c8_idempotent (rank : Nat → Nat) (fuel : Nat) (g g₁ : NodeEditor)
    (hacyc : ∀ c ∈ g.connections, rank c.outputNode < rank c.inputNode)
    (hfuel : ∀ x ∈ nodeIds g, rank x < fuel)
    (h1 : processGraphSt fuel g = some g₁) :
    processGraphSt fuel g₁ = some g₁ ∧
    ∀ g₂, processGraphSt fuel g₁ = some g₂ →
      g₂.nodes.map (fun n => n.outputs.map (fun p => p.data)) =
        g₁.nodes.map (fun n => n.outputs.map (fun p => p.data)) := by
  obtain ⟨pr, tr, hfull⟩ := processGraphSt_inv fuel g g₁ h1
  obtain ⟨hset, hout, hvalid, hacyc₁, hids⟩ := passQuiescent rank fuel g g₁ pr tr hacyc hfull
  have hfuel₁ : ∀ x ∈ nodeIds g₁, rank x < fuel := fun x hx => hfuel x (hids ▸ hx)
  have hrep := replayPass rank g₁ hset hout hacyc₁ hvalid fuel hfuel₁
  refine ⟨hrep, ?_⟩
  intro g₂ h2
  rw [hrep] at h2
  have hg : g₁ = g₂ := by injection h2
  rw [hg]

/-- Witness for C8: the pass over the chain A→B→C computes the buffers, and a
second pass reproduces the state unchanged. -/
theorem c8_idempotent_witness :
    processGraphSt 8 exChain = some exChainDone ∧
    processGraphSt 8 exChainDone = some exChainDone :=
  ⟨rfl, (c8_idempotent (fun n => n) 8 exChain exChainDone (by decide) (by decide) rfl).1⟩

/-- Claim C1: over an acyclic graph (witnessed by a rank function strictly
decreasing along connections), one evaluation pass invokes each present
node's `process()` exactly once; every `process()` snapshot equals the
node's final input buffers; and for every surviving connection whose
resolved upstream output buffer is non-empty, the trace shows the upstream
`process()` strictly before a copy of that buffer into the resolved input
pin, strictly before the downstream `process()`. -/
theorem c1_dependency_order (rank : Nat → Nat) (fuel : Nat) (g g' : NodeEditor)
    (pr : List Nat) (tr : List Ev)
    (hacyc : ∀ c ∈ g.connections, rank c.outputNode < rank c.inputNode)
    (hpass : processGraphFull fuel g = some (g', pr, tr)) :
    (∀ x ∈ nodeIds g, procCount tr x = 1) ∧
    (∀ k x ins, tr.get? k = some (Ev.procEv x ins) →
      ∀ n, findNodeById g' x = some n → ins = n.inputs.map (fun p => p.data)) ∧
    (∀ c ∈ g'.connections, ∀ u, findNodeById g' c.outputNode = some u →
      ∀ n, findNodeById g' c.inputNode = some n →
      ∀ oi, findPinIndex u.outputs c.outputPin = some oi →
      ∀ ii, findPinIndex n.inputs c.inputPin = some ii →
      pinDataAt u.outputs oi ≠ [] →
      ∃ a b k insU insN, a < b ∧ b < k ∧
        tr.get? a = some (Ev.procEv c.outputNode insU) ∧
        tr.get? b = some (Ev.copyEv c.outputNode oi c.inputNode ii (pinDataAt u.outputs oi)) ∧
        tr.get? k = some (Ev.procEv c.inputNode insN)) := by
  obtain ⟨hpinv', htinv', hall⟩ := passEstablished rank fuel g g' pr tr hacyc hpass
  obtain ⟨hshape, _, _, _⟩ := processGraphFull_frame fuel g g' pr tr hpass
  have hids : nodeIds g' = nodeIds g := by
    have h1 : (g'.nodes.map nodeShape).map (fun t => t.1) =
        (g.nodes.map nodeShape).map (fun t => t.1) := by rw [hshape]
    simpa [nodeIds, List.map_map, nodeShape, Function.comp] using h1
  have hnd : (procIds tr).Nodup := by
    have h1 := htinv'.2.1
    rw [htinv'.1] at h1
    exact List.nodup_reverse.mp h1
  refine ⟨?_, ?_, ?_⟩
  · intro x hx
    have hx' : x ∈ pr := hall x (hids ▸ hx)
    have hxp : x ∈ procIds tr := by
      rw [htinv'.1] at hx'
      exact List.mem_reverse.mp hx'
    exact procCount_one tr x hnd hxp
  · intro k x ins hk n hn
    exact (htinv'.2.2.1 k x ins hk).2 n hn
  · intro c hc u hu n hn oi hoi ii hii hneb
    have hinpr : c.inputNode ∈ pr := by
      refine hall c.inputNode ?_
      exact (findNodeById_isSome_iff g' c.inputNode).mp (by rw [hn]; rfl)
    obtain ⟨a, b, k, insU, insN, hab, hbk, ha, hb, hk⟩ :=
      htinv'.2.2.2 c.inputNode hinpr c hc rfl u hu n hn oi hoi ii hii hneb
    exact ⟨a, b, k, insU, insN, hab, hbk, ha, hb, hk⟩

/-- Witness for C1 at the chain A→B→C: node B is processed exactly once, and
A's process event precedes the copy of `[5]` into B's input pin, which
precedes B's process event. -/
theorem c1_dependency_order_witness :
    procCount trChain 2 = 1 ∧
    (∃ a b k insU insN, a < b ∧ b < k ∧
      trChain.get? a = some (Ev.procEv 0 insU) ∧
      trChain.get? b = some (Ev.copyEv 0 0 2 0 [5]) ∧
      trChain.get? k = some (Ev.procEv 2 insN)) := by
  have H := c1_dependency_order (fun n => n) 8 exChain exChainDone [5, 2, 0] trChain
    (by decide) rfl
  refine ⟨H.1 2 (by decide), ?_⟩
  exact H.2.2 ⟨2, 0, 3, 1⟩ (by decide)
    ⟨0, "A", [], [⟨1, "out", [5], false⟩], false, fun _ => [[5]]⟩ rfl
    ⟨2, "B", [⟨3, "in", [5], false⟩], [⟨4, "out", [10], false⟩], false,
      fun ins => [(ins.headD []).map (· * 2)]⟩ rfl
    0 rfl 0 rfl (by decide)
